import Mathlib

/-!
# ScaleHMM: Baum-Welch with scaled forward-backward recursions

A shallow embedding of `src/src/scalehmm.cpp` (class `ScaleHMM`).

Modelling conventions

* `double` buffers (`A`, `proba`, `scalealpha`, ...) are functions into `ℚ`: arithmetic is
  exact.  A buffer of length `n` is a function on `Nat` that the code reads and writes
  only below `n`; a loop `for (k = 0; k < n; k++) buf[k] = e(k)` becomes
  `fun k => if k < n then e k else buf k`.
* where the rounding of `double` decides what the code does (the cancellation in
  `calc_sumgamma()`, the underflow of a product in `forward()`), the namespace `Binary64`
  follows the same source functions with every operation rounded to the nearest binary64
  number; the properties proved on the exact definitions say so.
* an accumulation `acc = 0; for (k = 0; k < n; k++) acc += f(k)` is `loopSum n f`.
* the log-likelihood `logP` and its difference `dlogP` take the IEEE special values
  (`-INFINITY` at construction, `NaN` from the logarithm of a negative number), so
  they live in `XDouble R`; the logarithm of a positive rational is the parameter
  `lg : ℚ → R` (instantiated with `Real.log` in the theorems that need its laws).
* the density objects (`densities.h`, not part of the sources) are a parameter
  `Density D`.
* the code addresses index `0` and index `T-1` of its buffers without a test, so it
  assumes `T ≥ 1`; the theorems that depend on it carry that hypothesis.
* logging, `R_CheckUserInterrupt()` and the `exit(1)` paths taken on a `NaN` are not
  modelled: in exact arithmetic a `NaN` can only come from a division by a zero scale
  factor, and the training loop reports that case as `nonfinite`.
* the wall clock is an oracle `elapsed : Nat → Int`, indexed by the number of readings.
* `int` sizes, counters and flat indices (`iN*N + jN`) are natural numbers or integers:
  they are assumed to stay within the range of `int`.
-/

/-- Accumulation loop `acc = 0.0; for (k = 0; k < n; k++) acc += f(k);`. -/
def loopSum : Nat → (Nat → ℚ) → ℚ
  | 0, _ => 0
  | n + 1, f => loopSum n f + f n

/-- A `double` that may hold an IEEE special value; finite values are exact. -/
inductive XDouble (R : Type) where
  | fin (x : R)
  | posInf
  | negInf
  | nan
  deriving DecidableEq, Repr

namespace XDouble

variable {R : Type} [LinearOrderedField R]

/-- IEEE addition on exact finite values. -/
def add : XDouble R → XDouble R → XDouble R
  | fin x, fin y => fin (x + y)
  | nan, _ => nan
  | _, nan => nan
  | posInf, negInf => nan
  | negInf, posInf => nan
  | posInf, _ => posInf
  | _, posInf => posInf
  | negInf, _ => negInf
  | _, negInf => negInf

/-- IEEE negation. -/
def neg : XDouble R → XDouble R
  | fin x => fin (-x)
  | posInf => negInf
  | negInf => posInf
  | nan => nan

/-- IEEE subtraction. -/
def sub (a b : XDouble R) : XDouble R := add a (neg b)

/-- C `fabs`. -/
def fabs : XDouble R → XDouble R
  | fin x => fin |x|
  | posInf => posInf
  | negInf => posInf
  | nan => nan

/-- C `isnan`. -/
def isnan : XDouble R → Bool
  | nan => true
  | _ => false

/-- IEEE `<`: false as soon as one side is NaN. -/
def lt : XDouble R → XDouble R → Bool
  | fin x, fin y => decide (x < y)
  | fin _, posInf => true
  | negInf, fin _ => true
  | negInf, posInf => true
  | _, _ => false

/-- C `log` of an exact finite value: `-inf` at zero, NaN below zero. -/
def log (lg : ℚ → R) (c : ℚ) : XDouble R :=
  if 0 < c then fin (lg c) else if c = 0 then negInf else nan

end XDouble

/-- The interface of one emission-density object (`Density` in `densities.h`):
`calc_densities` fills a row of `T` likelihood values, `update` re-fits the object
from a row of posterior weights. -/
structure Density (D : Type) where
  calc_densities : D → Nat → ℚ
  update : D → (Nat → ℚ) → D

/-- The member variables of `class ScaleHMM` (scalehmm.h). -/
structure ScaleHMM (R : Type) (D : Type) where
  T : Nat
  N : Nat
  A : Nat → Nat → ℚ
  proba : Nat → ℚ
  logP : XDouble R
  scalefactoralpha : Nat → ℚ
  scalealpha : Nat → Nat → ℚ
  scalebeta : Nat → Nat → ℚ
  densities : Nat → Nat → ℚ
  tdensities : Nat → Nat → ℚ
  sumgamma : Nat → ℚ
  sumxi : Nat → Nat → ℚ
  gamma : Nat → Nat → ℚ
  dlogP : XDouble R
  baumWelchTime_real : Int
  sumdiff_state1 : Int
  sumdiff_posterior : ℚ
  use_tdens : Bool
  densityFunctions : Nat → D

namespace ScaleHMM

variable {R D : Type}

/-- The constructor `ScaleHMM::ScaleHMM(int T, int N)`.  `allocDoubleMatrix` (utility.h)
is not part of the sources: `alloc` is the content of a matrix it returns; the vectors
come from `calloc` and are zero.  The constructor leaves `baumWelchTime_real`
unset (`time0`) and the caller fills `densityFunctions`. -/
def construct (T N : Nat) (alloc : Nat → Nat → ℚ) (time0 : Int)
    (densityFunctions : Nat → D) : ScaleHMM R D where
  T := T
  N := N
  A := alloc
  scalefactoralpha := fun _ => 0
  scalealpha := alloc
  scalebeta := alloc
  densities := alloc
  tdensities := alloc
  proba := fun _ => 0
  gamma := alloc
  sumgamma := fun _ => 0
  sumxi := alloc
  logP := XDouble.negInf
  dlogP := XDouble.posInf
  baumWelchTime_real := time0
  sumdiff_state1 := 0
  sumdiff_posterior := 0
  use_tdens := false
  densityFunctions := densityFunctions

/-- `ScaleHMM::initialize_transition_probs(double* initial_A, bool use_initial_params)`:
the new model together with the caller's buffer after the call. -/
def initialize_transition_probs (h : ScaleHMM R D) (initial_A : Nat → ℚ)
    (use_initial_params : Bool) : ScaleHMM R D × (Nat → ℚ) :=
  if use_initial_params then
    ({ h with A := fun iN jN =>
        if iN < h.N ∧ jN < h.N then initial_A (iN * h.N + jN) else h.A iN jN },
     initial_A)
  else
    let self : ℚ := 0.9
    let other : ℚ := (1.0 - self) / ((h.N : ℚ) - 1.0)
    let A1 : Nat → Nat → ℚ := fun iN jN =>
      if iN < h.N ∧ jN < h.N then (if iN = jN then self else other) else h.A iN jN
    ({ h with A := A1 },
     fun k => if k < h.N * h.N then A1 (k / h.N) (k % h.N) else initial_A k)

/-- `ScaleHMM::initialize_proba(double* initial_proba, bool use_initial_params)`. -/
def initialize_proba (h : ScaleHMM R D) (initial_proba : Nat → ℚ)
    (use_initial_params : Bool) : ScaleHMM R D × (Nat → ℚ) :=
  if use_initial_params then
    ({ h with proba := fun iN => if iN < h.N then initial_proba iN else h.proba iN },
     initial_proba)
  else
    let p1 : Nat → ℚ := fun iN => if iN < h.N then (1 : ℚ) / (h.N : ℚ) else h.proba iN
    ({ h with proba := p1 }, fun k => if k < h.N then p1 k else initial_proba k)

/-! ### Forward and backward recursions -/

/-- The local array `alpha` of `forward()` while time `t` is processed, on the branch
`not use_tdens`: the initialisation for `t = 0`, the induction step otherwise.  The
step reads `scalealpha[t-1][jN]`, which the previous step wrote as
`alpha[jN] / scalefactoralpha[t-1]` with `scalefactoralpha[t-1]` the sum of `alpha`. -/
def forwardAlpha (h : ScaleHMM R D) : Nat → Nat → ℚ
  | 0, iN => h.proba iN * h.densities iN 0
  | t + 1, iN =>
      loopSum h.N (fun jN =>
        forwardAlpha h t jN / loopSum h.N (forwardAlpha h t) * h.A jN iN)
        * h.densities iN (t + 1)

/-- The local array `alpha` of `forward()` on the branch `use_tdens`. -/
def forwardAlphaT (h : ScaleHMM R D) : Nat → Nat → ℚ
  | 0, iN => h.proba iN * h.tdensities 0 iN
  | t + 1, iN =>
      loopSum h.N (fun jN =>
        forwardAlphaT h t jN / loopSum h.N (forwardAlphaT h t) * h.A jN iN)
        * h.tdensities (t + 1) iN

/-- `ScaleHMM::forward()`: writes `scalefactoralpha[t]` and `scalealpha[t][iN]` for
`t < T`, `iN < N`.  (The `isnan` exits cannot fire on exact values with non-zero scale
factors; `baumWelch` below stops the model when a scale factor is zero.  Exact
arithmetic: no product underflows here; `Binary64.ScaleHMM.forward` rounds every
operation as `double` does and follows the exits.) -/
def forward (h : ScaleHMM R D) : ScaleHMM R D :=
  if !h.use_tdens then
    { h with
      scalefactoralpha := fun t =>
        if t < h.T then loopSum h.N (forwardAlpha h t) else h.scalefactoralpha t
      scalealpha := fun t iN =>
        if t < h.T ∧ iN < h.N then forwardAlpha h t iN / loopSum h.N (forwardAlpha h t)
        else h.scalealpha t iN }
  else
    { h with
      scalefactoralpha := fun t =>
        if t < h.T then loopSum h.N (forwardAlphaT h t) else h.scalefactoralpha t
      scalealpha := fun t iN =>
        if t < h.T ∧ iN < h.N then forwardAlphaT h t iN / loopSum h.N (forwardAlphaT h t)
        else h.scalealpha t iN }

/-- The local array `beta` of `backward()` while time `T-1-k` is processed, on the
branch `not use_tdens`: all ones for `k = 0`; the step for `t = T-2-k` reads
`scalebeta[t+1][jN]`, written just before as `beta[jN] / scalefactoralpha[t+1]`. -/
def backwardBeta (h : ScaleHMM R D) : Nat → Nat → ℚ
  | 0, _ => 1.0
  | k + 1, iN =>
      loopSum h.N (fun jN =>
        h.A iN jN * h.densities jN (h.T - 1 - k)
          * (backwardBeta h k jN / h.scalefactoralpha (h.T - 1 - k)))

/-- The local array `beta` of `backward()` on the branch `use_tdens`. -/
def backwardBetaT (h : ScaleHMM R D) : Nat → Nat → ℚ
  | 0, _ => 1.0
  | k + 1, iN =>
      loopSum h.N (fun jN =>
        h.A iN jN * h.tdensities (h.T - 1 - k) jN
          * (backwardBetaT h k jN / h.scalefactoralpha (h.T - 1 - k)))

/-- `ScaleHMM::backward()`: writes `scalebeta[t][iN]` for `t < T`, `iN < N`, from
`t = T-1` down to `0`, dividing by the scale factors that `forward()` left. -/
def backward (h : ScaleHMM R D) : ScaleHMM R D :=
  if !h.use_tdens then
    { h with
      scalebeta := fun t iN =>
        if t < h.T ∧ iN < h.N then backwardBeta h (h.T - 1 - t) iN / h.scalefactoralpha t
        else h.scalebeta t iN }
  else
    { h with
      scalebeta := fun t iN =>
        if t < h.T ∧ iN < h.N then backwardBetaT h (h.T - 1 - t) iN / h.scalefactoralpha t
        else h.scalebeta t iN }

/-! ### Statistics and likelihood -/

/-- `ScaleHMM::calc_sumgamma()`: the posteriors `gamma[iN][t]` and `sumgamma[iN]`, the
sum over all `t` minus the last column.  (Exact arithmetic: the subtraction cannot
cancel here; `Binary64.ScaleHMM.calc_sumgamma` rounds every operation as `double`
does.) -/
def calc_sumgamma (h : ScaleHMM R D) : ScaleHMM R D :=
  let gamma1 : Nat → Nat → ℚ := fun iN t =>
    if iN < h.N ∧ t < h.T then
      h.scalealpha t iN * h.scalebeta t iN * h.scalefactoralpha t
    else h.gamma iN t
  { h with
    gamma := gamma1
    sumgamma := fun iN =>
      if iN < h.N then loopSum h.T (fun t => gamma1 iN t) - gamma1 iN (h.T - 1)
      else h.sumgamma iN }

/-- `ScaleHMM::calc_sumxi()`: `sumxi[iN][jN]` accumulated over `t = 0 .. T-2`. -/
def calc_sumxi (h : ScaleHMM R D) : ScaleHMM R D :=
  if !h.use_tdens then
    { h with
      sumxi := fun iN jN =>
        if iN < h.N ∧ jN < h.N then
          loopSum (h.T - 1) (fun t =>
            h.scalealpha t iN * h.A iN jN * h.densities jN (t + 1) * h.scalebeta (t + 1) jN)
        else h.sumxi iN jN }
  else
    { h with
      sumxi := fun iN jN =>
        if iN < h.N ∧ jN < h.N then
          loopSum (h.T - 1) (fun t =>
            h.scalealpha t iN * h.A iN jN * h.tdensities (t + 1) jN * h.scalebeta (t + 1) jN)
        else h.sumxi iN jN }

/-- The loop of `calc_loglikelihood()`: `logP = 0.0; for t: logP += log(c[t])`. -/
def logLoop [LinearOrderedField R] (lg : ℚ → R) (c : Nat → ℚ) : Nat → XDouble R
  | 0 => XDouble.fin 0
  | t + 1 => XDouble.add (logLoop lg c t) (XDouble.log lg (c t))

/-- `ScaleHMM::calc_loglikelihood()`. -/
def calc_loglikelihood [LinearOrderedField R] (lg : ℚ → R) (h : ScaleHMM R D) :
    ScaleHMM R D :=
  { h with logP := logLoop lg h.scalefactoralpha h.T }

/-- `ScaleHMM::calc_densities()`: every density object fills its row of `densities`;
with `use_tdens` the time-major mirror is refreshed too. -/
def calc_densities (dens : Density D) (h : ScaleHMM R D) : ScaleHMM R D :=
  let d1 : Nat → Nat → ℚ := fun iN t =>
    if iN < h.N ∧ t < h.T then dens.calc_densities (h.densityFunctions iN) t
    else h.densities iN t
  { h with
    densities := d1
    tdensities := fun t iN =>
      if h.use_tdens ∧ t < h.T ∧ iN < h.N then d1 iN t else h.tdensities t iN }

/-- `ScaleHMM::calc_weights(double* weights)`: the caller's buffer after the call. -/
def calc_weights (h : ScaleHMM R D) (weights : Nat → ℚ) : Nat → ℚ :=
  fun iN => if iN < h.N then loopSum h.T (fun t => h.gamma iN t) / (h.T : ℚ) else weights iN

/-- `ScaleHMM::check_for_state_swap()`: an empty body. -/
def check_for_state_swap (h : ScaleHMM R D) : ScaleHMM R D := h

/-- `ScaleHMM::get_posteriors(double** post)`: the caller's matrix after the call. -/
def get_posteriors (h : ScaleHMM R D) (post : Nat → Nat → ℚ) : Nat → Nat → ℚ :=
  fun iN t => if iN < h.N ∧ t < h.T then h.gamma iN t else post iN t

/-- `ScaleHMM::get_A(int i, int j)`. -/
def get_A (h : ScaleHMM R D) (i j : Nat) : ℚ := h.A i j

/-- `ScaleHMM::get_logP()`. -/
def get_logP (h : ScaleHMM R D) : XDouble R := h.logP

/-! ### The training loop -/

/-- The block "Updating initial probabilities proba and transition matrix A" of
`baumWelch` (the `isnan` exit cannot fire: the divisor is a non-zero exact value). -/
def reestimate (h : ScaleHMM R D) : ScaleHMM R D :=
  { h with
    proba := fun iN => if iN < h.N then h.gamma iN 0 else h.proba iN
    A := fun iN jN =>
      if iN < h.N ∧ jN < h.N then
        (if h.sumgamma iN = 0 then h.A iN jN else h.sumxi iN jN / h.sumgamma iN)
      else h.A iN jN }

/-- The block "Update the parameters of the distribution" of `baumWelch`. -/
def updateDensities (dens : Density D) (h : ScaleHMM R D) : ScaleHMM R D :=
  { h with
    densityFunctions := fun iN =>
      if iN < h.N then dens.update (h.densityFunctions iN) (h.gamma iN)
      else h.densityFunctions iN }

/-- The loop "difference in state assignments" of `baumWelch`, over `t < n`: the
reference row is `gamma[2]`, whatever the number of states is. -/
def stateFlips (gamma gammaold : Nat → Nat → ℚ) : Nat → Int
  | 0 => 0
  | t + 1 =>
      stateFlips gamma gammaold t
        + |(if gamma 2 t > 0.5 then (1 : Int) else 0) - (if gammaold 2 t > 0.5 then 1 else 0)|

end ScaleHMM

/-- The local variables of `ScaleHMM::baumWelch`, and `reads`, the number of times the
wall clock has been read since `baumWelchStartTime_sec` was taken. -/
structure Locals (R : Type) where
  iteration : Int
  logPold : XDouble R
  gammaold : Nat → Nat → ℚ
  reads : Nat

/-- How one pass through the body of the main loop of `baumWelch` ends: at the end of
the body (`next`), at the `break` after "Convergence reached!" (`converged`), at the
`break` after `isnan(logPnew)` (`diverged`); `nonfinite` when `forward()` produced a
zero scale factor, where the code divides by zero and leaves exact arithmetic. -/
inductive Step (R D : Type) where
  | next (h : ScaleHMM R D) (l : Locals R)
  | converged (h : ScaleHMM R D) (l : Locals R)
  | diverged (h : ScaleHMM R D) (l : Locals R)
  | nonfinite

/-- Why the main loop of `baumWelch` was left: its condition failed, or one of the two
`break`s. -/
inductive Stop where
  | limit
  | converged
  | diverged
  deriving DecidableEq, Repr

/-- How the main loop of `baumWelch` ends in the model: it was left (why, and with which
model and locals), a scale factor was zero, or the fuel ran out. -/
inductive LoopEnd (R D : Type) where
  | left (stop : Stop) (h : ScaleHMM R D) (l : Locals R)
  | nonfinite
  | outOfFuel

/-- What `baumWelch` leaves on return: the model and the three in/out parameters. -/
structure Returned (R D : Type) where
  model : ScaleHMM R D
  maxiter : Int
  maxtime : Int
  eps : XDouble R
  stop : Stop

/-- The result of running `baumWelch`: it returned, or a scale factor was zero, or the
model ran out of fuel before the loop ended. -/
inductive Outcome (R D : Type) where
  | returned (r : Returned R D)
  | nonfinite
  | outOfFuel

namespace ScaleHMM

variable {R D : Type}

/-- One pass through the body of the main loop of `baumWelch` (lines 138-271).
`elapsed k` is the value `difftime(time(NULL), baumWelchStartTime_sec)` takes at the
`k`-th reading of the clock. -/
def iterate [LinearOrderedField R] (dens : Density D) (lg : ℚ → R) (elapsed : Nat → Int)
    (maxiter maxtime : Int) (eps : XDouble R) (h : ScaleHMM R D) (l : Locals R) :
    Step R D :=
  let iteration := l.iteration + 1
  let h := forward (calc_densities dens h)
  if ∀ t, t < h.T → h.scalefactoralpha t ≠ 0 then
    let h := calc_loglikelihood lg (backward h)
    let logPnew := h.logP
    if logPnew.isnan then
      Step.diverged h { l with iteration := iteration }
    else
      let h := { h with dlogP := XDouble.sub logPnew l.logPold }
      let h := calc_sumgamma (calc_sumxi h)
      let h := { h with sumdiff_state1 := stateFlips h.gamma l.gammaold h.T }
      let h := { h with
        sumdiff_posterior :=
          loopSum h.T (fun t => loopSum h.N (fun iN => |h.gamma iN t - l.gammaold iN t|)) }
      let gammaold : Nat → Nat → ℚ := fun iN t =>
        if iN < h.N ∧ t < h.T then h.gamma iN t else l.gammaold iN t
      -- print_uni_iteration(iteration) reads the clock
      let h := { h with baumWelchTime_real := elapsed l.reads }
      if XDouble.lt (XDouble.fabs h.dlogP) eps then
        Step.converged (check_for_state_swap h)
          { iteration := iteration, logPold := l.logPold, gammaold := gammaold,
            reads := l.reads + 1 }
      else
        let h := { h with baumWelchTime_real := elapsed (l.reads + 1) }
        let h :=
          if iteration = maxiter then check_for_state_swap h
          else if h.baumWelchTime_real ≥ maxtime ∧ maxtime ≥ 0 then check_for_state_swap h
          else h
        Step.next (updateDensities dens (reestimate h))
          { iteration := iteration, logPold := logPnew, gammaold := gammaold,
            reads := l.reads + 2 }
  else
    Step.nonfinite

/-- The main loop of `baumWelch`: `fuel` bounds the number of passes the model follows. -/
def baumWelchLoop [LinearOrderedField R] (dens : Density D) (lg : ℚ → R)
    (elapsed : Nat → Int) (maxiter maxtime : Int) (eps : XDouble R) :
    Nat → ScaleHMM R D → Locals R → LoopEnd R D
  | fuel, h, l =>
    if (h.baumWelchTime_real < maxtime ∨ maxtime < 0)
        ∧ (l.iteration < maxiter ∨ maxiter < 0) then
      match fuel with
      | 0 => LoopEnd.outOfFuel
      | fuel + 1 =>
        match iterate dens lg elapsed maxiter maxtime eps h l with
        | Step.next h1 l1 => baumWelchLoop dens lg elapsed maxiter maxtime eps fuel h1 l1
        | Step.converged h1 l1 => LoopEnd.left Stop.converged h1 l1
        | Step.diverged h1 l1 => LoopEnd.left Stop.diverged h1 l1
        | Step.nonfinite => LoopEnd.nonfinite
    else LoopEnd.left Stop.limit h l

/-- `ScaleHMM::baumWelch(int* maxiter, int* maxtime, double* eps)`.  `alloc` is the
content of the matrix `allocDoubleMatrix` returns for `gammaold`. -/
def baumWelch [LinearOrderedField R] (dens : Density D) (lg : ℚ → R) (elapsed : Nat → Int)
    (alloc : Nat → Nat → ℚ) (fuel : Nat) (h : ScaleHMM R D)
    (maxiter maxtime : Int) (eps : XDouble R) : Outcome R D :=
  -- print_uni_iteration(0) reads the clock
  let h := { h with baumWelchTime_real := elapsed 0 }
  let l : Locals R :=
    { iteration := 0, logPold := XDouble.negInf, gammaold := alloc, reads := 1 }
  match baumWelchLoop dens lg elapsed maxiter maxtime eps fuel h l with
  | LoopEnd.left stop h1 l1 =>
      Outcome.returned
        { model := { h1 with baumWelchTime_real := elapsed l1.reads }
          maxiter := l1.iteration
          eps := h1.dlogP
          maxtime := elapsed l1.reads
          stop := stop }
  | LoopEnd.outOfFuel => Outcome.outOfFuel
  | LoopEnd.nonfinite => Outcome.nonfinite

/-- The model and locals with which `baumWelch` enters its main loop. -/
def loopStart (elapsed : Nat → Int) (alloc : Nat → Nat → ℚ) (h : ScaleHMM R D) :
    ScaleHMM R D × Locals R :=
  ({ h with baumWelchTime_real := elapsed 0 },
   { iteration := 0, logPold := XDouble.negInf, gammaold := alloc, reads := 1 })

/-- The model and locals at the head of the main loop after `n` passes through the
whole body (each admitted by the loop condition and ending at the end of the body);
`none` when the loop is left earlier. -/
def passes [LinearOrderedField R] (dens : Density D) (lg : ℚ → R)
    (elapsed : Nat → Int) (maxiter maxtime : Int) (eps : XDouble R) :
    Nat → ScaleHMM R D → Locals R → Option (ScaleHMM R D × Locals R)
  | 0, h, l => some (h, l)
  | n + 1, h, l =>
    if (h.baumWelchTime_real < maxtime ∨ maxtime < 0)
        ∧ (l.iteration < maxiter ∨ maxiter < 0) then
      match iterate dens lg elapsed maxiter maxtime eps h l with
      | Step.next h1 l1 => passes dens lg elapsed maxiter maxtime eps n h1 l1
      | _ => none
    else none

/-! ### Quantities the properties are stated with -/

/-- The density value `b[i][t]` as the active branch of the recursions reads it:
`densities[i][t]`, or `tdensities[t][i]` with `use_tdens`. -/
def density (h : ScaleHMM R D) (i t : Nat) : ℚ :=
  if h.use_tdens then h.tdensities t i else h.densities i t

/-- The local array `alpha` of `forward()` on the branch the model takes. -/
def fwd (h : ScaleHMM R D) (t i : Nat) : ℚ :=
  if h.use_tdens then forwardAlphaT h t i else forwardAlpha h t i

/-- The local array `beta` of `backward()` on the branch the model takes. -/
def bwd (h : ScaleHMM R D) (k i : Nat) : ℚ :=
  if h.use_tdens then backwardBetaT h k i else backwardBeta h k i

end ScaleHMM

/-! ### The tests of the loop body -/

/-- Where a pass through the body of the main loop of `baumWelch` goes once
`calc_loglikelihood()` has left `logPnew` (lines 150-235): to the `break` under
`isnan(logPnew)`, to the `break` under `fabs(dlogP) < *eps`, or on to the block
"Updating initial probabilities proba and transition matrix A". -/
inductive Branch where
  | nanBreak
  | convergedBreak
  | reestimation
  deriving DecidableEq, Repr

/-- The two tests that decide where a pass goes: `isnan(logPnew)`, then
`fabs(dlogP) < *eps` with `dlogP = logPnew - logPold`.  The statements between them
(`calc_sumxi()`, `calc_sumgamma()`, the two diagnostics) hold no `break`, `return` or
`exit`. -/
def loopBranch {R : Type} [LinearOrderedField R] (logPnew logPold eps : XDouble R) : Branch :=
  if logPnew.isnan then Branch.nanBreak
  else if XDouble.lt (XDouble.fabs (XDouble.sub logPnew logPold)) eps then
    Branch.convergedBreak
  else Branch.reestimation

/-! ### The likelihood computed directly -/

/-- All state sequences `s_0 .. s_{T-1}` over the states `0 .. N-1`, as lists. -/
def stateSeqs (N : Nat) : Nat → List (List Nat)
  | 0 => [[]]
  | T + 1 => (List.range N).flatMap fun i => (stateSeqs N T).map fun s => i :: s

/-- The joint weight `pi[s_0]*b[s_0][0] * prod_{t=1..T-1} A[s_{t-1}][s_t]*b[s_t][t]` of a
state sequence `s` of length `T`. -/
def jointWeight (proba : Nat → ℚ) (A b : Nat → Nat → ℚ) (s : List Nat) : ℚ :=
  proba (s.getD 0 0) * b (s.getD 0 0) 0 *
    ∏ t in Finset.Ico 1 s.length, A (s.getD (t - 1) 0) (s.getD t 0) * b (s.getD t 0) t

/-- The total likelihood of the observations, computed directly: the sum of the joint
weights of all `N^T` state sequences. -/
def likelihood (N T : Nat) (proba : Nat → ℚ) (A b : Nat → Nat → ℚ) : ℚ :=
  ((stateSeqs N T).map (jointWeight proba A b)).sum

/-- The weight `prod A[.][.]*b[.][.]` of the transitions into the states of `rest`, the
first of which is entered from `prev` at time `t`. -/
def tailWeight (A b : Nat → Nat → ℚ) : Nat → Nat → List Nat → ℚ
  | _, _, [] => 1
  | prev, t, j :: rest => A prev j * b j t * tailWeight A b j (t + 1) rest

/-- The unscaled forward recursion run for `k` steps from the weights `v`, the first step
entering time `t0`. -/
def forwardFrom {K : Type} [Field K] (N : Nat) (A b : Nat → Nat → K) (v : Nat → K)
    (t0 : Nat) : Nat → Nat → K
  | 0, i => v i
  | k + 1, i =>
      (∑ j in Finset.range N, forwardFrom N A b v t0 k j * A j i) * b i (t0 + k)

/-- The unscaled forward variable: the joint weight of the observations up to time `t`
and state `i` at time `t`. -/
def alphaJoint {K : Type} [Field K] (N : Nat) (proba : Nat → K) (A b : Nat → Nat → K)
    (t i : Nat) : K :=
  forwardFrom N A b (fun i => proba i * b i 0) 1 t i

/-- The unscaled backward variable: the weight of `n` further observations, the first
at time `t`, after state `i`. -/
def betaJoint {K : Type} [Field K] (N : Nat) (A b : Nat → Nat → K) : Nat → Nat → Nat → K
  | 0, _, _ => 1
  | n + 1, t, i => ∑ j in Finset.range N, A i j * b j t * betaJoint N A b n (t + 1) j

/-- The likelihood of `n + 1` observations as the sum of the last forward variables. -/
def totalJoint {K : Type} [Field K] (N n : Nat) (proba : Nat → K) (A b : Nat → Nat → K) : K :=
  ∑ i in Finset.range N, alphaJoint N proba A b n i

/-- The posterior of state `i` at time `t` (of `n + 1` observations) in unscaled terms. -/
def gammaJoint {K : Type} [Field K] (N n : Nat) (proba : Nat → K) (A b : Nat → Nat → K)
    (t i : Nat) : K :=
  alphaJoint N proba A b t i * betaJoint N A b (n - t) (t + 1) i / totalJoint N n proba A b

/-- The posterior of the transition from `i` at time `t` to `j` at time `t + 1` in
unscaled terms. -/
def xiJoint {K : Type} [Field K] (N n : Nat) (proba : Nat → K) (A b : Nat → Nat → K)
    (t i j : Nat) : K :=
  alphaJoint N proba A b t i * A i j * b j (t + 1)
    * betaJoint N A b (n - (t + 1)) (t + 2) j / totalJoint N n proba A b

/-- The data-model invariants of the parameters: `proba` and every row of `A` are
non-negative and sum to one, and no density value is negative. -/
structure Stochastic {K : Type} [LinearOrderedField K] (N T : Nat) (proba : Nat → K)
    (A b : Nat → Nat → K) : Prop where
  proba_nonneg : ∀ i, i < N → 0 ≤ proba i
  proba_sum : ∑ i in Finset.range N, proba i = 1
  A_nonneg : ∀ i j, i < N → j < N → 0 ≤ A i j
  A_sum : ∀ i, i < N → ∑ j in Finset.range N, A i j = 1
  b_nonneg : ∀ i t, i < N → t < T → 0 ≤ b i t

/-- The parameters `proba1`, `A1` are the Baum-Welch reestimates of `proba`, `A`:
`proba1[i]` is the posterior of state `i` at time 0, and row `i` of `A1` is the expected
transition count divided by the expected occupancy over the times before the last, or
the old row when that occupancy is zero. -/
structure Reestimated {K : Type} [Field K] (N n : Nat) (proba : Nat → K) (A b : Nat → Nat → K)
    (proba1 : Nat → K) (A1 : Nat → Nat → K) : Prop where
  proba_eq : ∀ i, i < N → proba1 i = gammaJoint N n proba A b 0 i
  A_keep : ∀ i j, i < N → j < N →
    ∑ t in Finset.range n, gammaJoint N n proba A b t i = 0 → A1 i j = A i j
  A_eq : ∀ i j, i < N → j < N →
    ∑ t in Finset.range n, gammaJoint N n proba A b t i ≠ 0 →
    A1 i j = (∑ t in Finset.range n, xiJoint N n proba A b t i j)
      / ∑ t in Finset.range n, gammaJoint N n proba A b t i

/-! ### Example models -/

/-- A density object, identified by the number `d` of its state, whose likelihood is 2
at time `t = d` and 1 at the other times; `update` leaves it as it is. -/
def exampleDensity : Density Nat where
  calc_densities := fun d t => if d = t then 2 else 1
  update := fun d _ => d

/-- A model with three states and two observations: `proba = (1/2, 1/4, 1/4)`, `A` with
1/2 on the diagonal and 1/4 off it, densities as `exampleDensity` computes them. -/
def exampleHMM (R : Type) : ScaleHMM R Nat :=
  { ScaleHMM.construct 2 3 (fun _ _ => 0) 0 (fun i => i) with
    proba := fun i => if i = 0 then 1 / 2 else 1 / 4
    A := fun i j => if i = j then 1 / 2 else 1 / 4
    densities := fun i t => if i = t then 2 else 1 }

/-- The locals with which the first pass of `baumWelch` starts. -/
def exampleLocals (R : Type) : Locals R :=
  { iteration := 0, logPold := XDouble.negInf, gammaold := fun _ _ => 0, reads := 1 }

/-- A density object, identified by the number `d` of its state, whose likelihood is 2 for
state 1 and 1 for the other states at every time; `update` leaves it as it is. -/
def flatDensity : Density Nat where
  calc_densities := fun d _ => if d = 1 then 2 else 1
  update := fun d _ => d

/-- A model with three states and one observation: `proba = (1/2, 1/2, 0)`, every entry
of `A` 1/3. -/
def singleHMM (R : Type) : ScaleHMM R Nat :=
  { ScaleHMM.construct 1 3 (fun _ _ => 0) 0 (fun i => i) with
    proba := fun i => if i < 2 then 1 / 2 else 0
    A := fun _ _ => 1 / 3 }

/-- The same model with the initial weights `proba = (2, 0, 0)`, which do not sum to
one (`initialize_proba` copies the caller's values as they are). -/
def unnormalisedHMM (R : Type) : ScaleHMM R Nat :=
  { ScaleHMM.construct 1 3 (fun _ _ => 0) 0 (fun i => i) with
    proba := fun i => if i = 0 then 2 else 0
    A := fun _ _ => 1 / 3 }

/-- The example model on the branch `use_tdens`, after `calc_densities()` has filled both
layouts of the density values. -/
def mirroredHMM (R : Type) : ScaleHMM R Nat :=
  ScaleHMM.calc_densities exampleDensity { exampleHMM R with use_tdens := true }

/-- A model with three states and one observation whose initial weights are all zero
(`initialize_proba` copies the caller's values as they are); every entry of `A` is
1/3. -/
def zeroHMM (R : Type) : ScaleHMM R Nat :=
  { ScaleHMM.construct 1 3 (fun _ _ => 0) 0 (fun i => i) with
    proba := fun _ => 0
    A := fun _ _ => 1 / 3 }

/-- The same model with the initial weights `proba = (-1, 0, 0)`. -/
def negativeHMM (R : Type) : ScaleHMM R Nat :=
  { ScaleHMM.construct 1 3 (fun _ _ => 0) 0 (fun i => i) with
    proba := fun i => if i = 0 then -1 else 0
    A := fun _ _ => 1 / 3 }

/-- A model with two states and four observations, as in the end-to-end scenario:
`proba = (1/2, 1/2)`, `A` with 9/10 on the diagonal and 1/10 off it.  `alloc` is the
content of the memory `allocDoubleMatrix` hands out, followed past the rows of a
matrix. -/
def twoStateHMM (R : Type) (alloc : Nat → Nat → ℚ) : ScaleHMM R Nat :=
  { ScaleHMM.construct 4 2 alloc 0 (fun i => i) with
    proba := fun _ => 1 / 2
    A := fun i j => if i = j then 9 / 10 else 1 / 10 }

/-! ### The same functions in binary64 arithmetic

The definitions above compute with exact rationals.  The source computes with `double`:
every `+`, `-`, `*` and `/` is rounded to the nearest binary64 number, ties to even
(each operation on its own: no fused multiply-add, no extended precision).  The
definitions of this section follow the same source functions with every operation
rounded, the `isnan` tests and their `exit(1)` included.  A `double` is an `XDouble ℚ`:
a finite value is the rational it stands for (the two zeros are one value, which is the
zero `+0.0` where the code divides by it: a scale factor accumulated from `0.0`). -/

namespace Binary64

open XDouble

/-- The number of times `n` can be halved before it drops below 2, at most `fuel` times:
`floor (log2 n)` for `1 ≤ n` when `fuel` is large enough (`fuel = n` is). -/
def log2Fuel : Nat → Nat → Nat
  | 0, _ => 0
  | fuel + 1, n => if n < 2 then 0 else log2Fuel fuel (n / 2) + 1

/-- `floor (log2 n)` for `1 ≤ n`. -/
def natLog2 (n : Nat) : Nat := log2Fuel n n

/-- `floor (log2 |x|)` for a rational `x ≠ 0`: the difference of the logarithms of
numerator and denominator, or one less. -/
def floorLog2 (x : ℚ) : Int :=
  let k : Int := (natLog2 x.num.natAbs : Int) - (natLog2 x.den : Int)
  if (2 : ℚ) ^ k ≤ |x| then k else k - 1

/-- The exponent `e` for which the binary64 numbers around `x ≠ 0` are the multiples of
`2^e`: 53 significant bits for a normal number, `2^-1074` for a subnormal one. -/
def ulpExponent (x : ℚ) : Int := max (floorLog2 x) (-1022) - 52

/-- The nearest integer, a tie going to the even one. -/
def roundHalfEven (q : ℚ) : Int :=
  if q - (⌊q⌋ : ℚ) < 1 / 2 then ⌊q⌋
  else if 1 / 2 < q - (⌊q⌋ : ℚ) then ⌊q⌋ + 1
  else if ⌊q⌋ % 2 = 0 then ⌊q⌋ else ⌊q⌋ + 1

/-- The binary64 number nearest to the rational `x` (round to nearest, ties to even); a
result of magnitude `2^1024` or more is an infinity. -/
def round (x : ℚ) : XDouble ℚ :=
  if x = 0 then fin 0
  else
    let y : ℚ := (roundHalfEven (x / 2 ^ ulpExponent x) : ℚ) * 2 ^ ulpExponent x
    if (2 : ℚ) ^ (1024 : Nat) ≤ |y| then (if 0 < y then posInf else negInf) else fin y

/-- Rounding of an exact result that may be a special value. -/
def roundX : XDouble ℚ → XDouble ℚ
  | fin x => round x
  | posInf => posInf
  | negInf => negInf
  | nan => nan

/-- The exact product of two doubles, with the IEEE special cases. -/
def mulExact : XDouble ℚ → XDouble ℚ → XDouble ℚ
  | fin x, fin y => fin (x * y)
  | nan, _ => nan
  | _, nan => nan
  | fin x, posInf => if 0 < x then posInf else if x < 0 then negInf else nan
  | fin x, negInf => if 0 < x then negInf else if x < 0 then posInf else nan
  | posInf, fin y => if 0 < y then posInf else if y < 0 then negInf else nan
  | negInf, fin y => if 0 < y then negInf else if y < 0 then posInf else nan
  | posInf, posInf => posInf
  | posInf, negInf => negInf
  | negInf, posInf => negInf
  | negInf, negInf => posInf

/-- The exact quotient of two doubles, with the IEEE special cases; a zero divisor is
`+0.0`. -/
def divExact : XDouble ℚ → XDouble ℚ → XDouble ℚ
  | fin x, fin y =>
      if y = 0 then (if 0 < x then posInf else if x < 0 then negInf else nan)
      else fin (x / y)
  | nan, _ => nan
  | _, nan => nan
  | fin _, posInf => fin 0
  | fin _, negInf => fin 0
  | posInf, fin y => if 0 ≤ y then posInf else negInf
  | negInf, fin y => if 0 ≤ y then negInf else posInf
  | posInf, posInf => nan
  | posInf, negInf => nan
  | negInf, posInf => nan
  | negInf, negInf => nan

/-- The `double` operation `a + b`. -/
def add (a b : XDouble ℚ) : XDouble ℚ := roundX (XDouble.add a b)

/-- The `double` operation `a - b`. -/
def sub (a b : XDouble ℚ) : XDouble ℚ := roundX (XDouble.sub a b)

/-- The `double` operation `a * b`. -/
def mul (a b : XDouble ℚ) : XDouble ℚ := roundX (mulExact a b)

/-- The `double` operation `a / b`. -/
def div (a b : XDouble ℚ) : XDouble ℚ := roundX (divExact a b)

/-- The comparison `a == 0`: false for NaN and the infinities. -/
def isZero : XDouble ℚ → Bool
  | fin x => decide (x = 0)
  | _ => false

/-- Accumulation loop `acc = 0.0; for (k = 0; k < n; k++) acc += f(k);` in `double`. -/
def loopSum : Nat → (Nat → XDouble ℚ) → XDouble ℚ
  | 0, _ => fin 0
  | n + 1, f => add (loopSum n f) (f n)

/-- The member variables of `class ScaleHMM` that the recursions, the statistics and the
reestimation read and write, as `double`s. -/
structure ScaleHMM where
  T : Nat
  N : Nat
  A : Nat → Nat → XDouble ℚ
  proba : Nat → XDouble ℚ
  scalefactoralpha : Nat → XDouble ℚ
  scalealpha : Nat → Nat → XDouble ℚ
  scalebeta : Nat → Nat → XDouble ℚ
  densities : Nat → Nat → XDouble ℚ
  tdensities : Nat → Nat → XDouble ℚ
  sumgamma : Nat → XDouble ℚ
  sumxi : Nat → Nat → XDouble ℚ
  gamma : Nat → Nat → XDouble ℚ
  use_tdens : Bool

namespace ScaleHMM

/-- The density value `b[i][t]` as the active branch reads it: `densities[i][t]`, or
`tdensities[t][i]` with `use_tdens` (the two branches of `forward()`, `backward()` and
`calc_sumxi()` differ in nothing else). -/
def density (h : ScaleHMM) (i t : Nat) : XDouble ℚ :=
  if h.use_tdens then h.tdensities t i else h.densities i t

/-- The local array `alpha` of `forward()` while time `t` is processed:
`proba[iN] * densities[iN][0]` for `t = 0`, `helpsum * densities[iN][t]` afterwards, with
`helpsum` accumulated from `scalealpha[t-1][jN] * A[jN][iN]` and `scalealpha[t-1][jN]`
stored as `alpha[jN] / scalefactoralpha[t-1]`. -/
def forwardAlpha (h : ScaleHMM) : Nat → Nat → XDouble ℚ
  | 0, iN => mul (h.proba iN) (density h iN 0)
  | t + 1, iN =>
      mul (loopSum h.N (fun jN =>
          mul (div (forwardAlpha h t jN) (loopSum h.N (forwardAlpha h t))) (h.A jN iN)))
        (density h iN (t + 1))

/-- The value `forward()` stores in `scalefactoralpha[t]`: `alpha` accumulated from
`0.0`. -/
def forwardScalefactor (h : ScaleHMM) (t : Nat) : XDouble ℚ :=
  loopSum h.N (forwardAlpha h t)

/-- The value `forward()` stores in `scalealpha[t][iN]`. -/
def forwardScalealpha (h : ScaleHMM) (t iN : Nat) : XDouble ℚ :=
  div (forwardAlpha h t iN) (forwardScalefactor h t)

/-- `ScaleHMM::forward()`: `none` when it ends in `exit(1)`, which it does when some
`scalealpha[t][iN]` with `1 ≤ t < T` and `iN < N` is NaN (the values of `t = 0` are not
tested). -/
def forward (h : ScaleHMM) : Option ScaleHMM :=
  if (List.range h.T).any (fun t =>
      decide (1 ≤ t) && (List.range h.N).any (fun iN => (forwardScalealpha h t iN).isnan))
  then none
  else some
    { h with
      scalefactoralpha := fun t => if t < h.T then forwardScalefactor h t
        else h.scalefactoralpha t
      scalealpha := fun t iN => if t < h.T ∧ iN < h.N then forwardScalealpha h t iN
        else h.scalealpha t iN }

/-- The local array `beta` of `backward()` while time `T-1-k` is processed: all `1.0`
for `k = 0`, afterwards accumulated from
`A[iN][jN] * densities[jN][t+1] * scalebeta[t+1][jN]`, with `scalebeta[t+1][jN]` stored
as `beta[jN] / scalefactoralpha[t+1]`. -/
def backwardBeta (h : ScaleHMM) : Nat → Nat → XDouble ℚ
  | 0, _ => fin 1
  | k + 1, iN =>
      loopSum h.N (fun jN =>
        mul (mul (h.A iN jN) (density h jN (h.T - 1 - k)))
          (div (backwardBeta h k jN) (h.scalefactoralpha (h.T - 1 - k))))

/-- The value `backward()` stores in `scalebeta[t][iN]`. -/
def backwardScalebeta (h : ScaleHMM) (t iN : Nat) : XDouble ℚ :=
  div (backwardBeta h (h.T - 1 - t) iN) (h.scalefactoralpha t)

/-- `ScaleHMM::backward()`: `none` when it ends in `exit(1)`, which it does when some
`scalebeta[t][iN]` with `t < T - 1` and `iN < N` is NaN (the values of `t = T-1` are not
tested). -/
def backward (h : ScaleHMM) : Option ScaleHMM :=
  if (List.range (h.T - 1)).any (fun t =>
      (List.range h.N).any (fun iN => (backwardScalebeta h t iN).isnan))
  then none
  else some
    { h with
      scalebeta := fun t iN => if t < h.T ∧ iN < h.N then backwardScalebeta h t iN
        else h.scalebeta t iN }

/-- `ScaleHMM::calc_sumgamma()`: `gamma[iN][t]` is
`scalealpha[t][iN] * scalebeta[t][iN] * scalefactoralpha[t]`; `sumgamma[iN]` is
accumulated from `0.0` over all `t`, and `gamma[iN][T-1]` is subtracted afterwards. -/
def calc_sumgamma (h : ScaleHMM) : ScaleHMM :=
  let gamma1 : Nat → Nat → XDouble ℚ := fun iN t =>
    if iN < h.N ∧ t < h.T then
      mul (mul (h.scalealpha t iN) (h.scalebeta t iN)) (h.scalefactoralpha t)
    else h.gamma iN t
  { h with
    gamma := gamma1
    sumgamma := fun iN =>
      if iN < h.N then sub (loopSum h.T (fun t => gamma1 iN t)) (gamma1 iN (h.T - 1))
      else h.sumgamma iN }

/-- `ScaleHMM::calc_sumxi()`: `sumxi[iN][jN]` accumulated from `0.0` over
`t = 0 .. T-2`. -/
def calc_sumxi (h : ScaleHMM) : ScaleHMM :=
  { h with
    sumxi := fun iN jN =>
      if iN < h.N ∧ jN < h.N then
        loopSum (h.T - 1) (fun t =>
          mul (mul (mul (h.scalealpha t iN) (h.A iN jN)) (density h jN (t + 1)))
            (h.scalebeta (t + 1) jN))
      else h.sumxi iN jN }

/-- The value the block "Updating initial probabilities proba and transition matrix A"
of `baumWelch` leaves in `A[iN][jN]`: the old one when `sumgamma[iN] == 0`. -/
def reestimatedA (h : ScaleHMM) (iN jN : Nat) : XDouble ℚ :=
  if isZero (h.sumgamma iN) then h.A iN jN else div (h.sumxi iN jN) (h.sumgamma iN)

/-- The block "Updating initial probabilities proba and transition matrix A" of
`baumWelch`: `none` when it ends in `exit(1)`, at a reestimated entry that is NaN. -/
def reestimate (h : ScaleHMM) : Option ScaleHMM :=
  if (List.range h.N).any (fun iN => !isZero (h.sumgamma iN) &&
      (List.range h.N).any (fun jN => (reestimatedA h iN jN).isnan))
  then none
  else some
    { h with
      proba := fun iN => if iN < h.N then h.gamma iN 0 else h.proba iN
      A := fun iN jN => if iN < h.N ∧ jN < h.N then reestimatedA h iN jN else h.A iN jN }

/-- The part of one pass through the body of the main loop of `baumWelch` that computes
with the parameters: `forward()`, `backward()`, `calc_sumxi()`, `calc_sumgamma()` and the
reestimation block, in the order of the source.  (The pass reaches the reestimation
block whenever `logPnew` is not NaN and `fabs(dlogP) < *eps` fails, as in every first
pass with positive scale factors.) -/
def pass (h : ScaleHMM) : Option ScaleHMM :=
  (forward h).bind fun h1 => (backward h1).bind fun h2 =>
    reestimate (calc_sumgamma (calc_sumxi h2))

end ScaleHMM

end Binary64

namespace Binary64

open XDouble

/-- A model with two states and two observations whose parameters and density values
are binary64 numbers: `proba = (1/2, 1/2)`, every entry of `A` is 1/2, and every density
value is 1 but `b[1][0] = d`. -/
def tinyHMM (d : ℚ) : ScaleHMM where
  T := 2
  N := 2
  A := fun _ _ => fin (1 / 2)
  proba := fun _ => fin (1 / 2)
  scalefactoralpha := fun _ => fin 0
  scalealpha := fun _ _ => fin 0
  scalebeta := fun _ _ => fin 0
  densities := fun i t => if i = 1 ∧ t = 0 then fin d else fin 1
  tdensities := fun _ _ => fin 0
  sumgamma := fun _ => fin 0
  sumxi := fun _ _ => fin 0
  gamma := fun _ _ => fin 0
  use_tdens := false

/-- The same model with every density value `2^-1074`, the smallest positive binary64
number. -/
def underflowHMM : ScaleHMM :=
  { tinyHMM 1 with densities := fun _ _ => fin (1 / 2 ^ 1074) }

end Binary64

/-! # Properties -/

/-! ## Initialisation -/

namespace ScaleHMM

variable {R D : Type}

/-- C7: with `use_initial_params = false`, `initialize_transition_probs` sets the diagonal
of `A` to 0.9 and every off-diagonal entry to 0.1/(N-1), and the caller's buffer holds
exactly that matrix in row-major order. -/
theorem initialize_transition_probs_default (h : ScaleHMM R D) (initial_A : Nat → ℚ)
    (i j : Nat) (hN : 2 ≤ h.N) (hi : i < h.N) (hj : j < h.N) :
    (h.initialize_transition_probs initial_A false).1.A i i = 0.9 ∧
    (i ≠ j → (h.initialize_transition_probs initial_A false).1.A i j
        = 0.1 / ((h.N : ℚ) - 1)) ∧
    (h.initialize_transition_probs initial_A false).2 (i * h.N + j)
        = (h.initialize_transition_probs initial_A false).1.A i j := by
  have hpos : 0 < h.N := by omega
  have hdiv : (i * h.N + j) / h.N = i := by
    rw [Nat.add_comm, Nat.add_mul_div_right _ _ hpos, Nat.div_eq_of_lt hj, Nat.zero_add]
  have hmod : (i * h.N + j) % h.N = j := by
    rw [Nat.add_comm, Nat.add_mul_mod_self_right, Nat.mod_eq_of_lt hj]
  have hflat : i * h.N + j < h.N * h.N := by
    calc i * h.N + j < i * h.N + h.N := by omega
      _ = (i + 1) * h.N := by ring
      _ ≤ h.N * h.N := Nat.mul_le_mul_right _ hi
  refine ⟨?_, ?_, ?_⟩
  · simp [initialize_transition_probs, hi]
  · intro hij
    simp only [initialize_transition_probs, Bool.false_eq_true, if_false, hi, hj, and_self,
      if_true, hij]
    norm_num
  · simp only [initialize_transition_probs, Bool.false_eq_true, if_false, hflat, if_true,
      hdiv, hmod]

end ScaleHMM

/-! ## Basic facts about the model -/

theorem loopSum_eq_sum (n : Nat) (f : Nat → ℚ) : loopSum n f = ∑ k in Finset.range n, f k := by
  induction n with
  | zero => simp [loopSum]
  | succ n ih => rw [loopSum, ih, Finset.sum_range_succ]

namespace ScaleHMM

variable {R D : Type}

open Finset

theorem fwd_zero (h : ScaleHMM R D) (i : Nat) : fwd h 0 i = h.proba i * density h i 0 := by
  unfold fwd density
  split <;> simp [forwardAlpha, forwardAlphaT]

theorem fwd_succ (h : ScaleHMM R D) (t i : Nat) :
    fwd h (t + 1) i
      = (∑ j in range h.N, fwd h t j / (∑ k in range h.N, fwd h t k) * h.A j i)
          * density h i (t + 1) := by
  unfold fwd density
  split
  · simp only [forwardAlphaT, loopSum_eq_sum]
  · simp only [forwardAlpha, loopSum_eq_sum]

theorem forward_scalefactoralpha (h : ScaleHMM R D) {t : Nat} (ht : t < h.T) :
    (forward h).scalefactoralpha t = ∑ i in range h.N, fwd h t i := by
  unfold forward fwd
  cases h.use_tdens <;> simp [ht, loopSum_eq_sum]

theorem forward_scalealpha (h : ScaleHMM R D) {t i : Nat} (ht : t < h.T) (hi : i < h.N) :
    (forward h).scalealpha t i = fwd h t i / (forward h).scalefactoralpha t := by
  rw [forward_scalefactoralpha h ht]
  unfold forward fwd
  cases h.use_tdens <;> simp [ht, hi, loopSum_eq_sum]

@[simp] theorem forward_T (h : ScaleHMM R D) : (forward h).T = h.T := by
  unfold forward; split <;> rfl
@[simp] theorem forward_N (h : ScaleHMM R D) : (forward h).N = h.N := by
  unfold forward; split <;> rfl
@[simp] theorem forward_A (h : ScaleHMM R D) : (forward h).A = h.A := by
  unfold forward; split <;> rfl
@[simp] theorem forward_proba (h : ScaleHMM R D) : (forward h).proba = h.proba := by
  unfold forward; split <;> rfl
@[simp] theorem forward_use_tdens (h : ScaleHMM R D) : (forward h).use_tdens = h.use_tdens := by
  unfold forward; split <;> rfl
@[simp] theorem forward_densities (h : ScaleHMM R D) : (forward h).densities = h.densities := by
  unfold forward; split <;> rfl
@[simp] theorem forward_tdensities (h : ScaleHMM R D) :
    (forward h).tdensities = h.tdensities := by
  unfold forward; split <;> rfl
@[simp] theorem density_forward (h : ScaleHMM R D) : density (forward h) = density h := by
  funext i t; simp [density]

/-- The scale factor of time 0 is the sum of `proba[i] * b[i][0]`. -/
theorem forward_scalefactoralpha_zero (h : ScaleHMM R D) (hT : 0 < h.T) :
    (forward h).scalefactoralpha 0 = ∑ i in range h.N, h.proba i * density h i 0 := by
  rw [forward_scalefactoralpha h hT]
  exact sum_congr rfl fun i _ => fwd_zero h i

/-- The scale factor of time `t+1` in terms of the scaled row of time `t`. -/
theorem forward_scalefactoralpha_succ (h : ScaleHMM R D) {t : Nat} (ht : t + 1 < h.T) :
    (forward h).scalefactoralpha (t + 1)
      = ∑ i in range h.N,
          (∑ j in range h.N, (forward h).scalealpha t j * h.A j i) * density h i (t + 1) := by
  have ht0 : t < h.T := by omega
  rw [forward_scalefactoralpha h ht]
  refine sum_congr rfl fun i _ => ?_
  rw [fwd_succ]
  congr 1
  refine sum_congr rfl fun j hj => ?_
  rw [forward_scalealpha h ht0 (mem_range.mp hj), forward_scalefactoralpha h ht0]

/-- C4: when no scale factor is zero, every row of the scaled forward variables sums to
one, the scale factors being the sums the forward recursion prescribes. -/
theorem forward_scalealpha_sum_one (h : ScaleHMM R D) (hT : 1 ≤ h.T)
    (hc : ∀ t, t < h.T → (forward h).scalefactoralpha t ≠ 0) :
    (∀ t, t < h.T → ∑ i in range h.N, (forward h).scalealpha t i = 1) ∧
    (forward h).scalefactoralpha 0 = ∑ i in range h.N, h.proba i * density h i 0 ∧
    (∀ t, 1 ≤ t → t < h.T → (forward h).scalefactoralpha t
      = ∑ i in range h.N,
          (∑ j in range h.N, (forward h).scalealpha (t - 1) j * h.A j i) * density h i t) := by
  refine ⟨fun t ht => ?_, forward_scalefactoralpha_zero h hT, fun t h1 ht => ?_⟩
  · rw [sum_congr rfl fun i hi => forward_scalealpha h ht (mem_range.mp hi), ← sum_div,
      ← forward_scalefactoralpha h ht]
    exact div_self (hc t ht)
  · obtain ⟨u, rfl⟩ : ∃ u, t = u + 1 := ⟨t - 1, by omega⟩
    simpa using forward_scalefactoralpha_succ h ht

theorem fwd_succ_scaled (h : ScaleHMM R D) {t : Nat} (ht : t + 1 < h.T) (i : Nat) :
    fwd h (t + 1) i
      = (∑ j in range h.N, (forward h).scalealpha t j * h.A j i) * density h i (t + 1) := by
  have ht0 : t < h.T := by omega
  rw [fwd_succ]
  congr 1
  refine sum_congr rfl fun j hj => ?_
  rw [forward_scalealpha h ht0 (mem_range.mp hj), forward_scalefactoralpha h ht0]

theorem forward_scalealpha_mul (h : ScaleHMM R D) {t i : Nat} (ht : t < h.T) (hi : i < h.N)
    (hc : (forward h).scalefactoralpha t ≠ 0) :
    (forward h).scalealpha t i * (forward h).scalefactoralpha t = fwd h t i := by
  rw [forward_scalealpha h ht hi, div_mul_cancel₀ _ hc]

theorem bwd_zero (h : ScaleHMM R D) (i : Nat) : bwd h 0 i = 1 := by
  unfold bwd
  split <;> norm_num [backwardBeta, backwardBetaT]

theorem bwd_succ (h : ScaleHMM R D) (k i : Nat) :
    bwd h (k + 1) i
      = ∑ j in range h.N, h.A i j * density h j (h.T - 1 - k)
          * (bwd h k j / h.scalefactoralpha (h.T - 1 - k)) := by
  unfold bwd density
  split
  · simp only [backwardBetaT, loopSum_eq_sum]
  · simp only [backwardBeta, loopSum_eq_sum]

theorem backward_scalebeta (h : ScaleHMM R D) {t i : Nat} (ht : t < h.T) (hi : i < h.N) :
    (backward h).scalebeta t i = bwd h (h.T - 1 - t) i / h.scalefactoralpha t := by
  unfold backward bwd
  cases h.use_tdens <;> simp [ht, hi]

@[simp] theorem backward_T (h : ScaleHMM R D) : (backward h).T = h.T := by
  unfold backward; split <;> rfl
@[simp] theorem backward_N (h : ScaleHMM R D) : (backward h).N = h.N := by
  unfold backward; split <;> rfl
@[simp] theorem backward_A (h : ScaleHMM R D) : (backward h).A = h.A := by
  unfold backward; split <;> rfl
@[simp] theorem backward_proba (h : ScaleHMM R D) : (backward h).proba = h.proba := by
  unfold backward; split <;> rfl
@[simp] theorem backward_use_tdens (h : ScaleHMM R D) :
    (backward h).use_tdens = h.use_tdens := by
  unfold backward; split <;> rfl
@[simp] theorem backward_densities (h : ScaleHMM R D) :
    (backward h).densities = h.densities := by
  unfold backward; split <;> rfl
@[simp] theorem backward_tdensities (h : ScaleHMM R D) :
    (backward h).tdensities = h.tdensities := by
  unfold backward; split <;> rfl
@[simp] theorem backward_scalefactoralpha (h : ScaleHMM R D) :
    (backward h).scalefactoralpha = h.scalefactoralpha := by
  unfold backward; split <;> rfl
@[simp] theorem backward_scalealpha (h : ScaleHMM R D) :
    (backward h).scalealpha = h.scalealpha := by
  unfold backward; split <;> rfl
@[simp] theorem density_backward (h : ScaleHMM R D) : density (backward h) = density h := by
  funext i t; simp [density]

/-- One step of the backward recursion, read off the buffers `backward()` leaves. -/
theorem backward_scalebeta_step (h : ScaleHMM R D) {t i : Nat} (ht : t + 1 < h.T)
    (hi : i < h.N) (hc : h.scalefactoralpha t ≠ 0) :
    (backward h).scalebeta t i * h.scalefactoralpha t
      = ∑ j in range h.N, h.A i j * density h j (t + 1) * (backward h).scalebeta (t + 1) j := by
  have ht0 : t < h.T := by omega
  have hk : h.T - 1 - t = (h.T - 2 - t) + 1 := by omega
  have hk1 : h.T - 1 - (h.T - 2 - t) = t + 1 := by omega
  rw [backward_scalebeta h ht0 hi, div_mul_cancel₀ _ hc, hk, bwd_succ, hk1]
  refine sum_congr rfl fun j hj => ?_
  rw [backward_scalebeta h ht (mem_range.mp hj)]
  have : h.T - 1 - (t + 1) = h.T - 2 - t := by omega
  rw [this]

/-- The last row of the backward variables is `1 / c[T-1]`. -/
theorem backward_scalebeta_last (h : ScaleHMM R D) (hT : 1 ≤ h.T) {i : Nat} (hi : i < h.N) :
    (backward h).scalebeta (h.T - 1) i = 1 / h.scalefactoralpha (h.T - 1) := by
  have ht : h.T - 1 < h.T := by omega
  rw [backward_scalebeta h ht hi]
  have : h.T - 1 - (h.T - 1) = 0 := by omega
  rw [this, bwd_zero]

/-- The sum over states of `scalealpha * scalebeta * scalefactoralpha` is one at every
time, when no scale factor is zero. -/
theorem alpha_beta_sum_one (h : ScaleHMM R D)
    (hc : ∀ t, t < h.T → (forward h).scalefactoralpha t ≠ 0) (k : Nat) (hk : k < h.T) :
    ∑ i in range h.N,
      (forward h).scalealpha (h.T - 1 - k) i * (backward (forward h)).scalebeta (h.T - 1 - k) i
        * (forward h).scalefactoralpha (h.T - 1 - k) = 1 := by
  induction k with
  | zero =>
    have hT : 1 ≤ h.T := by omega
    have ht : h.T - 1 < h.T := by omega
    have hc0 := hc _ ht
    simp only [Nat.sub_zero]
    have e : ∀ i ∈ range h.N,
        (forward h).scalealpha (h.T - 1) i * (backward (forward h)).scalebeta (h.T - 1) i
          * (forward h).scalefactoralpha (h.T - 1) = (forward h).scalealpha (h.T - 1) i := by
      intro i hi
      have := backward_scalebeta_last (forward h) (by simpa using hT)
        (i := i) (by simpa using mem_range.mp hi)
      simp only [forward_T] at this
      rw [this]
      field_simp
    rw [sum_congr rfl e, sum_congr rfl fun i hi => forward_scalealpha h ht (mem_range.mp hi),
      ← sum_div, ← forward_scalefactoralpha h ht]
    exact div_self hc0
  | succ k ih =>
    have ih := ih (by omega)
    have ht : h.T - 1 - (k + 1) + 1 < h.T := by omega
    have ht0 : h.T - 1 - (k + 1) < h.T := by omega
    have e1 : h.T - 1 - k = h.T - 1 - (k + 1) + 1 := by omega
    rw [e1] at ih
    generalize h.T - 1 - (k + 1) = t at ht ht0 ih ⊢
    rw [← ih]
    have step : ∀ i ∈ range h.N,
        (forward h).scalealpha t i * (backward (forward h)).scalebeta t i
          * (forward h).scalefactoralpha t
        = ∑ j in range h.N, (forward h).scalealpha t i * h.A i j * density h j (t + 1)
            * (backward (forward h)).scalebeta (t + 1) j := by
      intro i hi
      have := backward_scalebeta_step (forward h) (t := t) (i := i) (by simpa using ht)
        (by simpa using mem_range.mp hi) (hc t ht0)
      simp only [forward_N, forward_A, density_forward] at this
      rw [mul_assoc, this, mul_sum]
      exact sum_congr rfl fun j _ => by ring
    rw [sum_congr rfl step, sum_comm]
    refine sum_congr rfl fun j hj => ?_
    have e2 : (forward h).scalealpha (t + 1) j * (backward (forward h)).scalebeta (t + 1) j
          * (forward h).scalefactoralpha (t + 1)
        = fwd h (t + 1) j * (backward (forward h)).scalebeta (t + 1) j := by
      rw [← forward_scalealpha_mul h ht (mem_range.mp hj) (hc _ ht)]
      ring
    rw [e2, fwd_succ_scaled h ht, sum_mul, sum_mul]
  
theorem calc_sumgamma_gamma (h : ScaleHMM R D) {i t : Nat} (hi : i < h.N) (ht : t < h.T) :
    (calc_sumgamma h).gamma i t
      = h.scalealpha t i * h.scalebeta t i * h.scalefactoralpha t := by
  simp [calc_sumgamma, hi, ht]

theorem calc_sumgamma_sumgamma (h : ScaleHMM R D) (hT : 1 ≤ h.T) {i : Nat} (hi : i < h.N) :
    (calc_sumgamma h).sumgamma i = ∑ t in range (h.T - 1), (calc_sumgamma h).gamma i t := by
  obtain ⟨n, hn⟩ : ∃ n, h.T = n + 1 := ⟨h.T - 1, by omega⟩
  simp only [calc_sumgamma, hi, if_true, loopSum_eq_sum, hn, Nat.add_sub_cancel,
    sum_range_succ]
  ring

theorem calc_sumxi_sumxi (h : ScaleHMM R D) {i j : Nat} (hi : i < h.N) (hj : j < h.N) :
    (calc_sumxi h).sumxi i j
      = ∑ t in range (h.T - 1),
          h.scalealpha t i * h.A i j * density h j (t + 1) * h.scalebeta (t + 1) j := by
  unfold calc_sumxi density
  cases h.use_tdens <;> simp [hi, hj, loopSum_eq_sum]

@[simp] theorem calc_sumxi_T (h : ScaleHMM R D) : (calc_sumxi h).T = h.T := by
  unfold calc_sumxi; split <;> rfl
@[simp] theorem calc_sumxi_N (h : ScaleHMM R D) : (calc_sumxi h).N = h.N := by
  unfold calc_sumxi; split <;> rfl
@[simp] theorem calc_sumxi_A (h : ScaleHMM R D) : (calc_sumxi h).A = h.A := by
  unfold calc_sumxi; split <;> rfl
@[simp] theorem calc_sumxi_proba (h : ScaleHMM R D) : (calc_sumxi h).proba = h.proba := by
  unfold calc_sumxi; split <;> rfl
@[simp] theorem calc_sumxi_scalealpha (h : ScaleHMM R D) :
    (calc_sumxi h).scalealpha = h.scalealpha := by
  unfold calc_sumxi; split <;> rfl
@[simp] theorem calc_sumxi_scalebeta (h : ScaleHMM R D) :
    (calc_sumxi h).scalebeta = h.scalebeta := by
  unfold calc_sumxi; split <;> rfl
@[simp] theorem calc_sumxi_scalefactoralpha (h : ScaleHMM R D) :
    (calc_sumxi h).scalefactoralpha = h.scalefactoralpha := by
  unfold calc_sumxi; split <;> rfl
@[simp] theorem calc_sumxi_gamma (h : ScaleHMM R D) : (calc_sumxi h).gamma = h.gamma := by
  unfold calc_sumxi; split <;> rfl
@[simp] theorem calc_sumxi_logP (h : ScaleHMM R D) : (calc_sumxi h).logP = h.logP := by
  unfold calc_sumxi; split <;> rfl
@[simp] theorem calc_sumxi_dlogP (h : ScaleHMM R D) : (calc_sumxi h).dlogP = h.dlogP := by
  unfold calc_sumxi; split <;> rfl

@[simp] theorem forward_logP (h : ScaleHMM R D) :
    (forward h).logP = h.logP := by
  unfold forward; split <;> rfl
@[simp] theorem forward_scalebeta (h : ScaleHMM R D) :
    (forward h).scalebeta = h.scalebeta := by
  unfold forward; split <;> rfl
@[simp] theorem forward_sumgamma (h : ScaleHMM R D) :
    (forward h).sumgamma = h.sumgamma := by
  unfold forward; split <;> rfl
@[simp] theorem forward_sumxi (h : ScaleHMM R D) :
    (forward h).sumxi = h.sumxi := by
  unfold forward; split <;> rfl
@[simp] theorem forward_gamma (h : ScaleHMM R D) :
    (forward h).gamma = h.gamma := by
  unfold forward; split <;> rfl
@[simp] theorem forward_dlogP (h : ScaleHMM R D) :
    (forward h).dlogP = h.dlogP := by
  unfold forward; split <;> rfl
@[simp] theorem forward_baumWelchTime_real (h : ScaleHMM R D) :
    (forward h).baumWelchTime_real = h.baumWelchTime_real := by
  unfold forward; split <;> rfl
@[simp] theorem forward_sumdiff_state1 (h : ScaleHMM R D) :
    (forward h).sumdiff_state1 = h.sumdiff_state1 := by
  unfold forward; split <;> rfl
@[simp] theorem forward_sumdiff_posterior (h : ScaleHMM R D) :
    (forward h).sumdiff_posterior = h.sumdiff_posterior := by
  unfold forward; split <;> rfl
@[simp] theorem forward_densityFunctions (h : ScaleHMM R D) :
    (forward h).densityFunctions = h.densityFunctions := by
  unfold forward; split <;> rfl
@[simp] theorem backward_logP (h : ScaleHMM R D) :
    (backward h).logP = h.logP := by
  unfold backward; split <;> rfl
@[simp] theorem backward_sumgamma (h : ScaleHMM R D) :
    (backward h).sumgamma = h.sumgamma := by
  unfold backward; split <;> rfl
@[simp] theorem backward_sumxi (h : ScaleHMM R D) :
    (backward h).sumxi = h.sumxi := by
  unfold backward; split <;> rfl
@[simp] theorem backward_gamma (h : ScaleHMM R D) :
    (backward h).gamma = h.gamma := by
  unfold backward; split <;> rfl
@[simp] theorem backward_dlogP (h : ScaleHMM R D) :
    (backward h).dlogP = h.dlogP := by
  unfold backward; split <;> rfl
@[simp] theorem backward_baumWelchTime_real (h : ScaleHMM R D) :
    (backward h).baumWelchTime_real = h.baumWelchTime_real := by
  unfold backward; split <;> rfl
@[simp] theorem backward_sumdiff_state1 (h : ScaleHMM R D) :
    (backward h).sumdiff_state1 = h.sumdiff_state1 := by
  unfold backward; split <;> rfl
@[simp] theorem backward_sumdiff_posterior (h : ScaleHMM R D) :
    (backward h).sumdiff_posterior = h.sumdiff_posterior := by
  unfold backward; split <;> rfl
@[simp] theorem backward_densityFunctions (h : ScaleHMM R D) :
    (backward h).densityFunctions = h.densityFunctions := by
  unfold backward; split <;> rfl
@[simp] theorem calc_sumxi_densities (h : ScaleHMM R D) :
    (calc_sumxi h).densities = h.densities := by
  unfold calc_sumxi; split <;> rfl
@[simp] theorem calc_sumxi_tdensities (h : ScaleHMM R D) :
    (calc_sumxi h).tdensities = h.tdensities := by
  unfold calc_sumxi; split <;> rfl
@[simp] theorem calc_sumxi_sumgamma (h : ScaleHMM R D) :
    (calc_sumxi h).sumgamma = h.sumgamma := by
  unfold calc_sumxi; split <;> rfl
@[simp] theorem calc_sumxi_baumWelchTime_real (h : ScaleHMM R D) :
    (calc_sumxi h).baumWelchTime_real = h.baumWelchTime_real := by
  unfold calc_sumxi; split <;> rfl
@[simp] theorem calc_sumxi_sumdiff_state1 (h : ScaleHMM R D) :
    (calc_sumxi h).sumdiff_state1 = h.sumdiff_state1 := by
  unfold calc_sumxi; split <;> rfl
@[simp] theorem calc_sumxi_sumdiff_posterior (h : ScaleHMM R D) :
    (calc_sumxi h).sumdiff_posterior = h.sumdiff_posterior := by
  unfold calc_sumxi; split <;> rfl
@[simp] theorem calc_sumxi_use_tdens (h : ScaleHMM R D) :
    (calc_sumxi h).use_tdens = h.use_tdens := by
  unfold calc_sumxi; split <;> rfl
@[simp] theorem calc_sumxi_densityFunctions (h : ScaleHMM R D) :
    (calc_sumxi h).densityFunctions = h.densityFunctions := by
  unfold calc_sumxi; split <;> rfl

/-- C1: when no scale factor is zero, after `forward()`, `backward()` and
`calc_sumgamma()` the posteriors of every time step sum to one over the states. -/
theorem gamma_sum_one (h : ScaleHMM R D)
    (hc : ∀ t, t < h.T → (forward h).scalefactoralpha t ≠ 0) (t : Nat) (ht : t < h.T) :
    ∑ i in range h.N, (calc_sumgamma (backward (forward h))).gamma i t = 1 := by
  have key := alpha_beta_sum_one h hc (h.T - 1 - t) (by omega)
  have e : h.T - 1 - (h.T - 1 - t) = t := by omega
  rw [e] at key
  rw [← key]
  refine sum_congr rfl fun i hi => ?_
  rw [calc_sumgamma_gamma _ (by simpa using mem_range.mp hi) (by simpa using ht)]
  simp

/-- The expected transition counts out of a state add up to its expected occupancy:
the sum over `j` of `sumxi[i][j]` is `sumgamma[i]`. -/
theorem sumxi_row_sum (h : ScaleHMM R D) (hT : 1 ≤ h.T)
    (hc : ∀ t, t < h.T → (forward h).scalefactoralpha t ≠ 0) {i : Nat} (hi : i < h.N) :
    ∑ j in range h.N, (calc_sumxi (backward (forward h))).sumxi i j
      = (calc_sumgamma (backward (forward h))).sumgamma i := by
  rw [calc_sumgamma_sumgamma _ (by simpa using hT) (by simpa using hi)]
  rw [sum_congr rfl fun j hj =>
    calc_sumxi_sumxi _ (by simpa using hi) (by simpa using mem_range.mp hj)]
  simp only [backward_T, forward_T, backward_scalealpha, backward_A, forward_A,
    density_backward, density_forward]
  rw [sum_comm]
  refine sum_congr rfl fun t ht => ?_
  have ht1 : t + 1 < h.T := by have := mem_range.mp ht; omega
  have ht0 : t < h.T := by omega
  rw [calc_sumgamma_gamma _ (by simpa using hi) (by simpa using ht0)]
  simp only [backward_scalealpha, backward_scalefactoralpha]
  have := backward_scalebeta_step (forward h) (t := t) (i := i) (by simpa using ht1)
    (by simpa using hi) (hc t ht0)
  simp only [forward_N, forward_A, density_forward] at this
  rw [mul_assoc, this, mul_sum]
  exact sum_congr rfl fun j _ => by ring

end ScaleHMM

namespace ScaleHMM

variable {R D : Type}

open Finset

@[simp] theorem calc_densities_T (dens : Density D) (h : ScaleHMM R D) :
    (calc_densities dens h).T = h.T := rfl
@[simp] theorem calc_densities_N (dens : Density D) (h : ScaleHMM R D) :
    (calc_densities dens h).N = h.N := rfl
@[simp] theorem calc_densities_A (dens : Density D) (h : ScaleHMM R D) :
    (calc_densities dens h).A = h.A := rfl
@[simp] theorem calc_densities_proba (dens : Density D) (h : ScaleHMM R D) :
    (calc_densities dens h).proba = h.proba := rfl

@[simp] theorem calc_densities_logP (dens : Density D) (h : ScaleHMM R D) :
    (calc_densities dens h).logP = h.logP := rfl
@[simp] theorem calc_densities_scalefactoralpha (dens : Density D) (h : ScaleHMM R D) :
    (calc_densities dens h).scalefactoralpha = h.scalefactoralpha := rfl
@[simp] theorem calc_densities_scalealpha (dens : Density D) (h : ScaleHMM R D) :
    (calc_densities dens h).scalealpha = h.scalealpha := rfl
@[simp] theorem calc_densities_scalebeta (dens : Density D) (h : ScaleHMM R D) :
    (calc_densities dens h).scalebeta = h.scalebeta := rfl
@[simp] theorem calc_densities_sumgamma (dens : Density D) (h : ScaleHMM R D) :
    (calc_densities dens h).sumgamma = h.sumgamma := rfl
@[simp] theorem calc_densities_sumxi (dens : Density D) (h : ScaleHMM R D) :
    (calc_densities dens h).sumxi = h.sumxi := rfl
@[simp] theorem calc_densities_gamma (dens : Density D) (h : ScaleHMM R D) :
    (calc_densities dens h).gamma = h.gamma := rfl
@[simp] theorem calc_densities_dlogP (dens : Density D) (h : ScaleHMM R D) :
    (calc_densities dens h).dlogP = h.dlogP := rfl
@[simp] theorem calc_densities_baumWelchTime_real (dens : Density D) (h : ScaleHMM R D) :
    (calc_densities dens h).baumWelchTime_real = h.baumWelchTime_real := rfl
@[simp] theorem calc_densities_sumdiff_state1 (dens : Density D) (h : ScaleHMM R D) :
    (calc_densities dens h).sumdiff_state1 = h.sumdiff_state1 := rfl
@[simp] theorem calc_densities_sumdiff_posterior (dens : Density D) (h : ScaleHMM R D) :
    (calc_densities dens h).sumdiff_posterior = h.sumdiff_posterior := rfl
@[simp] theorem calc_densities_use_tdens (dens : Density D) (h : ScaleHMM R D) :
    (calc_densities dens h).use_tdens = h.use_tdens := rfl
@[simp] theorem calc_densities_densityFunctions (dens : Density D) (h : ScaleHMM R D) :
    (calc_densities dens h).densityFunctions = h.densityFunctions := rfl

section Loop

variable [LinearOrderedField R] (dens : Density D) (lg : ℚ → R) (elapsed : Nat → Int)
  (maxiter maxtime : Int) (eps : XDouble R)

/-- What a pass of the loop body that reaches the end of the body has done. -/
theorem iterate_next {h h1 : ScaleHMM R D} {l l1 : Locals R}
    (hstep : iterate dens lg elapsed maxiter maxtime eps h l = Step.next h1 l1) :
    (∀ t, t < h.T → (forward (calc_densities dens h)).scalefactoralpha t ≠ 0) ∧
    h1.N = h.N ∧ h1.T = h.T ∧
    h1.gamma = (calc_sumgamma (backward (forward (calc_densities dens h)))).gamma ∧
    h1.sumgamma = (calc_sumgamma (backward (forward (calc_densities dens h)))).sumgamma ∧
    h1.sumxi = (calc_sumxi (backward (forward (calc_densities dens h)))).sumxi ∧
    h1.proba = (fun i => if i < h.N then h1.gamma i 0 else h.proba i) ∧
    h1.A = (fun i j => if i < h.N ∧ j < h.N then
      (if h1.sumgamma i = 0 then h.A i j else h1.sumxi i j / h1.sumgamma i) else h.A i j) ∧
    l1.iteration = l.iteration + 1 ∧
    h1.baumWelchTime_real = elapsed (l.reads + 1) := by
  unfold iterate at hstep
  simp only [check_for_state_swap, ite_self] at hstep
  split_ifs at hstep with hg hn hcv
  injection hstep with e1 e2
  subst e1 e2
  have hxi : ∀ (g : ScaleHMM R D) (x y : XDouble R),
      (calc_sumxi { g with logP := x, dlogP := y }).sumxi = (calc_sumxi g).sumxi := by
    intro g x y
    unfold calc_sumxi
    cases g.use_tdens <;> rfl
  refine ⟨by simpa using hg, ?_, ?_, ?_, ?_, ?_, ?_, ?_, ?_, ?_⟩
  · simp [updateDensities, reestimate, calc_sumgamma, calc_loglikelihood]
  · simp [updateDensities, reestimate, calc_sumgamma, calc_loglikelihood]
  · simp [updateDensities, reestimate, calc_sumgamma, calc_loglikelihood]
  · simp [updateDensities, reestimate, calc_sumgamma, calc_loglikelihood]
  · simp only [updateDensities, reestimate, calc_sumgamma, calc_loglikelihood]
    exact hxi _ _ _
  · simp [updateDensities, reestimate, calc_sumgamma, calc_loglikelihood]
  · simp [updateDensities, reestimate, calc_sumgamma, calc_loglikelihood]
  · simp [updateDensities, reestimate, calc_sumgamma, calc_loglikelihood]
  · simp [updateDensities, reestimate, calc_sumgamma, calc_loglikelihood]

end Loop

end ScaleHMM

namespace ScaleHMM

variable {R D : Type}

open Finset

section Loop2

variable [LinearOrderedField R] (dens : Density D) (lg : ℚ → R) (elapsed : Nat → Int)
  (maxiter maxtime : Int) (eps : XDouble R)

/-- A pass that leaves the loop at "Convergence reached!" has not touched `A` and
`proba`; its posteriors and statistics are those of this pass. -/
theorem iterate_converged {h h1 : ScaleHMM R D} {l l1 : Locals R}
    (hstep : iterate dens lg elapsed maxiter maxtime eps h l = Step.converged h1 l1) :
    h1.A = h.A ∧ h1.proba = h.proba ∧ h1.N = h.N ∧ h1.T = h.T ∧
    h1.gamma = (calc_sumgamma (backward (forward (calc_densities dens h)))).gamma ∧
    h1.sumgamma = (calc_sumgamma (backward (forward (calc_densities dens h)))).sumgamma ∧
    h1.sumxi = (calc_sumxi (backward (forward (calc_densities dens h)))).sumxi ∧
    l1.iteration = l.iteration + 1 ∧
    XDouble.lt (XDouble.fabs h1.dlogP) eps = true := by
  unfold iterate at hstep
  simp only [check_for_state_swap, ite_self] at hstep
  split_ifs at hstep with hg hn hcv
  injection hstep with e1 e2
  subst e1 e2
  have hxi : ∀ (g : ScaleHMM R D) (x y : XDouble R),
      (calc_sumxi { g with logP := x, dlogP := y }).sumxi = (calc_sumxi g).sumxi := by
    intro g x y
    unfold calc_sumxi
    cases g.use_tdens <;> rfl
  refine ⟨?_, ?_, ?_, ?_, ?_, ?_, ?_, ?_, ?_⟩
  · simp [calc_sumgamma, calc_loglikelihood]
  · simp [calc_sumgamma, calc_loglikelihood]
  · simp [calc_sumgamma, calc_loglikelihood]
  · simp [calc_sumgamma, calc_loglikelihood]
  · simp [calc_sumgamma, calc_loglikelihood]
  · simp [calc_sumgamma, calc_loglikelihood]
  · simp only [calc_sumgamma, calc_loglikelihood]
    exact hxi _ _ _
  · simp
  · exact hcv

/-- A pass that leaves the loop at the `isnan(logPnew)` test has not touched `A` and
`proba`. -/
theorem iterate_diverged {h h1 : ScaleHMM R D} {l l1 : Locals R}
    (hstep : iterate dens lg elapsed maxiter maxtime eps h l = Step.diverged h1 l1) :
    h1.A = h.A ∧ h1.proba = h.proba ∧ h1.N = h.N ∧ h1.T = h.T ∧
    l1.iteration = l.iteration + 1 ∧ h1.logP.isnan = true := by
  unfold iterate at hstep
  simp only [check_for_state_swap, ite_self] at hstep
  split_ifs at hstep with hg hn hcv
  injection hstep with e1 e2
  subst e1 e2
  refine ⟨?_, ?_, ?_, ?_, ?_, ?_⟩
  · simp [calc_loglikelihood]
  · simp [calc_loglikelihood]
  · simp [calc_loglikelihood]
  · simp [calc_loglikelihood]
  · simp
  · exact hn

theorem baumWelchLoop_unfold (fuel : Nat) (h : ScaleHMM R D) (l : Locals R) :
    baumWelchLoop dens lg elapsed maxiter maxtime eps fuel h l =
    if (h.baumWelchTime_real < maxtime ∨ maxtime < 0)
        ∧ (l.iteration < maxiter ∨ maxiter < 0) then
      match fuel with
      | 0 => LoopEnd.outOfFuel
      | fuel + 1 =>
        match iterate dens lg elapsed maxiter maxtime eps h l with
        | Step.next h1 l1 => baumWelchLoop dens lg elapsed maxiter maxtime eps fuel h1 l1
        | Step.converged h1 l1 => LoopEnd.left Stop.converged h1 l1
        | Step.diverged h1 l1 => LoopEnd.left Stop.diverged h1 l1
        | Step.nonfinite => LoopEnd.nonfinite
    else LoopEnd.left Stop.limit h l := by
  cases fuel <;> rfl

end Loop2

end ScaleHMM

namespace ScaleHMM

variable {R D : Type}

open Finset

section Loop3

variable [LinearOrderedField R] (dens : Density D) (lg : ℚ → R) (elapsed : Nat → Int)
  (maxiter maxtime : Int) (eps : XDouble R)

theorem passes_succ_last (n : Nat) (h : ScaleHMM R D) (l : Locals R)
    (h0 h1 : ScaleHMM R D) (l0 l1 : Locals R)
    (hp : passes dens lg elapsed maxiter maxtime eps n h l = some (h0, l0))
    (hcond : (h0.baumWelchTime_real < maxtime ∨ maxtime < 0)
        ∧ (l0.iteration < maxiter ∨ maxiter < 0))
    (hstep : iterate dens lg elapsed maxiter maxtime eps h0 l0 = Step.next h1 l1) :
    passes dens lg elapsed maxiter maxtime eps (n + 1) h l = some (h1, l1) := by
  induction n generalizing h l with
  | zero =>
    simp only [passes, Option.some.injEq, Prod.mk.injEq] at hp
    obtain ⟨rfl, rfl⟩ := hp
    simp [passes, hcond, hstep]
  | succ n ih =>
    rw [passes] at hp ⊢
    split_ifs at hp ⊢ with hc
    cases hi : iterate dens lg elapsed maxiter maxtime eps h l with
    | next h2 l2 =>
      rw [hi] at hp
      simp only at hp ⊢
      exact ih h2 l2 hp
    | converged h2 l2 => rw [hi] at hp; simp at hp
    | diverged h2 l2 => rw [hi] at hp; simp at hp
    | nonfinite => rw [hi] at hp; simp at hp

/-- How the main loop is left: after some number `n` of whole passes the loop condition
fails (`limit`), or the next pass ends at one of the two `break`s. -/
theorem baumWelchLoop_left (fuel : Nat) (h hf : ScaleHMM R D) (l lf : Locals R) (stop : Stop)
    (hrun : baumWelchLoop dens lg elapsed maxiter maxtime eps fuel h l
      = LoopEnd.left stop hf lf) :
    ∃ n h0 l0, passes dens lg elapsed maxiter maxtime eps n h l = some (h0, l0) ∧
      ((stop = Stop.limit ∧ hf = h0 ∧ lf = l0) ∨
       (stop = Stop.converged ∧
          iterate dens lg elapsed maxiter maxtime eps h0 l0 = Step.converged hf lf) ∨
       (stop = Stop.diverged ∧
          iterate dens lg elapsed maxiter maxtime eps h0 l0 = Step.diverged hf lf)) := by
  induction fuel generalizing h l with
  | zero =>
    rw [baumWelchLoop_unfold] at hrun
    split_ifs at hrun with hc
    injection hrun with e1 e2 e3
    exact ⟨0, h, l, rfl, Or.inl ⟨e1.symm, e2.symm, e3.symm⟩⟩
  | succ fuel ih =>
    rw [baumWelchLoop_unfold] at hrun
    split_ifs at hrun with hc
    · cases hi : iterate dens lg elapsed maxiter maxtime eps h l with
      | next h2 l2 =>
        rw [hi] at hrun
        obtain ⟨n, h0, l0, hp, hcase⟩ := ih h2 l2 hrun
        refine ⟨n + 1, h0, l0, ?_, hcase⟩
        rw [passes, if_pos hc, hi]
        exact hp
      | converged h2 l2 =>
        rw [hi] at hrun
        injection hrun with e1 e2 e3
        subst e1 e2 e3
        exact ⟨0, h, l, rfl, Or.inr (Or.inl ⟨rfl, hi⟩)⟩
      | diverged h2 l2 =>
        rw [hi] at hrun
        injection hrun with e1 e2 e3
        subst e1 e2 e3
        exact ⟨0, h, l, rfl, Or.inr (Or.inr ⟨rfl, hi⟩)⟩
      | nonfinite => rw [hi] at hrun; cases hrun
    · injection hrun with e1 e2 e3
      exact ⟨0, h, l, rfl, Or.inl ⟨e1.symm, e2.symm, e3.symm⟩⟩

/-- After `n + 1` whole passes the model is the result of a pass that reached the end
of the body. -/
theorem passes_last (n : Nat) (h h1 : ScaleHMM R D) (l l1 : Locals R)
    (hp : passes dens lg elapsed maxiter maxtime eps (n + 1) h l = some (h1, l1)) :
    ∃ h0 l0, passes dens lg elapsed maxiter maxtime eps n h l = some (h0, l0) ∧
      iterate dens lg elapsed maxiter maxtime eps h0 l0 = Step.next h1 l1 := by
  induction n generalizing h l with
  | zero =>
    rw [passes] at hp
    split_ifs at hp with hc
    cases hi : iterate dens lg elapsed maxiter maxtime eps h l with
    | next h2 l2 =>
      rw [hi] at hp
      simp only [passes, Option.some.injEq, Prod.mk.injEq] at hp
      obtain ⟨rfl, rfl⟩ := hp
      exact ⟨h, l, rfl, hi⟩
    | converged h2 l2 => rw [hi] at hp; simp at hp
    | diverged h2 l2 => rw [hi] at hp; simp at hp
    | nonfinite => rw [hi] at hp; simp at hp
  | succ n ih =>
    rw [passes] at hp
    split_ifs at hp with hc
    cases hi : iterate dens lg elapsed maxiter maxtime eps h l with
    | next h2 l2 =>
      rw [hi] at hp
      obtain ⟨h0, l0, hp0, hs⟩ := ih h2 l2 hp
      refine ⟨h0, l0, ?_, hs⟩
      rw [passes, if_pos hc, hi]
      exact hp0
    | converged h2 l2 => rw [hi] at hp; simp at hp
    | diverged h2 l2 => rw [hi] at hp; simp at hp
    | nonfinite => rw [hi] at hp; simp at hp

/-- Whole passes keep the sizes and count the iterations. -/
theorem passes_iteration (n : Nat) (h h1 : ScaleHMM R D) (l l1 : Locals R)
    (hp : passes dens lg elapsed maxiter maxtime eps n h l = some (h1, l1)) :
    l1.iteration = l.iteration + n ∧ h1.N = h.N ∧ h1.T = h.T := by
  induction n generalizing h l with
  | zero =>
    simp only [passes, Option.some.injEq, Prod.mk.injEq] at hp
    obtain ⟨rfl, rfl⟩ := hp
    simp
  | succ n ih =>
    rw [passes] at hp
    split_ifs at hp with hc
    cases hi : iterate dens lg elapsed maxiter maxtime eps h l with
    | next h2 l2 =>
      rw [hi] at hp
      obtain ⟨e1, e2, e3⟩ := ih h2 l2 hp
      obtain ⟨-, hN, hT, -, -, -, -, -, hit, -⟩ := iterate_next dens lg elapsed maxiter maxtime eps hi
      refine ⟨?_, by rw [e2, hN], by rw [e3, hT]⟩
      rw [e1, hit]; push_cast; ring
    | converged h2 l2 => rw [hi] at hp; simp at hp
    | diverged h2 l2 => rw [hi] at hp; simp at hp
    | nonfinite => rw [hi] at hp; simp at hp

/-- C9: with `*maxiter = 0` the loop body is never entered (no fuel is needed):
`baumWelch` returns with `*maxiter = 0`, and the model is the one it was called on, but
for the elapsed time it records. -/
theorem baumWelch_maxiter_zero (alloc : Nat → Nat → ℚ) (fuel : Nat) (h : ScaleHMM R D) :
    ∃ r, baumWelch dens lg elapsed alloc fuel h 0 maxtime eps = Outcome.returned r ∧
      r.maxiter = 0 ∧ r.stop = Stop.limit ∧
      r.model = { h with baumWelchTime_real := elapsed 1 } ∧
      r.model.A = h.A ∧ r.model.proba = h.proba ∧ r.model.gamma = h.gamma ∧
      r.model.logP = h.logP ∧
      passes dens lg elapsed 0 maxtime eps 1 (loopStart elapsed alloc h).1
        (loopStart elapsed alloc h).2 = none := by
  refine ⟨{ model := { h with baumWelchTime_real := elapsed 1 }, maxiter := 0,
            maxtime := elapsed 1, eps := h.dlogP, stop := Stop.limit }, ?_, ?_⟩
  · unfold baumWelch
    simp only []
    rw [baumWelchLoop_unfold]
    simp
  · simp [passes, loopStart]

end Loop3

end ScaleHMM

namespace ScaleHMM

variable {R D : Type}

open Finset

section Loop4

variable [LinearOrderedField R] (dens : Density D) (lg : ℚ → R) (elapsed : Nat → Int)
  (maxiter maxtime : Int) (eps : XDouble R)

/-- The log-likelihood is finite, the sum of the logarithms, when the scale factors
are positive. -/
theorem logLoop_pos (c : Nat → ℚ) (n : Nat) (hpos : ∀ t, t < n → 0 < c t) :
    logLoop lg c n = XDouble.fin (∑ t in range n, lg (c t)) := by
  induction n with
  | zero => simp [logLoop]
  | succ n ih =>
    rw [logLoop, ih fun t ht => hpos t (by omega), sum_range_succ]
    simp [XDouble.log, hpos n (by omega), XDouble.add]

/-- What else a pass that reaches the end of the body leaves. -/
theorem iterate_next_frame {h h1 : ScaleHMM R D} {l l1 : Locals R}
    (hstep : iterate dens lg elapsed maxiter maxtime eps h l = Step.next h1 l1) :
    h1.use_tdens = h.use_tdens ∧
    h1.densities = (calc_densities dens h).densities ∧
    h1.tdensities = (calc_densities dens h).tdensities ∧
    h1.densityFunctions = (fun i => if i < h.N then dens.update (h.densityFunctions i) (h1.gamma i)
      else h.densityFunctions i) ∧
    h1.logP = logLoop lg (forward (calc_densities dens h)).scalefactoralpha h.T ∧
    h1.dlogP = XDouble.sub h1.logP l.logPold ∧
    l1.logPold = h1.logP ∧ l1.reads = l.reads + 2 ∧
    XDouble.lt (XDouble.fabs h1.dlogP) eps = false := by
  unfold iterate at hstep
  simp only [check_for_state_swap, ite_self] at hstep
  split_ifs at hstep with hg hn hcv
  injection hstep with e1 e2
  subst e1 e2
  refine ⟨?_, ?_, ?_, ?_, ?_, ?_, ?_, ?_, ?_⟩
  · simp [updateDensities, reestimate, calc_sumgamma, calc_loglikelihood]
  · simp [updateDensities, reestimate, calc_sumgamma, calc_loglikelihood]
  · simp [updateDensities, reestimate, calc_sumgamma, calc_loglikelihood]
  · simp [updateDensities, reestimate, calc_sumgamma, calc_loglikelihood]
  · simp [updateDensities, reestimate, calc_sumgamma, calc_loglikelihood]
  · simp [updateDensities, reestimate, calc_sumgamma, calc_loglikelihood]
  · simp [updateDensities, reestimate, calc_sumgamma, calc_loglikelihood]
  · simp
  · simpa using hcv

/-- With positive scale factors a pass ends at the convergence `break` when
`|dlogP| < eps`. -/
theorem iterate_pos_converged (h : ScaleHMM R D) (l : Locals R)
    (hpos : ∀ t, t < h.T → 0 < (forward (calc_densities dens h)).scalefactoralpha t)
    (hconv : XDouble.lt (XDouble.fabs (XDouble.sub
      (XDouble.fin (∑ t in range h.T, lg ((forward (calc_densities dens h)).scalefactoralpha t)))
      l.logPold)) eps = true) :
    ∃ h1 l1, iterate dens lg elapsed maxiter maxtime eps h l = Step.converged h1 l1 := by
  have hlog := logLoop_pos lg (forward (calc_densities dens h)).scalefactoralpha h.T hpos
  unfold iterate
  simp only [check_for_state_swap, ite_self]
  rw [if_pos (by intro t ht; exact (hpos t (by simpa using ht)).ne'), if_neg, if_pos]
  · exact ⟨_, _, rfl⟩
  · simpa [calc_sumgamma, calc_loglikelihood, hlog] using hconv
  · simp [calc_loglikelihood, hlog, XDouble.isnan]

/-- With positive scale factors a pass reaches the end of the body when `|dlogP| < eps`
fails. -/
theorem iterate_pos_next (h : ScaleHMM R D) (l : Locals R)
    (hpos : ∀ t, t < h.T → 0 < (forward (calc_densities dens h)).scalefactoralpha t)
    (hconv : XDouble.lt (XDouble.fabs (XDouble.sub
      (XDouble.fin (∑ t in range h.T, lg ((forward (calc_densities dens h)).scalefactoralpha t)))
      l.logPold)) eps = false) :
    ∃ h1 l1, iterate dens lg elapsed maxiter maxtime eps h l = Step.next h1 l1 := by
  have hlog := logLoop_pos lg (forward (calc_densities dens h)).scalefactoralpha h.T hpos
  unfold iterate
  simp only [check_for_state_swap, ite_self]
  rw [if_pos (by intro t ht; exact (hpos t (by simpa using ht)).ne'), if_neg, if_neg]
  · exact ⟨_, _, rfl⟩
  · simpa [calc_sumgamma, calc_loglikelihood, hlog] using hconv
  · simp [calc_loglikelihood, hlog, XDouble.isnan]

/-- The first pass (previous log-likelihood `-inf`) reaches the end of the body
whenever its scale factors are positive. -/
theorem iterate_first_pass (h : ScaleHMM R D) (l : Locals R)
    (hpos : ∀ t, t < h.T → 0 < (forward (calc_densities dens h)).scalefactoralpha t)
    (hold : l.logPold = XDouble.negInf) :
    ∃ h1 l1, iterate dens lg elapsed maxiter maxtime eps h l = Step.next h1 l1 := by
  apply iterate_pos_next dens lg elapsed maxiter maxtime eps h l hpos
  rw [hold]
  cases eps <;> rfl

/-- In exact arithmetic, after the reestimation step of a pass of `baumWelch`, a row of
`A` whose `sumgamma` is not zero sums to one, and a row whose `sumgamma` is zero is the
row the pass started with.  (In binary64 arithmetic the row need not sum to one:
`Binary64.ScaleHMM.reestimated_row_not_one`.) -/
theorem reestimated_row_sum {h h1 : ScaleHMM R D} {l l1 : Locals R} (hT : 1 ≤ h.T)
    (hstep : iterate dens lg elapsed maxiter maxtime eps h l = Step.next h1 l1)
    (i : Nat) (hi : i < h.N) :
    (h1.sumgamma i ≠ 0 → ∑ j in range h.N, h1.A i j = 1) ∧
    (h1.sumgamma i = 0 → ∀ j, h1.A i j = h.A i j) := by
  obtain ⟨hg, -, -, -, hsg, hsx, -, hA, -, -⟩ :=
    iterate_next dens lg elapsed maxiter maxtime eps hstep
  have hrow := sumxi_row_sum (calc_densities dens h) (by simpa using hT)
    (by simpa using hg) (i := i) (by simpa using hi)
  rw [← hsg, ← hsx] at hrow
  simp only [calc_densities_N] at hrow
  constructor
  · intro hne
    have : ∀ j ∈ range h.N, h1.A i j = h1.sumxi i j / h1.sumgamma i := by
      intro j hj
      rw [hA]
      simp [hi, mem_range.mp hj, hne]
    rw [sum_congr rfl this, ← sum_div, hrow]
    exact div_self hne
  · intro h0 j
    rw [hA]
    simp [h0]

end Loop4

end ScaleHMM

/-! ## The example model -/

namespace ScaleHMM

open Finset

theorem exampleHMM_calc_densities (R : Type) :
    calc_densities exampleDensity (exampleHMM R) = exampleHMM R := by
  have e : (calc_densities exampleDensity (exampleHMM R)).densities
      = (exampleHMM R).densities := by
    funext i t
    simp [calc_densities, exampleHMM, exampleDensity, construct]
  have e2 : (calc_densities exampleDensity (exampleHMM R)).tdensities
      = (exampleHMM R).tdensities := by
    funext t i
    simp [calc_densities, exampleHMM, construct]
  unfold calc_densities at e e2 ⊢
  simp only at e e2 ⊢
  rw [e, e2]

/-- The scale factors of the example model are 3/2 and 31/24. -/
theorem exampleHMM_scalefactors (R : Type) :
    (forward (exampleHMM R)).scalefactoralpha 0 = 3 / 2 ∧
    (forward (exampleHMM R)).scalefactoralpha 1 = 31 / 24 := by
  have hT : (exampleHMM R).T = 2 := rfl
  have hN : (exampleHMM R).N = 3 := rfl
  constructor
  · rw [forward_scalefactoralpha _ (by rw [hT]; norm_num), hN]
    simp only [fwd_zero, sum_range_succ, sum_range_zero]
    simp [density, exampleHMM, construct]
    norm_num
  · rw [forward_scalefactoralpha _ (by rw [hT]; norm_num), hN]
    simp only [fwd_succ, fwd_zero, hN, sum_range_succ, sum_range_zero]
    simp [density, exampleHMM, construct]
    norm_num

theorem exampleHMM_scalefactors_pos (R : Type) (t : Nat) (ht : t < (exampleHMM R).T) :
    0 < (forward (exampleHMM R)).scalefactoralpha t := by
  have hT : (exampleHMM R).T = 2 := rfl
  rw [hT] at ht
  obtain ⟨h0, h1⟩ := exampleHMM_scalefactors R
  interval_cases t
  · rw [h0]; norm_num
  · rw [h1]; norm_num

end ScaleHMM

/-! ## The claims at the example model -/

namespace ScaleHMM

open Finset

theorem initialize_transition_probs_default_witness :
    (exampleHMM ℚ).N = 3 ∧
    (((exampleHMM ℚ).initialize_transition_probs (fun _ => 0) false).1.A 1 1 = 0.9 ∧
    (1 ≠ 2 → ((exampleHMM ℚ).initialize_transition_probs (fun _ => 0) false).1.A 1 2
        = 0.1 / (((exampleHMM ℚ).N : ℚ) - 1)) ∧
    ((exampleHMM ℚ).initialize_transition_probs (fun _ => 0) false).2
        (1 * (exampleHMM ℚ).N + 2)
      = ((exampleHMM ℚ).initialize_transition_probs (fun _ => 0) false).1.A 1 2) :=
  ⟨rfl, initialize_transition_probs_default (exampleHMM ℚ) (fun _ => 0) 1 2
    (by decide) (by decide) (by decide)⟩

theorem forward_scalealpha_sum_one_witness :
    ((forward (exampleHMM ℚ)).scalefactoralpha 0 = 3 / 2 ∧
      (forward (exampleHMM ℚ)).scalefactoralpha 1 = 31 / 24) ∧
    ((∀ t, t < (exampleHMM ℚ).T →
        ∑ i in range (exampleHMM ℚ).N, (forward (exampleHMM ℚ)).scalealpha t i = 1) ∧
      (forward (exampleHMM ℚ)).scalefactoralpha 0
        = ∑ i in range (exampleHMM ℚ).N, (exampleHMM ℚ).proba i * density (exampleHMM ℚ) i 0 ∧
      (∀ t, 1 ≤ t → t < (exampleHMM ℚ).T → (forward (exampleHMM ℚ)).scalefactoralpha t
        = ∑ i in range (exampleHMM ℚ).N,
            (∑ j in range (exampleHMM ℚ).N,
              (forward (exampleHMM ℚ)).scalealpha (t - 1) j * (exampleHMM ℚ).A j i)
              * density (exampleHMM ℚ) i t)) :=
  ⟨exampleHMM_scalefactors ℚ,
    forward_scalealpha_sum_one (exampleHMM ℚ) (by decide)
      (fun t ht => (exampleHMM_scalefactors_pos ℚ t ht).ne')⟩

theorem gamma_sum_one_witness :
    ((forward (exampleHMM ℚ)).scalefactoralpha 0 = 3 / 2 ∧
      (forward (exampleHMM ℚ)).scalefactoralpha 1 = 31 / 24) ∧
    ∑ i in range (exampleHMM ℚ).N,
      (calc_sumgamma (backward (forward (exampleHMM ℚ)))).gamma i 1 = 1 :=
  ⟨exampleHMM_scalefactors ℚ,
    gamma_sum_one (exampleHMM ℚ) (fun t ht => (exampleHMM_scalefactors_pos ℚ t ht).ne') 1
      (by decide)⟩

theorem reestimated_row_sum_witness :
    ∃ h1 l1,
      iterate exampleDensity (fun q => Real.log q) (fun _ => 0) 10 (-1) (XDouble.fin 1)
        (exampleHMM ℝ) (exampleLocals ℝ) = Step.next h1 l1 ∧
      ((h1.sumgamma 0 ≠ 0 → ∑ j in range (exampleHMM ℝ).N, h1.A 0 j = 1) ∧
       (h1.sumgamma 0 = 0 → ∀ j, h1.A 0 j = (exampleHMM ℝ).A 0 j)) := by
  obtain ⟨h1, l1, e⟩ :=
    iterate_first_pass exampleDensity (fun q => Real.log q) (fun _ => 0) 10 (-1)
      (XDouble.fin 1) (exampleHMM ℝ) (exampleLocals ℝ)
      (by rw [exampleHMM_calc_densities]; exact exampleHMM_scalefactors_pos ℝ) rfl
  exact ⟨h1, l1, e,
    reestimated_row_sum exampleDensity (fun q => Real.log q) (fun _ => 0) 10 (-1)
      (XDouble.fin 1) (by decide) e 0 (by decide)⟩

/-- C8 (as stated, for one state): with `N = 1` the single row of the default
transition matrix is `(0.9)`, which does not sum to one. -/
theorem initialize_transition_probs_one_state :
    (construct 1 1 (fun _ _ => 0) 0 (fun i => i) : ScaleHMM ℚ Nat).N = 1 ∧
    ∑ j in range 1,
      ((construct 1 1 (fun _ _ => 0) 0 (fun i => i) : ScaleHMM ℚ Nat).initialize_transition_probs
        (fun _ => 0) false).1.A 0 j ≠ 1 := by
  refine ⟨rfl, ?_⟩
  simp [initialize_transition_probs, construct]
  norm_num

/-- C8 (amended): for `N ≥ 2`, after `initialize_transition_probs` with
`use_initial_params = false` every row of `A` sums to one. -/
theorem initialize_transition_probs_row_sum {R D : Type} (h : ScaleHMM R D)
    (initial_A : Nat → ℚ) (hN : 2 ≤ h.N) (i : Nat) (hi : i < h.N) :
    ∑ j in range h.N, (h.initialize_transition_probs initial_A false).1.A i j = 1 := by
  have hA : ∀ j ∈ range h.N, (h.initialize_transition_probs initial_A false).1.A i j
      = if i = j then (9 / 10 : ℚ) else (1 / 10) / ((h.N : ℚ) - 1) := by
    intro j hj
    simp only [initialize_transition_probs, Bool.false_eq_true, if_false, hi,
      mem_range.mp hj, and_self, if_true]
    split <;> norm_num
  rw [sum_congr rfl hA, ← add_sum_erase _ _ (mem_range.mpr hi)]
  have hrest : ∀ j ∈ (range h.N).erase i,
      (if i = j then (9 / 10 : ℚ) else (1 / 10) / ((h.N : ℚ) - 1))
        = (1 / 10) / ((h.N : ℚ) - 1) := by
    intro j hj
    rw [if_neg (fun e => (mem_erase.mp hj).1 e.symm)]
  rw [sum_congr rfl hrest, sum_const, card_erase_of_mem (mem_range.mpr hi), card_range]
  have h2 : (2 : ℚ) ≤ (h.N : ℚ) := by exact_mod_cast hN
  have hne : (h.N : ℚ) - 1 ≠ 0 := by linarith
  have hcast : ((h.N - 1 : Nat) : ℚ) = (h.N : ℚ) - 1 := by
    rw [Nat.cast_sub (by omega)]; simp
  simp only [if_true, nsmul_eq_mul, hcast]
  field_simp
  ring

theorem initialize_transition_probs_row_sum_witness :
    ∑ j in range (exampleHMM ℚ).N,
      ((exampleHMM ℚ).initialize_transition_probs (fun _ => 0) false).1.A 2 j = 1 :=
  initialize_transition_probs_row_sum (exampleHMM ℚ) (fun _ => 0) (by decide) 2 (by decide)

end ScaleHMM

/-! ## Reestimation and the way the loop is left -/

namespace ScaleHMM

variable {R D : Type}

open Finset

section Stop

variable [LinearOrderedField R] (dens : Density D) (lg : ℚ → R) (elapsed : Nat → Int)
  (maxiter maxtime : Int) (eps : XDouble R)

/-- C10 (amended): when `baumWelch` returns, some number `n` of whole passes through
the loop body has been made.  If the loop was left because its condition failed
(iteration or time limit) after `n ≥ 1` passes, the reestimation from the statistics of
the last pass has been applied: `proba[i] = gamma[i][0]`, and every row with
`sumgamma[i] ≠ 0` is `sumxi[i][j] / sumgamma[i]`.  If it was left at the convergence
`break` or at the `isnan(logPnew)` `break` in pass `n + 1`, the reestimation of that
pass is skipped: `A` and `proba` are those the pass started with. -/
theorem baumWelch_reestimation_on_stop (alloc : Nat → Nat → ℚ) (fuel : Nat)
    (h : ScaleHMM R D) (r : Returned R D)
    (hret : baumWelch dens lg elapsed alloc fuel h maxiter maxtime eps = Outcome.returned r) :
    ∃ n h0 l0,
      passes dens lg elapsed maxiter maxtime eps n (loopStart elapsed alloc h).1
        (loopStart elapsed alloc h).2 = some (h0, l0) ∧
      (r.stop = Stop.limit →
        r.maxiter = n ∧
        (1 ≤ n →
          (∃ hp lp, passes dens lg elapsed maxiter maxtime eps (n - 1)
              (loopStart elapsed alloc h).1 (loopStart elapsed alloc h).2 = some (hp, lp) ∧
            r.model.gamma = (calc_sumgamma (backward (forward (calc_densities dens hp)))).gamma ∧
            r.model.sumgamma
              = (calc_sumgamma (backward (forward (calc_densities dens hp)))).sumgamma ∧
            r.model.sumxi = (calc_sumxi (backward (forward (calc_densities dens hp)))).sumxi) ∧
          (∀ i, i < h.N → r.model.proba i = r.model.gamma i 0) ∧
          (∀ i, i < h.N → r.model.sumgamma i ≠ 0 →
            ∀ j, j < h.N → r.model.A i j = r.model.sumxi i j / r.model.sumgamma i))) ∧
      (r.stop ≠ Stop.limit →
        r.maxiter = n + 1 ∧ r.model.A = h0.A ∧ r.model.proba = h0.proba ∧
        (r.stop = Stop.converged →
          r.model.gamma = (calc_sumgamma (backward (forward (calc_densities dens h0)))).gamma)) := by
  unfold baumWelch at hret
  simp only [] at hret
  cases hrun : baumWelchLoop dens lg elapsed maxiter maxtime eps fuel
      { h with baumWelchTime_real := elapsed 0 }
      { iteration := 0, logPold := XDouble.negInf, gammaold := alloc, reads := 1 } with
  | nonfinite => rw [hrun] at hret; cases hret
  | outOfFuel => rw [hrun] at hret; cases hret
  | left stop hf lf =>
    rw [hrun] at hret
    simp only [Outcome.returned.injEq] at hret
    subst hret
    obtain ⟨n, h0, l0, hp, hcase⟩ :=
      baumWelchLoop_left dens lg elapsed maxiter maxtime eps fuel _ hf _ lf stop hrun
    have hpI := passes_iteration dens lg elapsed maxiter maxtime eps n _ _ _ _ hp
    simp only at hpI
    refine ⟨n, h0, l0, hp, ?_, ?_⟩
    · intro hstop
      simp only at hstop
      rcases hcase with ⟨-, rfl, rfl⟩ | ⟨hs, -⟩ | ⟨hs, -⟩
      · refine ⟨by simp [hpI.1], fun hn => ?_⟩
        obtain ⟨m, rfl⟩ : ∃ m, n = m + 1 := ⟨n - 1, by omega⟩
        obtain ⟨hp0, lp0, hpp, hstep⟩ :=
          passes_last dens lg elapsed maxiter maxtime eps m _ _ _ _ hp
        obtain ⟨-, hN, -, hg, hsg, hsx, hpr, hA, -, -⟩ :=
          iterate_next dens lg elapsed maxiter maxtime eps hstep
        have hN0 := (passes_iteration dens lg elapsed maxiter maxtime eps m _ _ _ _ hpp).2.1
        simp only at hN0
        refine ⟨⟨hp0, lp0, hpp, hg, hsg, hsx⟩, ?_, ?_⟩
        · intro i hi
          simp only
          rw [hpr]
          simp [hN0, hi]
        · intro i hi hne j hj
          simp only at hne ⊢
          rw [hA]
          simp [hN0, hi, hj, hne]
      · rw [hs] at hstop; cases hstop
      · rw [hs] at hstop; cases hstop
    · intro hstop
      simp only at hstop
      rcases hcase with ⟨hs, -, -⟩ | ⟨hs, hstep⟩ | ⟨hs, hstep⟩
      · exact absurd hs hstop
      · obtain ⟨hA, hpr, -, -, hg, -, -, hit, -⟩ :=
          iterate_converged dens lg elapsed maxiter maxtime eps hstep
        exact ⟨by simp [hit, hpI.1], hA, hpr, fun _ => hg⟩
      · obtain ⟨hA, hpr, -, -, hit, -⟩ :=
          iterate_diverged dens lg elapsed maxiter maxtime eps hstep
        refine ⟨by simp [hit, hpI.1], hA, hpr, fun hc => ?_⟩
        rw [hs] at hc; cases hc

end Stop

end ScaleHMM

namespace ScaleHMM

open Finset

/-- The posterior of time 0 in a model with one observation. -/
theorem gamma_zero_single {R D : Type} (h : ScaleHMM R D) (hT : h.T = 1) {i : Nat}
    (hi : i < h.N) (hc : (forward h).scalefactoralpha 0 ≠ 0) :
    (calc_sumgamma (backward (forward h))).gamma i 0
      = h.proba i * density h i 0 / (forward h).scalefactoralpha 0 := by
  have ht : 0 < h.T := by omega
  rw [calc_sumgamma_gamma _ (by simpa using hi) (by simpa using ht)]
  have hl := backward_scalebeta_last (forward h) (by simp; omega) (i := i) (by simpa using hi)
  simp only [forward_T, hT, Nat.sub_self] at hl
  simp only [backward_scalealpha, backward_scalefactoralpha]
  rw [hl, forward_scalealpha h ht hi, fwd_zero]
  field_simp
  ring

theorem density_calc_densities_flat {R : Type} (h : ScaleHMM R Nat) (hu : h.use_tdens = false)
    (hd : ∀ i, i < h.N → h.densityFunctions i = i) {i t : Nat} (hi : i < h.N) (ht : t < h.T) :
    density (calc_densities flatDensity h) i t = if i = 1 then 2 else 1 := by
  simp [density, calc_densities, hu, hi, ht, hd i hi, flatDensity]

/-- The first scale factor of a pass over a three-state model driven by `flatDensity`. -/
theorem scalefactor_flat {R : Type} (h : ScaleHMM R Nat) (hu : h.use_tdens = false)
    (hN : h.N = 3) (hT : h.T = 1) (hd : ∀ i, i < h.N → h.densityFunctions i = i) :
    (forward (calc_densities flatDensity h)).scalefactoralpha 0
      = h.proba 0 + h.proba 1 * 2 + h.proba 2 := by
  rw [forward_scalefactoralpha _ (by simp [hT])]
  simp only [calc_densities_N, hN, sum_range_succ, sum_range_zero, fwd_zero,
    calc_densities_proba]
  rw [density_calc_densities_flat h hu hd (by omega) (by omega),
    density_calc_densities_flat h hu hd (by omega) (by omega),
    density_calc_densities_flat h hu hd (by omega) (by omega)]
  norm_num

end ScaleHMM

namespace ScaleHMM

open Finset

theorem baumWelch_eq_loop {R D : Type} [LinearOrderedField R] (dens : Density D)
    (lg : ℚ → R) (elapsed : Nat → Int) (alloc : Nat → Nat → ℚ) (fuel : Nat)
    (h : ScaleHMM R D) (maxiter maxtime : Int) (eps : XDouble R) :
    baumWelch dens lg elapsed alloc fuel h maxiter maxtime eps
      = match baumWelchLoop dens lg elapsed maxiter maxtime eps fuel
          (loopStart elapsed alloc h).1 (loopStart elapsed alloc h).2 with
        | LoopEnd.left stop h1 l1 =>
            Outcome.returned
              { model := { h1 with baumWelchTime_real := elapsed l1.reads }
                maxiter := l1.iteration
                eps := h1.dlogP
                maxtime := elapsed l1.reads
                stop := stop }
        | LoopEnd.outOfFuel => Outcome.outOfFuel
        | LoopEnd.nonfinite => Outcome.nonfinite := rfl

/-- What a whole pass leaves on a three-state model with one observation driven by
`flatDensity`: the reestimated `proba` is the old one weighted by `(1, 2, 1)` and
divided by the scale factor. -/
theorem flat_pass_next {R : Type} [LinearOrderedField R] (lg : ℚ → R) (elapsed : Nat → Int)
    (maxiter maxtime : Int) (eps : XDouble R) {h h1 : ScaleHMM R Nat} {l l1 : Locals R}
    (hu : h.use_tdens = false) (hN : h.N = 3) (hT : h.T = 1)
    (hd : ∀ i, i < h.N → h.densityFunctions i = i)
    (hstep : iterate flatDensity lg elapsed maxiter maxtime eps h l = Step.next h1 l1) :
    h1.use_tdens = false ∧ h1.N = 3 ∧ h1.T = 1 ∧ (∀ i, i < h1.N → h1.densityFunctions i = i) ∧
    (forward (calc_densities flatDensity h)).scalefactoralpha 0
      = h.proba 0 + h.proba 1 * 2 + h.proba 2 ∧
    h1.proba 0 = h.proba 0 / (h.proba 0 + h.proba 1 * 2 + h.proba 2) ∧
    h1.proba 1 = h.proba 1 * 2 / (h.proba 0 + h.proba 1 * 2 + h.proba 2) ∧
    h1.proba 2 = h.proba 2 / (h.proba 0 + h.proba 1 * 2 + h.proba 2) := by
  obtain ⟨hg, hN1, hT1, hg1, -, -, hp1, -, -, -⟩ :=
    iterate_next _ _ _ _ _ _ hstep
  obtain ⟨hu1, -, -, hd1, -, -, -, -, -⟩ := iterate_next_frame _ _ _ _ _ _ hstep
  have hc := scalefactor_flat h hu hN hT hd
  have hc0 : (forward (calc_densities flatDensity h)).scalefactoralpha 0 ≠ 0 :=
    hg 0 (by omega)
  have hgam : ∀ i, i < 3 → h1.gamma i 0
      = h.proba i * (if i = 1 then 2 else 1) / (h.proba 0 + h.proba 1 * 2 + h.proba 2) := by
    intro i hi
    rw [hg1, gamma_zero_single _ (by simpa using hT) (by simpa [hN] using hi) hc0, hc,
      density_calc_densities_flat _ hu hd (by omega) (by omega)]
    rfl
  refine ⟨by rw [hu1, hu], by rw [hN1, hN], by rw [hT1, hT], ?_, hc, ?_, ?_, ?_⟩
  · intro i hi
    rw [hd1]
    have := hd i (by omega)
    simp [flatDensity, this]
  · rw [hp1, hN]
    simp only [show (0 : ℕ) < 3 by norm_num, if_true]
    rw [hgam 0 (by norm_num)]; norm_num
  · rw [hp1, hN]
    simp only [show (1 : ℕ) < 3 by norm_num, if_true]
    rw [hgam 1 (by norm_num)]; norm_num
  · rw [hp1, hN]
    simp only [show (2 : ℕ) < 3 by norm_num, if_true]
    rw [hgam 2 (by norm_num)]; norm_num

/-- The two passes `baumWelch` makes on `singleHMM` with densities `(1, 2, 1)`,
`*maxiter = 10`, no time limit and `*eps = 1`: the first reaches the reestimation and
sets `proba = (1/3, 2/3, 0)`, the second stops at "Convergence reached!"
(`|log (5/3) - log (3/2)| < 1`) with posterior `gamma[0][0] = 1/5`. -/
theorem singleHMM_passes :
    ∃ h1 l1 h2 l2,
      iterate flatDensity (fun q => Real.log q) (fun _ => 0) 10 (-1) (XDouble.fin 1)
        (loopStart (fun _ => 0) (fun _ _ => 0) (singleHMM ℝ)).1
        (loopStart (fun _ => 0) (fun _ _ => 0) (singleHMM ℝ)).2 = Step.next h1 l1 ∧
      iterate flatDensity (fun q => Real.log q) (fun _ => 0) 10 (-1) (XDouble.fin 1) h1 l1
        = Step.converged h2 l2 ∧
      l1.iteration = 1 ∧ l2.iteration = 2 ∧
      (forward (calc_densities flatDensity
        (loopStart (fun _ => 0) (fun _ _ => 0) (singleHMM ℝ)).1)).scalefactoralpha 0 = 3 / 2 ∧
      (forward (calc_densities flatDensity h1)).scalefactoralpha 0 = 5 / 3 ∧
      (∀ i, i < 3 → h1.densityFunctions i = i) ∧
      h2.proba 0 = 1 / 3 ∧ h2.gamma 0 0 = 1 / 5 := by
  obtain ⟨H0, hH0⟩ : ∃ H0, H0 = (loopStart (fun _ => 0) (fun _ _ => 0) (singleHMM ℝ)).1 :=
    ⟨_, rfl⟩
  obtain ⟨L0, hL0⟩ : ∃ L0, L0 = (loopStart (R := ℝ) (D := Nat) (fun _ => 0) (fun _ _ => 0)
    (singleHMM ℝ)).2 := ⟨_, rfl⟩
  rw [← hH0, ← hL0]
  have hN0 : H0.N = 3 := by rw [hH0]; rfl
  have hT0 : H0.T = 1 := by rw [hH0]; rfl
  have hu0 : H0.use_tdens = false := by rw [hH0]; rfl
  have hd0 : ∀ i, i < H0.N → H0.densityFunctions i = i := by rw [hH0]; exact fun i _ => rfl
  have hpr0 : H0.proba = fun i => if i < 2 then 1 / 2 else 0 := by rw [hH0]; rfl
  have hit0 : L0.iteration = 0 := by rw [hL0]; rfl
  have hold0 : L0.logPold = XDouble.negInf := by rw [hL0]; rfl
  -- first pass
  have hc0 : (forward (calc_densities flatDensity H0)).scalefactoralpha 0 = 3 / 2 := by
    rw [scalefactor_flat _ hu0 hN0 hT0 hd0, hpr0]
    norm_num
  obtain ⟨h1, l1, e1⟩ :=
    iterate_first_pass flatDensity (fun q => Real.log q) (fun _ => 0) 10 (-1)
      (XDouble.fin 1) H0 L0
      (by
        intro t ht
        have : t = 0 := by omega
        subst this
        rw [hc0]; norm_num) hold0
  obtain ⟨hu1, hN1, hT1, hd1, -, hp10, hp11, hp12⟩ :=
    flat_pass_next _ _ _ _ _ hu0 hN0 hT0 hd0 e1
  obtain ⟨-, -, -, -, -, -, -, -, hit1, -⟩ := iterate_next _ _ _ _ _ _ e1
  obtain ⟨-, -, -, -, hlogP1, -, hold1, -, -⟩ := iterate_next_frame _ _ _ _ _ _ e1
  have hpr1 : h1.proba 0 = 1 / 3 ∧ h1.proba 1 = 2 / 3 ∧ h1.proba 2 = 0 := by
    rw [hp10, hp11, hp12, hpr0]
    norm_num
  have hlog1 : l1.logPold = XDouble.fin (Real.log (3 / 2)) := by
    rw [hold1, hlogP1, hT0,
      logLoop_pos _ _ _ (by intro t ht; have : t = 0 := by omega
                            subst this; rw [hc0]; norm_num)]
    simp [hc0]
  -- second pass
  have hc1 : (forward (calc_densities flatDensity h1)).scalefactoralpha 0 = 5 / 3 := by
    rw [scalefactor_flat _ hu1 hN1 hT1 hd1, hpr1.1, hpr1.2.1, hpr1.2.2]
    norm_num
  have hlt : |Real.log (5 / 3) - Real.log (3 / 2)| < 1 := by
    have h53 : Real.log (5 / 3) - Real.log (3 / 2) = Real.log (10 / 9) := by
      rw [← Real.log_div (by norm_num) (by norm_num)]
      norm_num
    rw [h53, abs_of_nonneg (Real.log_nonneg (by norm_num))]
    have := Real.log_le_sub_one_of_pos (show (0 : ℝ) < 10 / 9 by norm_num)
    linarith
  obtain ⟨h2, l2, e2⟩ :=
    iterate_pos_converged flatDensity (fun q => Real.log q) (fun _ => 0) 10 (-1)
      (XDouble.fin 1) h1 l1
      (by
        intro t ht
        have : t = 0 := by omega
        subst this
        rw [hc1]; norm_num)
      (by
        rw [hlog1, hT1]
        simp only [sum_range_one, hc1]
        simp only [XDouble.sub, XDouble.neg, XDouble.add, XDouble.fabs, XDouble.lt]
        push_cast
        simpa [sub_eq_add_neg] using hlt)
  obtain ⟨-, hp2, -, -, hg2, -, -, hit2, -⟩ := iterate_converged _ _ _ _ _ _ e2
  have hgam2 : h2.gamma 0 0 = 1 / 5 := by
    rw [hg2, gamma_zero_single _ (by simpa using hT1) (by simp [hN1])
      (by rw [hc1]; norm_num), hc1,
      density_calc_densities_flat _ hu1 hd1 (by omega) (by omega)]
    simp only [calc_densities_proba, hpr1.1]
    norm_num
  refine ⟨h1, l1, h2, l2, e1, e2, by simp [hit1, hit0], by simp [hit2, hit1, hit0], hc0, hc1,
    fun i hi => hd1 i (by omega), by rw [hp2, hpr1.1], hgam2⟩

/-- C10 (as stated, for a stop by convergence): on `singleHMM` with densities
`(1, 2, 1)`, `*maxiter = 10`, no time limit and `*eps = 1`, the second pass stops at
"Convergence reached!" and `baumWelch` returns with `proba[0] = 1/3`, the value the first
pass set, while the posterior of the final pass has `gamma[0][0] = 1/5`. -/
theorem baumWelch_converged_not_reestimated :
    ∃ r, baumWelch flatDensity (fun q => Real.log q) (fun _ => 0) (fun _ _ => 0) 2
        (singleHMM ℝ) 10 (-1) (XDouble.fin 1) = Outcome.returned r ∧
      r.stop = Stop.converged ∧ r.maxiter = 2 ∧
      r.model.proba 0 = 1 / 3 ∧ r.model.gamma 0 0 = 1 / 5 ∧
      r.model.proba 0 ≠ r.model.gamma 0 0 := by
  obtain ⟨h1, l1, h2, l2, e1, e2, hit1, hit2, -, -, -, hp2, hg2⟩ := singleHMM_passes
  refine ⟨{ model := { h2 with baumWelchTime_real := 0 }, maxiter := l2.iteration,
            maxtime := 0, eps := h2.dlogP, stop := Stop.converged }, ?_, rfl, hit2, hp2, hg2, ?_⟩
  · rw [baumWelch_eq_loop, baumWelchLoop_unfold, if_pos (by simp [loopStart])]
    simp only [e1]
    rw [baumWelchLoop_unfold, if_pos (by simp [hit1])]
    simp only [e2]
  · simp only [hp2, hg2]
    norm_num

end ScaleHMM

namespace ScaleHMM

open Finset

theorem loopStart_exampleHMM (R : Type) :
    loopStart (fun _ => 0) (fun _ _ => 0) (exampleHMM R) = (exampleHMM R, exampleLocals R) :=
  rfl

/-- With `*maxiter = 1` and no time limit, `baumWelch` on the example model makes one
pass and returns because the iteration limit is reached. -/
theorem exampleHMM_one_pass :
    ∃ r, baumWelch exampleDensity (fun q => Real.log q) (fun _ => 0) (fun _ _ => 0) 1
        (exampleHMM ℝ) 1 (-1) (XDouble.fin 1) = Outcome.returned r ∧
      r.stop = Stop.limit ∧ r.maxiter = 1 := by
  rw [baumWelch_eq_loop, loopStart_exampleHMM]
  obtain ⟨h1, l1, e1⟩ :=
    iterate_first_pass exampleDensity (fun q => Real.log q) (fun _ => 0) 1 (-1)
      (XDouble.fin 1) (exampleHMM ℝ) (exampleLocals ℝ)
      (by rw [exampleHMM_calc_densities]; exact exampleHMM_scalefactors_pos ℝ) rfl
  obtain ⟨-, -, -, -, -, -, -, -, hit1, -⟩ := iterate_next _ _ _ _ _ _ e1
  have hit0 : (exampleLocals ℝ).iteration = 0 := rfl
  refine ⟨{ model := { h1 with baumWelchTime_real := 0 }, maxiter := l1.iteration,
            maxtime := 0, eps := h1.dlogP, stop := Stop.limit }, ?_, rfl, ?_⟩
  · rw [baumWelchLoop_unfold, if_pos (by simp [hit0])]
    simp only [e1]
    rw [baumWelchLoop_unfold, if_neg (by simp [hit1, hit0])]
  · simp [hit1, hit0]

theorem baumWelch_reestimation_on_stop_witness :
    ∃ r, baumWelch exampleDensity (fun q => Real.log q) (fun _ => 0) (fun _ _ => 0) 1
        (exampleHMM ℝ) 1 (-1) (XDouble.fin 1) = Outcome.returned r ∧
      r.stop = Stop.limit ∧ r.maxiter = 1 ∧
      ∃ n h0 l0,
        passes exampleDensity (fun q => Real.log q) (fun _ => 0) 1 (-1) (XDouble.fin 1) n
          (loopStart (fun _ => 0) (fun _ _ => 0) (exampleHMM ℝ)).1
          (loopStart (fun _ => 0) (fun _ _ => 0) (exampleHMM ℝ)).2 = some (h0, l0) ∧
        (r.stop = Stop.limit →
          r.maxiter = n ∧
          (1 ≤ n →
            (∃ hp lp, passes exampleDensity (fun q => Real.log q) (fun _ => 0) 1 (-1)
                (XDouble.fin 1) (n - 1)
                (loopStart (fun _ => 0) (fun _ _ => 0) (exampleHMM ℝ)).1
                (loopStart (fun _ => 0) (fun _ _ => 0) (exampleHMM ℝ)).2 = some (hp, lp) ∧
              r.model.gamma
                = (calc_sumgamma (backward (forward (calc_densities exampleDensity hp)))).gamma ∧
              r.model.sumgamma
                = (calc_sumgamma (backward (forward
                    (calc_densities exampleDensity hp)))).sumgamma ∧
              r.model.sumxi
                = (calc_sumxi (backward (forward (calc_densities exampleDensity hp)))).sumxi) ∧
            (∀ i, i < (exampleHMM ℝ).N → r.model.proba i = r.model.gamma i 0) ∧
            (∀ i, i < (exampleHMM ℝ).N → r.model.sumgamma i ≠ 0 →
              ∀ j, j < (exampleHMM ℝ).N →
                r.model.A i j = r.model.sumxi i j / r.model.sumgamma i))) ∧
        (r.stop ≠ Stop.limit →
          r.maxiter = n + 1 ∧ r.model.A = h0.A ∧ r.model.proba = h0.proba ∧
          (r.stop = Stop.converged →
            r.model.gamma
              = (calc_sumgamma (backward (forward (calc_densities exampleDensity h0)))).gamma)) := by
  obtain ⟨r, hr, hs, hm⟩ := exampleHMM_one_pass
  exact ⟨r, hr, hs, hm,
    baumWelch_reestimation_on_stop exampleDensity (fun q => Real.log q) (fun _ => 0) 1 (-1)
      (XDouble.fin 1) (fun _ _ => 0) 1 (exampleHMM ℝ) r hr⟩

end ScaleHMM

/-! ## Sums over state sequences -/

theorem list_range_sum (N : Nat) (f : Nat → ℚ) :
    ((List.range N).map f).sum = ∑ i in Finset.range N, f i := by
  induction N with
  | zero => simp
  | succ N ih => rw [List.sum_range_succ, ih, Finset.sum_range_succ]

theorem list_sum_map_flatMap {α β : Type} (l : List α) (f : α → List β) (g : β → ℚ) :
    ((l.flatMap f).map g).sum = (l.map fun a => ((f a).map g).sum).sum := by
  induction l with
  | nil => simp
  | cons a l ih => simp [List.flatMap_cons, ih]

theorem seqSum_zero (N : Nat) (F : List Nat → ℚ) :
    ((stateSeqs N 0).map F).sum = F [] := by
  simp [stateSeqs]

theorem seqSum_succ (N n : Nat) (F : List Nat → ℚ) :
    ((stateSeqs N (n + 1)).map F).sum
      = ∑ i in Finset.range N, ((stateSeqs N n).map fun s => F (i :: s)).sum := by
  rw [stateSeqs, list_sum_map_flatMap, list_range_sum]
  refine Finset.sum_congr rfl fun i _ => ?_
  rw [List.map_map]
  rfl

theorem seqSum_congr (N n : Nat) (F G : List Nat → ℚ)
    (hFG : ∀ s, s.length = n → F s = G s) :
    ((stateSeqs N n).map F).sum = ((stateSeqs N n).map G).sum := by
  induction n generalizing F G with
  | zero => rw [seqSum_zero, seqSum_zero]; exact hFG [] rfl
  | succ n ih =>
    rw [seqSum_succ, seqSum_succ]
    refine Finset.sum_congr rfl fun i _ => ?_
    exact ih _ _ fun s hs => hFG (i :: s) (by simp [hs])

theorem seqSum_mul_left (N n : Nat) (c : ℚ) (F : List Nat → ℚ) :
    ((stateSeqs N n).map fun s => c * F s).sum = c * ((stateSeqs N n).map F).sum :=
  List.sum_map_mul_left _ _ _

/-- The state sequences of length `T` are exactly the lists of length `T` over
`0 .. N-1`. -/
theorem mem_stateSeqs (N T : Nat) (s : List Nat) :
    s ∈ stateSeqs N T ↔ s.length = T ∧ ∀ x ∈ s, x < N := by
  induction T generalizing s with
  | zero =>
    simp only [stateSeqs, List.mem_singleton]
    constructor
    · rintro rfl; simp
    · rintro ⟨hl, -⟩; exact List.length_eq_zero.mp hl
  | succ T ih =>
    simp only [stateSeqs, List.mem_flatMap, List.mem_range, List.mem_map]
    constructor
    · rintro ⟨i, hi, r, hr, rfl⟩
      obtain ⟨h1, h2⟩ := (ih r).mp hr
      refine ⟨by simp [h1], ?_⟩
      intro x hx
      rcases List.mem_cons.mp hx with rfl | hx
      · exact hi
      · exact h2 x hx
    · rintro ⟨hl, hx⟩
      cases s with
      | nil => simp at hl
      | cons i r =>
        refine ⟨i, hx i (by simp), r, (ih r).mpr ⟨by simpa using hl, ?_⟩, rfl⟩
        exact fun x hx' => hx x (List.mem_cons_of_mem _ hx')

/-- No state sequence is listed twice. -/
theorem stateSeqs_nodup (N T : Nat) : (stateSeqs N T).Nodup := by
  induction T with
  | zero => simp [stateSeqs]
  | succ T ih =>
    rw [stateSeqs, List.nodup_flatMap]
    refine ⟨fun i _ => ih.map (fun a b hab => (List.cons.inj hab).2), ?_⟩
    refine (List.nodup_range N).pairwise_of_forall_ne ?_
    intro i _ j _ hij
    rw [Function.onFun, List.disjoint_left]
    intro s hs1 hs2
    obtain ⟨r1, -, rfl⟩ := List.mem_map.mp hs1
    obtain ⟨r2, -, e⟩ := List.mem_map.mp hs2
    exact hij (List.cons.inj e).1.symm

/-- There are `N^T` state sequences. -/
theorem stateSeqs_length (N T : Nat) : (stateSeqs N T).length = N ^ T := by
  induction T with
  | zero => simp [stateSeqs]
  | succ T ih =>
    rw [stateSeqs, List.length_flatMap]
    have e : (List.length ∘ fun i => List.map (fun s => i :: s) (stateSeqs N T))
        = fun _ => N ^ T := by
      funext i
      simp [ih]
    rw [e]
    simp
    ring

theorem tailWeight_eq_prod (A b : Nat → Nat → ℚ) (prev t0 : Nat) (rest : List Nat) :
    tailWeight A b prev t0 rest
      = ∏ k in Finset.range rest.length,
          A ((prev :: rest).getD k 0) (rest.getD k 0) * b (rest.getD k 0) (t0 + k) := by
  induction rest generalizing prev t0 with
  | nil => simp [tailWeight]
  | cons j rest ih =>
    rw [tailWeight, ih, List.length_cons, Finset.prod_range_succ']
    simp only [List.getD_cons_zero, List.getD_cons_succ, add_zero]
    rw [mul_comm]
    congr 1
    refine Finset.prod_congr rfl fun k _ => ?_
    rw [show t0 + 1 + k = t0 + (k + 1) by ring]

/-- The joint weight of a sequence that starts in state `i`. -/
theorem jointWeight_cons (proba : Nat → ℚ) (A b : Nat → Nat → ℚ) (i : Nat) (rest : List Nat) :
    jointWeight proba A b (i :: rest) = proba i * b i 0 * tailWeight A b i 1 rest := by
  rw [jointWeight, tailWeight_eq_prod, Finset.prod_Ico_eq_prod_range]
  simp only [List.getD_cons_zero, List.length_cons, Nat.add_sub_cancel]
  congr 1
  refine Finset.prod_congr rfl fun k _ => ?_
  rw [show 1 + k - 1 = k by omega, show 1 + k = k + 1 by ring, List.getD_cons_succ]

/-- The sum of the weights of all continuations is the unscaled backward variable. -/
theorem seqSum_tailWeight (N : Nat) (A b : Nat → Nat → ℚ) (n prev t0 : Nat) :
    ((stateSeqs N n).map (tailWeight A b prev t0)).sum = betaJoint N A b n t0 prev := by
  induction n generalizing prev t0 with
  | zero => simp [seqSum_zero, tailWeight, betaJoint]
  | succ n ih =>
    rw [seqSum_succ, betaJoint]
    refine Finset.sum_congr rfl fun j _ => ?_
    simp only [tailWeight]
    rw [seqSum_mul_left, ih]

theorem alphaJoint_zero {K : Type} [Field K] (N : Nat) (proba : Nat → K)
    (A b : Nat → Nat → K) (i : Nat) :
    alphaJoint N proba A b 0 i = proba i * b i 0 := rfl

theorem alphaJoint_succ {K : Type} [Field K] (N : Nat) (proba : Nat → K)
    (A b : Nat → Nat → K) (t i : Nat) :
    alphaJoint N proba A b (t + 1) i
      = (∑ j in Finset.range N, alphaJoint N proba A b t j * A j i) * b i (t + 1) := by
  simp only [alphaJoint, forwardFrom, Nat.add_comm 1 t]

/-- Forward and backward variables combine to the same total at every time. -/
theorem alphaJoint_betaJoint {K : Type} [Field K] (N : Nat) (proba : Nat → K)
    (A b : Nat → Nat → K) (n t : Nat) :
    ∑ i in Finset.range N, alphaJoint N proba A b t i * betaJoint N A b n (t + 1) i
      = ∑ i in Finset.range N, alphaJoint N proba A b (t + n) i := by
  induction n generalizing t with
  | zero => simp [betaJoint]
  | succ n ih =>
    rw [show t + (n + 1) = (t + 1) + n by ring, ← ih (t + 1)]
    simp only [betaJoint, Finset.mul_sum]
    rw [Finset.sum_comm]
    refine Finset.sum_congr rfl fun j _ => ?_
    rw [alphaJoint_succ, Finset.sum_mul, Finset.sum_mul]
    exact Finset.sum_congr rfl fun i _ => by ring

/-- The direct likelihood is the sum of the last unscaled forward variables. -/
theorem likelihood_eq_alphaJoint (N : Nat) (proba : Nat → ℚ) (A b : Nat → Nat → ℚ) (n : Nat) :
    likelihood N (n + 1) proba A b = ∑ i in Finset.range N, alphaJoint N proba A b n i := by
  rw [likelihood, seqSum_succ]
  have := alphaJoint_betaJoint N proba A b n 0
  simp only [Nat.zero_add] at this
  rw [← this]
  refine Finset.sum_congr rfl fun i _ => ?_
  simp only [jointWeight_cons]
  rw [seqSum_mul_left, seqSum_tailWeight, alphaJoint_zero]

namespace ScaleHMM

variable {R D : Type}

open Finset

/-- The local `alpha` of `forward()` is the unscaled forward variable divided by the
scale factors of the earlier times. -/
theorem fwd_mul_prod (h : ScaleHMM R D) (t : Nat) (ht : t < h.T)
    (hc : ∀ u, u < t → (forward h).scalefactoralpha u ≠ 0) (i : Nat) :
    fwd h t i * ∏ u in range t, (forward h).scalefactoralpha u
      = alphaJoint h.N h.proba h.A (density h) t i := by
  induction t generalizing i with
  | zero => simp [fwd_zero, alphaJoint_zero]
  | succ t ih =>
    have ht0 : t < h.T := by omega
    have hct := hc t (by omega)
    have ih := ih ht0 (fun u hu => hc u (by omega))
    rw [fwd_succ, alphaJoint_succ, prod_range_succ, ← forward_scalefactoralpha h ht0]
    generalize (∏ u in range t, (forward h).scalefactoralpha u) = P at ih ⊢
    have e : ∀ j ∈ range h.N,
        fwd h t j / (forward h).scalefactoralpha t * h.A j i
          * (P * (forward h).scalefactoralpha t)
        = alphaJoint h.N h.proba h.A (density h) t j * h.A j i := by
      intro j _
      rw [← ih j]
      field_simp
      ring
    rw [← sum_congr rfl e, sum_mul, sum_mul, sum_mul]
    exact sum_congr rfl fun j _ => by ring

/-- The product of the scale factors up to time `t` is the sum of the unscaled forward
variables of time `t`. -/
theorem prod_scalefactoralpha (h : ScaleHMM R D) (t : Nat) (ht : t < h.T)
    (hc : ∀ u, u < t → (forward h).scalefactoralpha u ≠ 0) :
    ∏ u in range (t + 1), (forward h).scalefactoralpha u
      = ∑ i in range h.N, alphaJoint h.N h.proba h.A (density h) t i := by
  rw [prod_range_succ, forward_scalefactoralpha h ht, mul_comm, sum_mul]
  exact sum_congr rfl fun i _ => fwd_mul_prod h t ht hc i

/-- The product of all scale factors is the likelihood computed directly. -/
theorem prod_scalefactoralpha_eq_likelihood (h : ScaleHMM R D) (hT : 1 ≤ h.T)
    (hc : ∀ t, t < h.T → (forward h).scalefactoralpha t ≠ 0) :
    ∏ t in range h.T, (forward h).scalefactoralpha t
      = likelihood h.N h.T h.proba h.A (density h) := by
  obtain ⟨n, hn⟩ : ∃ n, h.T = n + 1 := ⟨h.T - 1, by omega⟩
  rw [hn, likelihood_eq_alphaJoint,
    prod_scalefactoralpha h n (by omega) (fun u hu => hc u (by omega))]

/-- C3: with positive scale factors, their product is the likelihood summed directly
over all state sequences, and the `logP` that `calc_loglikelihood()` sets is the
logarithm of that likelihood. -/
theorem logP_eq_log_likelihood (h : ScaleHMM ℝ D) (hT : 1 ≤ h.T)
    (hc : ∀ t, t < h.T → 0 < (forward h).scalefactoralpha t) :
    ∏ t in range h.T, (forward h).scalefactoralpha t
      = likelihood h.N h.T h.proba h.A (density h) ∧
    (calc_loglikelihood (fun q => Real.log q) (backward (forward h))).logP
      = XDouble.fin (Real.log (likelihood h.N h.T h.proba h.A (density h) : ℚ)) := by
  have hprod := prod_scalefactoralpha_eq_likelihood h hT fun t ht => (hc t ht).ne'
  refine ⟨hprod, ?_⟩
  simp only [calc_loglikelihood, backward_scalefactoralpha, backward_T, forward_T]
  rw [logLoop_pos _ _ _ hc, ← hprod]
  congr 1
  push_cast
  rw [Real.log_prod]
  intro t ht
  exact_mod_cast (hc t (mem_range.mp ht)).ne'

theorem logP_eq_log_likelihood_witness :
    ((forward (exampleHMM ℝ)).scalefactoralpha 0 = 3 / 2 ∧
      (forward (exampleHMM ℝ)).scalefactoralpha 1 = 31 / 24) ∧
    (∏ t in range (exampleHMM ℝ).T, (forward (exampleHMM ℝ)).scalefactoralpha t
      = likelihood (exampleHMM ℝ).N (exampleHMM ℝ).T (exampleHMM ℝ).proba (exampleHMM ℝ).A
          (density (exampleHMM ℝ)) ∧
    (calc_loglikelihood (fun q => Real.log q) (backward (forward (exampleHMM ℝ)))).logP
      = XDouble.fin (Real.log (likelihood (exampleHMM ℝ).N (exampleHMM ℝ).T
          (exampleHMM ℝ).proba (exampleHMM ℝ).A (density (exampleHMM ℝ)) : ℚ))) :=
  ⟨exampleHMM_scalefactors ℝ,
    logP_eq_log_likelihood (exampleHMM ℝ) (by decide)
      (exampleHMM_scalefactors_pos ℝ)⟩

end ScaleHMM

/-! ## The posterior as a ratio of sums over state sequences -/

theorem seqSum_const_zero (N n : Nat) :
    ((stateSeqs N n).map fun _ => (0 : ℚ)).sum = 0 := by
  simp

namespace ScaleHMM

variable {R D : Type}

open Finset

/-- The local `beta` of `backward()` is the unscaled backward variable divided by the
scale factors of the later times. -/
theorem bwd_mul_prod (h : ScaleHMM R D) (k : Nat) (hk : k < h.T)
    (hc : ∀ u, u < h.T → (forward h).scalefactoralpha u ≠ 0) (i : Nat) :
    bwd (forward h) k i * ∏ u in Ico (h.T - k) h.T, (forward h).scalefactoralpha u
      = betaJoint h.N h.A (density h) k (h.T - k) i := by
  induction k generalizing i with
  | zero => simp [bwd_zero, betaJoint]
  | succ k ih =>
    have ih := ih (by omega)
    have hlt : h.T - (k + 1) < h.T := by omega
    have e1 : h.T - (k + 1) + 1 = h.T - k := by omega
    have e2 : h.T - 1 - k = h.T - (k + 1) := by omega
    rw [bwd_succ, betaJoint, prod_eq_prod_Ico_succ_bot hlt, e1]
    simp only [forward_N, forward_A, density_forward, forward_T, e2]
    have hct := hc _ hlt
    generalize (∏ u in Ico (h.T - k) h.T, (forward h).scalefactoralpha u) = P at ih ⊢
    rw [sum_mul]
    refine sum_congr rfl fun j _ => ?_
    rw [← ih j]
    field_simp
    ring

/-- The posterior times the product of all scale factors is the product of the
unscaled forward and backward variables. -/
theorem gamma_mul_prod (h : ScaleHMM R D) {t i : Nat} (ht : t < h.T) (hi : i < h.N)
    (hc : ∀ u, u < h.T → (forward h).scalefactoralpha u ≠ 0) :
    (calc_sumgamma (backward (forward h))).gamma i t
        * ∏ u in range h.T, (forward h).scalefactoralpha u
      = alphaJoint h.N h.proba h.A (density h) t i
          * betaJoint h.N h.A (density h) (h.T - 1 - t) (t + 1) i := by
  have hf := fwd_mul_prod h t ht (fun u hu => hc u (by omega)) i
  have hb := bwd_mul_prod h (h.T - 1 - t) (by omega) hc i
  have e1 : h.T - (h.T - 1 - t) = t + 1 := by omega
  rw [e1] at hb
  rw [← hf, ← hb, calc_sumgamma_gamma _ (by simpa using hi) (by simpa using ht)]
  simp only [backward_scalealpha, backward_scalefactoralpha]
  rw [backward_scalebeta _ (by simpa using ht) (by simpa using hi),
    forward_scalealpha h ht hi, forward_T,
    ← prod_range_mul_prod_Ico _ (show t ≤ h.T by omega),
    prod_eq_prod_Ico_succ_bot ht]
  have hct := hc t ht
  field_simp
  ring

end ScaleHMM
/-! ## Monotonicity of the likelihood under reestimation -/

section Identities

variable {K : Type} [Field K] (N n : Nat) (proba : Nat → K) (A b : Nat → Nat → K)

/-- One step of the unscaled backward recursion at time `t < n`. -/
theorem betaJoint_step {t : Nat} (ht : t < n) (i : Nat) :
    betaJoint N A b (n - t) (t + 1) i
      = ∑ j in Finset.range N,
          A i j * b j (t + 1) * betaJoint N A b (n - (t + 1)) (t + 2) j := by
  obtain ⟨m, hm⟩ : ∃ m, n - t = m + 1 := ⟨n - t - 1, by omega⟩
  have hm2 : n - (t + 1) = m := by omega
  rw [hm, hm2, betaJoint]

/-- At every time the forward and backward variables combine to the likelihood. -/
theorem sum_alphaJoint_mul_betaJoint {t : Nat} (ht : t ≤ n) :
    ∑ i in Finset.range N, alphaJoint N proba A b t i * betaJoint N A b (n - t) (t + 1) i
      = totalJoint N n proba A b := by
  rw [alphaJoint_betaJoint, totalJoint, show t + (n - t) = n by omega]

theorem sum_gammaJoint {t : Nat} (ht : t ≤ n) (hL : totalJoint N n proba A b ≠ 0) :
    ∑ i in Finset.range N, gammaJoint N n proba A b t i = 1 := by
  simp only [gammaJoint]
  rw [← Finset.sum_div, sum_alphaJoint_mul_betaJoint N n proba A b ht, div_self hL]

/-- Summing the transition posteriors over the target state gives the posterior of the
source state. -/
theorem sum_xiJoint_target {t : Nat} (ht : t < n) (i : Nat) :
    ∑ j in Finset.range N, xiJoint N n proba A b t i j = gammaJoint N n proba A b t i := by
  simp only [xiJoint, gammaJoint]
  rw [← Finset.sum_div, betaJoint_step N n A b ht, Finset.mul_sum]
  congr 1
  exact Finset.sum_congr rfl fun j _ => by ring

/-- Summing the transition posteriors over the source state gives the posterior of the
target state at the next time. -/
theorem sum_xiJoint_source {t : Nat} (j : Nat) :
    ∑ i in Finset.range N, xiJoint N n proba A b t i j
      = gammaJoint N n proba A b (t + 1) j := by
  simp only [xiJoint, gammaJoint]
  rw [← Finset.sum_div, alphaJoint_succ, Finset.sum_mul, Finset.sum_mul]

end Identities

section Jensen

open Finset

/-- The log-sum inequality: for non-negative `a`, `a'` with positive sum of `a`, and `a'`
positive wherever `a` is. -/
theorem log_sum_inequality (N : Nat) (a a' : Nat → ℝ)
    (ha : ∀ j, j < N → 0 ≤ a j) (ha' : ∀ j, j < N → 0 ≤ a' j)
    (hS : 0 < ∑ j in range N, a j) (hpos : ∀ j, j < N → 0 < a j → 0 < a' j) :
    0 < ∑ j in range N, a' j ∧
    ∑ j in range N, a j * (Real.log (a' j) - Real.log (a j))
      ≤ (∑ j in range N, a j) * (Real.log (∑ j in range N, a' j)
          - Real.log (∑ j in range N, a j)) := by
  have hS' : 0 < ∑ j in range N, a' j := by
    obtain ⟨j, hj, hjpos⟩ : ∃ j ∈ range N, 0 < a j := by
      by_contra hcon
      push_neg at hcon
      have : ∑ j in range N, a j ≤ 0 := sum_nonpos hcon
      linarith
    exact lt_of_lt_of_le (hpos j (mem_range.mp hj) hjpos)
      (single_le_sum (fun k hk => ha' k (mem_range.mp hk)) hj)
  refine ⟨hS', ?_⟩
  set S := ∑ j in range N, a j with hSdef
  set S' := ∑ j in range N, a' j with hS'def
  have hterm : ∀ j ∈ range N,
      a j * (Real.log (a' j) - Real.log (a j))
        ≤ a j * (Real.log S' - Real.log S) + (a' j * (S / S') - a j) := by
    intro j hj
    have hj' := mem_range.mp hj
    rcases (ha j hj').eq_or_lt with h0 | hjpos
    · rw [← h0]
      have : 0 ≤ a' j * (S / S') := mul_nonneg (ha' j hj') (div_nonneg hS.le hS'.le)
      simp only [zero_mul, sub_zero, zero_add]
      exact this
    · have hj'pos := hpos j hj' hjpos
      have hr : 0 < a' j * S / (a j * S') := by positivity
      have hlog := Real.log_le_sub_one_of_pos hr
      rw [Real.log_div (by positivity) (by positivity),
        Real.log_mul hj'pos.ne' hS.ne', Real.log_mul hjpos.ne' hS'.ne'] at hlog
      have hmul := mul_le_mul_of_nonneg_left hlog hjpos.le
      have e : a j * (a' j * S / (a j * S') - 1) = a' j * (S / S') - a j := by
        field_simp
        ring
      rw [e] at hmul
      linarith
  have hsum := sum_le_sum hterm
  have e2 : ∑ j in range N, (a j * (Real.log S' - Real.log S) + (a' j * (S / S') - a j))
      = S * (Real.log S' - Real.log S) := by
    rw [sum_add_distrib, ← sum_mul, sum_sub_distrib, ← sum_mul, ← hSdef, ← hS'def]
    have : S' * (S / S') = S := by field_simp
    rw [this]
    ring
  rw [e2] at hsum
  exact hsum

end Jensen

section Nonneg

open Finset

variable {K : Type} [LinearOrderedField K] (N n : Nat) (proba : Nat → K) (A b : Nat → Nat → K)

theorem alphaJoint_nonneg (hp : ∀ i, i < N → 0 ≤ proba i)
    (hA : ∀ i j, i < N → j < N → 0 ≤ A i j) (hb : ∀ i t, i < N → t < n + 1 → 0 ≤ b i t)
    (t : Nat) (ht : t ≤ n) (i : Nat) (hi : i < N) : 0 ≤ alphaJoint N proba A b t i := by
  induction t generalizing i with
  | zero =>
    rw [alphaJoint_zero]
    exact mul_nonneg (hp i hi) (hb i 0 hi (by omega))
  | succ t ih =>
    rw [alphaJoint_succ]
    refine mul_nonneg (sum_nonneg fun j hj => ?_) (hb i (t + 1) hi (by omega))
    exact mul_nonneg (ih (by omega) j (mem_range.mp hj)) (hA j i (mem_range.mp hj) hi)

theorem betaJoint_nonneg (hA : ∀ i j, i < N → j < N → 0 ≤ A i j)
    (hb : ∀ i t, i < N → t < n + 1 → 0 ≤ b i t)
    (k t : Nat) (hk : t + k ≤ n + 1) (i : Nat) (hi : i < N) : 0 ≤ betaJoint N A b k t i := by
  induction k generalizing t i with
  | zero => rw [betaJoint]; exact zero_le_one
  | succ k ih =>
    rw [betaJoint]
    refine sum_nonneg fun j hj => ?_
    have hj' := mem_range.mp hj
    exact mul_nonneg (mul_nonneg (hA i j hi hj') (hb j t hj' (by omega)))
      (ih (t + 1) (by omega) j hj')

end Nonneg

section EM

open Finset

variable (N n : Nat) (proba : Nat → ℝ) (A b : Nat → Nat → ℝ) (proba1 : Nat → ℝ)
  (A1 : Nat → Nat → ℝ)

theorem gammaJoint_nonneg (hS : Stochastic N (n + 1) proba A b)
    (hL : 0 < totalJoint N n proba A b) {t i : Nat} (ht : t ≤ n) (hi : i < N) :
    0 ≤ gammaJoint N n proba A b t i := by
  rw [gammaJoint]
  exact div_nonneg (mul_nonneg
    (alphaJoint_nonneg N n proba A b hS.proba_nonneg hS.A_nonneg hS.b_nonneg t ht i hi)
    (betaJoint_nonneg N n A b hS.A_nonneg hS.b_nonneg _ _ (by omega) i hi)) hL.le

theorem xiJoint_nonneg (hS : Stochastic N (n + 1) proba A b)
    (hL : 0 < totalJoint N n proba A b) {t i j : Nat} (ht : t < n) (hi : i < N) (hj : j < N) :
    0 ≤ xiJoint N n proba A b t i j := by
  rw [xiJoint]
  refine div_nonneg (mul_nonneg (mul_nonneg (mul_nonneg
    (alphaJoint_nonneg N n proba A b hS.proba_nonneg hS.A_nonneg hS.b_nonneg t
      (by omega) i hi) (hS.A_nonneg i j hi hj)) (hS.b_nonneg j (t + 1) hj (by omega)))
    (betaJoint_nonneg N n A b hS.A_nonneg hS.b_nonneg _ _ (by omega) j hj)) hL.le

/-- A transition with positive posterior has positive factors. -/
theorem xiJoint_pos_factors (hS : Stochastic N (n + 1) proba A b)
    {t i j : Nat} (ht : t < n) (hi : i < N) (hj : j < N)
    (hx : 0 < xiJoint N n proba A b t i j) :
    0 < alphaJoint N proba A b t i ∧ 0 < A i j ∧ 0 < b j (t + 1) ∧
    0 < betaJoint N A b (n - (t + 1)) (t + 2) j := by
  have ha := alphaJoint_nonneg N n proba A b hS.proba_nonneg hS.A_nonneg hS.b_nonneg t
    (by omega) i hi
  have hA := hS.A_nonneg i j hi hj
  have hb := hS.b_nonneg j (t + 1) hj (by omega)
  have hbe := betaJoint_nonneg N n A b hS.A_nonneg hS.b_nonneg (n - (t + 1)) (t + 2)
    (by omega) j hj
  rw [xiJoint] at hx
  have hnum : 0 < alphaJoint N proba A b t i * A i j * b j (t + 1)
      * betaJoint N A b (n - (t + 1)) (t + 2) j := by
    by_contra hcon
    have h0 : alphaJoint N proba A b t i * A i j * b j (t + 1)
        * betaJoint N A b (n - (t + 1)) (t + 2) j = 0 :=
      le_antisymm (not_lt.mp hcon) (mul_nonneg (mul_nonneg (mul_nonneg ha hA) hb) hbe)
    rw [h0, zero_div] at hx
    exact lt_irrefl _ hx
  refine ⟨?_, ?_, ?_, ?_⟩
  · rcases ha.eq_or_lt with h0 | h; · rw [← h0] at hnum; simp at hnum
    exact h
  · rcases hA.eq_or_lt with h0 | h; · rw [← h0] at hnum; simp at hnum
    exact h
  · rcases hb.eq_or_lt with h0 | h; · rw [← h0] at hnum; simp at hnum
    exact h
  · rcases hbe.eq_or_lt with h0 | h; · rw [← h0] at hnum; simp at hnum
    exact h

/-- The expected transition counts of a row add up to its expected occupancy. -/
theorem sum_sum_xiJoint (i : Nat) :
    ∑ j in range N, ∑ t in range n, xiJoint N n proba A b t i j
      = ∑ t in range n, gammaJoint N n proba A b t i := by
  rw [sum_comm]
  exact sum_congr rfl fun t ht => sum_xiJoint_target N n proba A b (mem_range.mp ht) i

/-- The reestimated transition matrix is positive wherever a transition has positive
posterior. -/
theorem reestimated_A_pos (hS : Stochastic N (n + 1) proba A b)
    (hL : 0 < totalJoint N n proba A b) (hR : Reestimated N n proba A b proba1 A1)
    {t i j : Nat} (ht : t < n) (hi : i < N) (hj : j < N)
    (hx : 0 < xiJoint N n proba A b t i j) : 0 < A1 i j := by
  have hX : 0 < ∑ u in range n, xiJoint N n proba A b u i j :=
    lt_of_lt_of_le hx (single_le_sum (f := fun u => xiJoint N n proba A b u i j)
      (fun u hu => xiJoint_nonneg N n proba A b hS hL (mem_range.mp hu) hi hj)
      (mem_range.mpr ht))
  have hsig : 0 < ∑ u in range n, gammaJoint N n proba A b u i := by
    rw [← sum_sum_xiJoint]
    exact lt_of_lt_of_le hX (single_le_sum
      (f := fun j => ∑ u in range n, xiJoint N n proba A b u i j)
      (fun k hk => sum_nonneg fun u hu =>
        xiJoint_nonneg N n proba A b hS hL (mem_range.mp hu) hi (mem_range.mp hk))
      (mem_range.mpr hj))
  rw [hR.A_eq i j hi hj hsig.ne']
  exact div_pos hX hsig

theorem reestimated_A_nonneg (hS : Stochastic N (n + 1) proba A b)
    (hL : 0 < totalJoint N n proba A b) (hR : Reestimated N n proba A b proba1 A1)
    (i j : Nat) (hi : i < N) (hj : j < N) : 0 ≤ A1 i j := by
  by_cases hsig : ∑ u in range n, gammaJoint N n proba A b u i = 0
  · rw [hR.A_keep i j hi hj hsig]
    exact hS.A_nonneg i j hi hj
  · rw [hR.A_eq i j hi hj hsig]
    exact div_nonneg
      (sum_nonneg fun u hu => xiJoint_nonneg N n proba A b hS hL (mem_range.mp hu) hi hj)
      (sum_nonneg fun u hu => gammaJoint_nonneg N n proba A b hS hL
        (le_of_lt (mem_range.mp hu)) hi)

end EM

section EM2

open Finset

variable (N n : Nat) (proba : Nat → ℝ) (A b : Nat → Nat → ℝ) (proba1 : Nat → ℝ)
  (A1 : Nat → Nat → ℝ)

/-- A positive sum of non-negative terms has a positive term. -/
theorem exists_pos_of_sum_pos (N : Nat) (f : Nat → ℝ)
    (hpos : 0 < ∑ j in range N, f j) : ∃ j, j < N ∧ 0 < f j := by
  by_contra hcon
  push_neg at hcon
  have : ∑ j in range N, f j ≤ 0 := sum_nonpos fun j hj => hcon j (mem_range.mp hj)
  linarith

/-- Under the reestimated transition matrix the backward variable is positive at every
state whose posterior is positive. -/
theorem betaJoint_reestimated_pos (hS : Stochastic N (n + 1) proba A b)
    (hL : 0 < totalJoint N n proba A b) (hR : Reestimated N n proba A b proba1 A1)
    (k : Nat) : ∀ t, t + k = n → ∀ i, i < N → 0 < gammaJoint N n proba A b t i →
      0 < betaJoint N A1 b (n - t) (t + 1) i := by
  induction k with
  | zero =>
    intro t ht i _ _
    have : n - t = 0 := by omega
    rw [this, betaJoint]
    exact zero_lt_one
  | succ k ih =>
    intro t ht i hi hg
    have htn : t < n := by omega
    rw [← sum_xiJoint_target N n proba A b htn i] at hg
    obtain ⟨j, hj, hx⟩ := exists_pos_of_sum_pos N _ hg
    have hA1 := reestimated_A_pos N n proba A b proba1 A1 hS hL hR htn hi hj hx
    obtain ⟨-, -, hb, -⟩ := xiJoint_pos_factors N n proba A b hS htn hi hj hx
    have hg1 : 0 < gammaJoint N n proba A b (t + 1) j := by
      rw [← sum_xiJoint_source N n proba A b j]
      exact lt_of_lt_of_le hx (single_le_sum
        (f := fun i => xiJoint N n proba A b t i j)
        (fun i' hi' => xiJoint_nonneg N n proba A b hS hL htn (mem_range.mp hi') hj)
        (mem_range.mpr hi))
    have hb1 := ih (t + 1) (by omega) j hj hg1
    rw [betaJoint_step N n A1 b htn]
    refine lt_of_lt_of_le (mul_pos (mul_pos hA1 hb) hb1) ?_
    refine single_le_sum
      (f := fun j => A1 i j * b j (t + 1) * betaJoint N A1 b (n - (t + 1)) (t + 2) j)
      (fun j' hj' => ?_) (mem_range.mpr hj)
    have hj'' := mem_range.mp hj'
    exact mul_nonneg (mul_nonneg
      (reestimated_A_nonneg N n proba A b proba1 A1 hS hL hR i j' hi hj'')
      (hS.b_nonneg j' (t + 1) hj'' (by omega)))
      (betaJoint_nonneg N n A1 b (reestimated_A_nonneg N n proba A b proba1 A1 hS hL hR)
        hS.b_nonneg _ _ (by omega) j' hj'')

/-- One backward step of the comparison: the log-ratio of the new and old backward
variables at `(t, i)`, weighted by the posterior, dominates the weighted log-ratios of
the transitions out of `i` and of the backward variables at time `t + 1`. -/
theorem em_step_state (hS : Stochastic N (n + 1) proba A b)
    (hL : 0 < totalJoint N n proba A b) (hR : Reestimated N n proba A b proba1 A1)
    {t i : Nat} (ht : t < n) (hi : i < N) :
    ∑ j in range N, xiJoint N n proba A b t i j
        * ((Real.log (A1 i j) - Real.log (A i j))
          + (Real.log (betaJoint N A1 b (n - (t + 1)) (t + 2) j)
              - Real.log (betaJoint N A b (n - (t + 1)) (t + 2) j)))
      ≤ gammaJoint N n proba A b t i
          * (Real.log (betaJoint N A1 b (n - t) (t + 1) i)
              - Real.log (betaJoint N A b (n - t) (t + 1) i)) := by
  have hxi0 : ∀ j, j < N → 0 ≤ xiJoint N n proba A b t i j :=
    fun j hj => xiJoint_nonneg N n proba A b hS hL ht hi hj
  rcases (gammaJoint_nonneg N n proba A b hS hL (le_of_lt ht) hi).eq_or_lt with hg0 | hgpos
  · -- no mass at `(t, i)`: every transition posterior out of `i` vanishes
    have hz : ∀ j ∈ range N, xiJoint N n proba A b t i j = 0 := by
      have hsum := sum_xiJoint_target N n proba A b ht i
      rw [← hg0] at hsum
      exact (sum_eq_zero_iff_of_nonneg fun j hj => hxi0 j (mem_range.mp hj)).mp hsum
    rw [← hg0, zero_mul]
    exact le_of_eq (sum_eq_zero fun j hj => by rw [hz j hj, zero_mul])
  · have ha0 := alphaJoint_nonneg N n proba A b hS.proba_nonneg hS.A_nonneg hS.b_nonneg t
      (le_of_lt ht) i hi
    have hbe0 := betaJoint_nonneg N n A b hS.A_nonneg hS.b_nonneg (n - t) (t + 1)
      (by omega) i hi
    have hbpos : 0 < betaJoint N A b (n - t) (t + 1) i := by
      rcases hbe0.eq_or_lt with h0 | h
      · rw [gammaJoint, ← h0, mul_zero, zero_div] at hgpos
        exact absurd hgpos (lt_irrefl _)
      · exact h
    have hA1nn := reestimated_A_nonneg N n proba A b proba1 A1 hS hL hR
    -- the log-sum inequality over the target states
    have hJ := log_sum_inequality N
      (fun j => A i j * b j (t + 1) * betaJoint N A b (n - (t + 1)) (t + 2) j)
      (fun j => A1 i j * b j (t + 1) * betaJoint N A1 b (n - (t + 1)) (t + 2) j)
      (fun j hj => mul_nonneg (mul_nonneg (hS.A_nonneg i j hi hj)
        (hS.b_nonneg j (t + 1) hj (by omega)))
        (betaJoint_nonneg N n A b hS.A_nonneg hS.b_nonneg _ _ (by omega) j hj))
      (fun j hj => mul_nonneg (mul_nonneg (hA1nn i j hi hj)
        (hS.b_nonneg j (t + 1) hj (by omega)))
        (betaJoint_nonneg N n A1 b hA1nn hS.b_nonneg _ _ (by omega) j hj))
      (by rw [← betaJoint_step N n A b ht]; exact hbpos)
      (by
        intro j hj haj
        have hx : 0 < xiJoint N n proba A b t i j := by
          rw [xiJoint]
          have hapos : 0 < alphaJoint N proba A b t i := by
            rcases ha0.eq_or_lt with h0 | h
            · rw [gammaJoint, ← h0, zero_mul, zero_div] at hgpos
              exact absurd hgpos (lt_irrefl _)
            · exact h
          have : alphaJoint N proba A b t i * A i j * b j (t + 1)
              * betaJoint N A b (n - (t + 1)) (t + 2) j
              = alphaJoint N proba A b t i
                * (A i j * b j (t + 1) * betaJoint N A b (n - (t + 1)) (t + 2) j) := by ring
          rw [this]
          exact div_pos (mul_pos hapos haj) hL
        have hA1 := reestimated_A_pos N n proba A b proba1 A1 hS hL hR ht hi hj hx
        obtain ⟨-, -, hb, -⟩ := xiJoint_pos_factors N n proba A b hS ht hi hj hx
        have hg1 : 0 < gammaJoint N n proba A b (t + 1) j := by
          rw [← sum_xiJoint_source N n proba A b j]
          exact lt_of_lt_of_le hx (single_le_sum
            (f := fun i => xiJoint N n proba A b t i j)
            (fun i' hi' => xiJoint_nonneg N n proba A b hS hL ht (mem_range.mp hi') hj)
            (mem_range.mpr hi))
        have hb1 := betaJoint_reestimated_pos N n proba A b proba1 A1 hS hL hR
          (n - (t + 1)) (t + 1) (by omega) j hj hg1
        exact mul_pos (mul_pos hA1 hb) hb1)
    obtain ⟨-, hJ⟩ := hJ
    simp only [] at hJ
    rw [← betaJoint_step N n A b ht, ← betaJoint_step N n A1 b ht] at hJ
    -- scale by `alpha / L` and compare term by term
    have hscale := mul_le_mul_of_nonneg_left hJ
      (div_nonneg ha0 hL.le : 0 ≤ alphaJoint N proba A b t i / totalJoint N n proba A b)
    rw [mul_sum] at hscale
    have hR' : alphaJoint N proba A b t i / totalJoint N n proba A b
        * (betaJoint N A b (n - t) (t + 1) i
          * (Real.log (betaJoint N A1 b (n - t) (t + 1) i)
              - Real.log (betaJoint N A b (n - t) (t + 1) i)))
        = gammaJoint N n proba A b t i
          * (Real.log (betaJoint N A1 b (n - t) (t + 1) i)
              - Real.log (betaJoint N A b (n - t) (t + 1) i)) := by
      rw [gammaJoint]; ring
    rw [hR'] at hscale
    refine le_trans (le_of_eq (sum_congr rfl fun j hj => ?_)) hscale
    have hj' := mem_range.mp hj
    rcases (hxi0 j hj').eq_or_lt with hx0 | hx
    · have : alphaJoint N proba A b t i / totalJoint N n proba A b
          * (A i j * b j (t + 1) * betaJoint N A b (n - (t + 1)) (t + 2) j)
          = xiJoint N n proba A b t i j := by rw [xiJoint]; ring
      rw [← mul_assoc, this, ← hx0, zero_mul, zero_mul]
    · obtain ⟨-, hA, hb, hbe⟩ := xiJoint_pos_factors N n proba A b hS ht hi hj' hx
      have hA1 := reestimated_A_pos N n proba A b proba1 A1 hS hL hR ht hi hj' hx
      have hg1 : 0 < gammaJoint N n proba A b (t + 1) j := by
        rw [← sum_xiJoint_source N n proba A b j]
        exact lt_of_lt_of_le hx (single_le_sum
          (f := fun i => xiJoint N n proba A b t i j)
          (fun i' hi' => xiJoint_nonneg N n proba A b hS hL ht (mem_range.mp hi') hj')
          (mem_range.mpr hi))
      have hb1 := betaJoint_reestimated_pos N n proba A b proba1 A1 hS hL hR
        (n - (t + 1)) (t + 1) (by omega) j hj' hg1
      rw [Real.log_mul (mul_pos hA1 hb).ne' hb1.ne', Real.log_mul hA1.ne' hb.ne',
        Real.log_mul (mul_pos hA hb).ne' hbe.ne', Real.log_mul hA.ne' hb.ne', xiJoint]
      ring

end EM2

section EM3

open Finset

variable (N n : Nat) (proba : Nat → ℝ) (A b : Nat → Nat → ℝ) (proba1 : Nat → ℝ)
  (A1 : Nat → Nat → ℝ)

/-- One backward step of the comparison, summed over the states. -/
theorem em_step (hS : Stochastic N (n + 1) proba A b)
    (hL : 0 < totalJoint N n proba A b) (hR : Reestimated N n proba A b proba1 A1)
    {t : Nat} (ht : t < n) :
    (∑ i in range N, ∑ j in range N,
        xiJoint N n proba A b t i j * (Real.log (A1 i j) - Real.log (A i j)))
      + ∑ j in range N, gammaJoint N n proba A b (t + 1) j
          * (Real.log (betaJoint N A1 b (n - (t + 1)) (t + 2) j)
              - Real.log (betaJoint N A b (n - (t + 1)) (t + 2) j))
      ≤ ∑ i in range N, gammaJoint N n proba A b t i
          * (Real.log (betaJoint N A1 b (n - t) (t + 1) i)
              - Real.log (betaJoint N A b (n - t) (t + 1) i)) := by
  refine le_trans (le_of_eq ?_) (sum_le_sum fun i hi =>
    em_step_state N n proba A b proba1 A1 hS hL hR ht (mem_range.mp hi))
  simp only [mul_add, sum_add_distrib]
  congr 1
  rw [sum_comm]
  refine sum_congr rfl fun j _ => ?_
  rw [← sum_mul, sum_xiJoint_source N n proba A b j]

/-- The comparison telescoped over the times `0 .. m`. -/
theorem em_telescope (hS : Stochastic N (n + 1) proba A b)
    (hL : 0 < totalJoint N n proba A b) (hR : Reestimated N n proba A b proba1 A1)
    (m : Nat) (hm : m ≤ n) :
    (∑ t in range m, ∑ i in range N, ∑ j in range N,
        xiJoint N n proba A b t i j * (Real.log (A1 i j) - Real.log (A i j)))
      + ∑ j in range N, gammaJoint N n proba A b m j
          * (Real.log (betaJoint N A1 b (n - m) (m + 1) j)
              - Real.log (betaJoint N A b (n - m) (m + 1) j))
      ≤ ∑ i in range N, gammaJoint N n proba A b 0 i
          * (Real.log (betaJoint N A1 b n 1 i) - Real.log (betaJoint N A b n 1 i)) := by
  induction m with
  | zero => simp
  | succ m ih =>
    have ih := ih (by omega)
    have hstep := em_step N n proba A b proba1 A1 hS hL hR (t := m) (by omega)
    rw [sum_range_succ]
    linarith

/-- The weighted log-ratios of the transition probabilities, summed over all times. -/
theorem em_transitions (hS : Stochastic N (n + 1) proba A b)
    (hL : 0 < totalJoint N n proba A b) (hR : Reestimated N n proba A b proba1 A1) :
    (∑ t in range n, ∑ i in range N, ∑ j in range N,
        xiJoint N n proba A b t i j * (Real.log (A1 i j) - Real.log (A i j)))
      ≤ ∑ i in range N, gammaJoint N n proba A b 0 i
          * (Real.log (betaJoint N A1 b n 1 i) - Real.log (betaJoint N A b n 1 i)) := by
  have h := em_telescope N n proba A b proba1 A1 hS hL hR n le_rfl
  have hz : ∑ j in range N, gammaJoint N n proba A b n j
      * (Real.log (betaJoint N A1 b (n - n) (n + 1) j)
          - Real.log (betaJoint N A b (n - n) (n + 1) j)) = 0 := by
    refine sum_eq_zero fun j _ => ?_
    simp [betaJoint]
  rw [hz, add_zero] at h
  exact h

end EM3

section EM4

open Finset

variable (N n : Nat) (proba : Nat → ℝ) (A b : Nat → Nat → ℝ) (proba1 : Nat → ℝ)
  (A1 : Nat → Nat → ℝ)

theorem gammaJoint_zero_eq (i : Nat) :
    gammaJoint N n proba A b 0 i
      = proba i * b i 0 * betaJoint N A b n 1 i / totalJoint N n proba A b := by
  simp [gammaJoint, alphaJoint_zero]

theorem totalJoint_eq_sum_zero (p : Nat → ℝ) (M : Nat → Nat → ℝ) :
    totalJoint N n p M b = ∑ i in range N, p i * b i 0 * betaJoint N M b n 1 i := by
  have := sum_alphaJoint_mul_betaJoint N n p M b (t := 0) (Nat.zero_le n)
  simpa [alphaJoint_zero] using this.symm

/-- The first step of the comparison: the log-ratio of the likelihoods dominates the
posterior-weighted log-ratios of the initial probabilities and of the backward variables
at time 0. -/
theorem em_base (hS : Stochastic N (n + 1) proba A b)
    (hL : 0 < totalJoint N n proba A b) (hR : Reestimated N n proba A b proba1 A1) :
    0 < totalJoint N n proba1 A1 b ∧
    ∑ i in range N, gammaJoint N n proba A b 0 i
        * ((Real.log (proba1 i) - Real.log (proba i))
          + (Real.log (betaJoint N A1 b n 1 i) - Real.log (betaJoint N A b n 1 i)))
      ≤ Real.log (totalJoint N n proba1 A1 b) - Real.log (totalJoint N n proba A b) := by
  have hA1nn := reestimated_A_nonneg N n proba A b proba1 A1 hS hL hR
  have hg0 : ∀ i, i < N → 0 ≤ gammaJoint N n proba A b 0 i :=
    fun i hi => gammaJoint_nonneg N n proba A b hS hL (Nat.zero_le n) hi
  have hbe0 : ∀ i, i < N → 0 ≤ betaJoint N A b n 1 i :=
    fun i hi => betaJoint_nonneg N n A b hS.A_nonneg hS.b_nonneg n 1 (by omega) i hi
  have hfac : ∀ i, i < N → 0 < proba i * b i 0 * betaJoint N A b n 1 i →
      0 < proba i ∧ 0 < b i 0 ∧ 0 < betaJoint N A b n 1 i ∧ 0 < proba1 i ∧
      0 < betaJoint N A1 b n 1 i := by
    intro i hi hai
    have hp := hS.proba_nonneg i hi
    have hb := hS.b_nonneg i 0 hi (by omega)
    have hbe := hbe0 i hi
    have hp' : 0 < proba i := by
      rcases hp.eq_or_lt with h0 | h
      · rw [← h0] at hai; simp at hai
      · exact h
    have hb' : 0 < b i 0 := by
      rcases hb.eq_or_lt with h0 | h
      · rw [← h0] at hai; simp at hai
      · exact h
    have hbe' : 0 < betaJoint N A b n 1 i := by
      rcases hbe.eq_or_lt with h0 | h
      · rw [← h0] at hai; simp at hai
      · exact h
    have hg : 0 < gammaJoint N n proba A b 0 i := by
      rw [gammaJoint_zero_eq]; exact div_pos hai hL
    refine ⟨hp', hb', hbe', by rw [hR.proba_eq i hi]; exact hg, ?_⟩
    have := betaJoint_reestimated_pos N n proba A b proba1 A1 hS hL hR n 0 (by omega) i hi hg
    simpa using this
  have hJ := log_sum_inequality N
    (fun i => proba i * b i 0 * betaJoint N A b n 1 i)
    (fun i => proba1 i * b i 0 * betaJoint N A1 b n 1 i)
    (fun i hi => mul_nonneg (mul_nonneg (hS.proba_nonneg i hi) (hS.b_nonneg i 0 hi (by omega)))
      (hbe0 i hi))
    (fun i hi => mul_nonneg (mul_nonneg (by rw [hR.proba_eq i hi]; exact hg0 i hi)
      (hS.b_nonneg i 0 hi (by omega)))
      (betaJoint_nonneg N n A1 b hA1nn hS.b_nonneg n 1 (by omega) i hi))
    (by rw [← totalJoint_eq_sum_zero]; exact hL)
    (fun i hi hai => by
      obtain ⟨-, hb, -, hp1, hb1⟩ := hfac i hi hai
      exact mul_pos (mul_pos hp1 hb) hb1)
  simp only [] at hJ
  rw [← totalJoint_eq_sum_zero, ← totalJoint_eq_sum_zero] at hJ
  obtain ⟨hL', hJ⟩ := hJ
  refine ⟨hL', ?_⟩
  have hscale := mul_le_mul_of_nonneg_left hJ (inv_nonneg.mpr hL.le)
  rw [← mul_assoc, inv_mul_cancel₀ hL.ne', one_mul, mul_sum] at hscale
  refine le_trans (le_of_eq (sum_congr rfl fun i hi => ?_)) hscale
  have hi' := mem_range.mp hi
  rcases (mul_nonneg (mul_nonneg (hS.proba_nonneg i hi') (hS.b_nonneg i 0 hi' (by omega)))
    (hbe0 i hi')).eq_or_lt with h0 | hai
  · rw [gammaJoint_zero_eq, ← h0]; simp
  · obtain ⟨hp, hb, hbe, hp1, hb1⟩ := hfac i hi' hai
    rw [Real.log_mul (mul_pos hp1 hb).ne' hb1.ne', Real.log_mul hp1.ne' hb.ne',
      Real.log_mul (mul_pos hp hb).ne' hbe.ne', Real.log_mul hp.ne' hb.ne',
      gammaJoint_zero_eq]
    field_simp
    ring

/-- Gibbs' inequality for the reestimated initial distribution. -/
theorem em_gibbs_proba (hS : Stochastic N (n + 1) proba A b)
    (hL : 0 < totalJoint N n proba A b) (hR : Reestimated N n proba A b proba1 A1) :
    0 ≤ ∑ i in range N, gammaJoint N n proba A b 0 i
        * (Real.log (proba1 i) - Real.log (proba i)) := by
  have hg0 : ∀ i, i < N → 0 ≤ gammaJoint N n proba A b 0 i :=
    fun i hi => gammaJoint_nonneg N n proba A b hS hL (Nat.zero_le n) hi
  have hsum : ∑ i in range N, gammaJoint N n proba A b 0 i = 1 :=
    sum_gammaJoint N n proba A b (Nat.zero_le n) hL.ne'
  have hJ := log_sum_inequality N (fun i => gammaJoint N n proba A b 0 i) proba
    hg0 hS.proba_nonneg (by simp only []; rw [hsum]; exact zero_lt_one)
    (by
      intro i hi hg
      simp only [] at hg
      rcases (hS.proba_nonneg i hi).eq_or_lt with h0 | h
      · rw [gammaJoint_zero_eq, ← h0] at hg; simp at hg
      · exact h)
  obtain ⟨-, hJ⟩ := hJ
  simp only [] at hJ
  rw [hsum, hS.proba_sum, Real.log_one, sub_zero, mul_zero] at hJ
  have e : ∑ i in range N, gammaJoint N n proba A b 0 i
        * (Real.log (proba1 i) - Real.log (proba i))
      = - ∑ i in range N, gammaJoint N n proba A b 0 i
        * (Real.log (proba i) - Real.log (gammaJoint N n proba A b 0 i)) := by
    rw [← sum_neg_distrib]
    refine sum_congr rfl fun i hi => ?_
    rw [hR.proba_eq i (mem_range.mp hi)]
    ring
  rw [e]
  linarith

/-- Gibbs' inequality for one reestimated row of the transition matrix. -/
theorem em_gibbs_row (hS : Stochastic N (n + 1) proba A b)
    (hL : 0 < totalJoint N n proba A b) (hR : Reestimated N n proba A b proba1 A1)
    (i : Nat) (hi : i < N) :
    0 ≤ ∑ j in range N, (∑ t in range n, xiJoint N n proba A b t i j)
        * (Real.log (A1 i j) - Real.log (A i j)) := by
  have hX0 : ∀ j, j < N → 0 ≤ ∑ t in range n, xiJoint N n proba A b t i j :=
    fun j hj => sum_nonneg fun t ht =>
      xiJoint_nonneg N n proba A b hS hL (mem_range.mp ht) hi hj
  have hrow := sum_sum_xiJoint N n proba A b i
  by_cases hsig : ∑ t in range n, gammaJoint N n proba A b t i = 0
  · rw [hsig] at hrow
    have hz := (sum_eq_zero_iff_of_nonneg fun j hj => hX0 j (mem_range.mp hj)).mp hrow
    exact le_of_eq (sum_eq_zero fun j hj => by rw [hz j hj, zero_mul]).symm
  · have hsigpos : 0 < ∑ t in range n, gammaJoint N n proba A b t i :=
      lt_of_le_of_ne (sum_nonneg fun t ht => gammaJoint_nonneg N n proba A b hS hL
        (le_of_lt (mem_range.mp ht)) hi) (Ne.symm hsig)
    have hA1 : ∀ j, j < N → A1 i j = (∑ t in range n, xiJoint N n proba A b t i j)
        / ∑ t in range n, gammaJoint N n proba A b t i := fun j hj => hR.A_eq i j hi hj hsig
    have hsum1 : ∑ j in range N, A1 i j = 1 := by
      rw [sum_congr rfl fun j hj => hA1 j (mem_range.mp hj), ← sum_div, hrow, div_self hsig]
    have hJ := log_sum_inequality N (fun j => A1 i j) (fun j => A i j)
      (fun j hj => reestimated_A_nonneg N n proba A b proba1 A1 hS hL hR i j hi hj)
      (fun j hj => hS.A_nonneg i j hi hj)
      (by simp only []; rw [hsum1]; exact zero_lt_one)
      (by
        intro j hj hpos
        simp only [] at hpos
        rw [hA1 j hj] at hpos
        have hX : 0 < ∑ t in range n, xiJoint N n proba A b t i j := by
          rcases (hX0 j hj).eq_or_lt with h0 | h
          · rw [← h0, zero_div] at hpos; exact absurd hpos (lt_irrefl _)
          · exact h
        obtain ⟨t, ht, hx⟩ := exists_pos_of_sum_pos n _ hX
        exact (xiJoint_pos_factors N n proba A b hS ht hi hj hx).2.1)
    obtain ⟨-, hJ⟩ := hJ
    simp only [] at hJ
    rw [hsum1, hS.A_sum i hi, Real.log_one, sub_zero, mul_zero] at hJ
    have e : ∑ j in range N, (∑ t in range n, xiJoint N n proba A b t i j)
          * (Real.log (A1 i j) - Real.log (A i j))
        = (∑ t in range n, gammaJoint N n proba A b t i)
          * - ∑ j in range N, A1 i j * (Real.log (A i j) - Real.log (A1 i j)) := by
      rw [← sum_neg_distrib, mul_sum]
      refine sum_congr rfl fun j hj => ?_
      have := hA1 j (mem_range.mp hj)
      have hX : ∑ t in range n, xiJoint N n proba A b t i j
          = (∑ t in range n, gammaJoint N n proba A b t i) * A1 i j := by
        rw [this]; field_simp
      rw [hX]
      ring
    rw [e]
    exact mul_nonneg hsigpos.le (by linarith)

/-- The likelihood does not decrease under Baum-Welch reestimation of `proba` and `A`. -/
theorem em_likelihood_le (hS : Stochastic N (n + 1) proba A b)
    (hL : 0 < totalJoint N n proba A b) (hR : Reestimated N n proba A b proba1 A1) :
    totalJoint N n proba A b ≤ totalJoint N n proba1 A1 b := by
  obtain ⟨hL', hbase⟩ := em_base N n proba A b proba1 A1 hS hL hR
  have htrans := em_transitions N n proba A b proba1 A1 hS hL hR
  have hgp := em_gibbs_proba N n proba A b proba1 A1 hS hL hR
  have hrows : 0 ≤ ∑ t in range n, ∑ i in range N, ∑ j in range N,
      xiJoint N n proba A b t i j * (Real.log (A1 i j) - Real.log (A i j)) := by
    rw [sum_comm]
    refine sum_nonneg fun i hi => ?_
    rw [sum_comm]
    have := em_gibbs_row N n proba A b proba1 A1 hS hL hR i (mem_range.mp hi)
    simpa only [sum_mul] using this
  simp only [mul_add, sum_add_distrib] at hbase
  have : Real.log (totalJoint N n proba A b) ≤ Real.log (totalJoint N n proba1 A1 b) := by
    linarith
  exact (Real.log_le_log_iff hL hL').mp this

end EM4

/-! ## From the rational model to the reals -/

section Cast

open Finset

variable (N n : Nat) (proba : Nat → ℚ) (A b : Nat → Nat → ℚ)

theorem forwardFrom_cast (v : Nat → ℚ) (t0 k i : Nat) :
    ((forwardFrom N A b v t0 k i : ℚ) : ℝ)
      = forwardFrom N (fun i j => (A i j : ℝ)) (fun i t => (b i t : ℝ))
          (fun i => (v i : ℝ)) t0 k i := by
  induction k generalizing i with
  | zero => rfl
  | succ k ih =>
    simp only [forwardFrom]
    push_cast
    rw [sum_congr rfl fun j _ => by rw [ih j]]

theorem alphaJoint_cast (t i : Nat) :
    ((alphaJoint N proba A b t i : ℚ) : ℝ)
      = alphaJoint N (fun i => (proba i : ℝ)) (fun i j => (A i j : ℝ))
          (fun i t => (b i t : ℝ)) t i := by
  rw [alphaJoint, forwardFrom_cast, alphaJoint]
  congr 1
  funext i
  push_cast
  rfl

theorem betaJoint_cast (k t i : Nat) :
    ((betaJoint N A b k t i : ℚ) : ℝ)
      = betaJoint N (fun i j => (A i j : ℝ)) (fun i t => (b i t : ℝ)) k t i := by
  induction k generalizing t i with
  | zero => simp [betaJoint]
  | succ k ih =>
    simp only [betaJoint]
    push_cast
    exact sum_congr rfl fun j _ => by rw [ih (t + 1) j]

theorem totalJoint_cast :
    ((totalJoint N n proba A b : ℚ) : ℝ)
      = totalJoint N n (fun i => (proba i : ℝ)) (fun i j => (A i j : ℝ))
          (fun i t => (b i t : ℝ)) := by
  simp only [totalJoint]
  push_cast
  exact sum_congr rfl fun i _ => alphaJoint_cast N proba A b n i

theorem gammaJoint_cast (t i : Nat) :
    ((gammaJoint N n proba A b t i : ℚ) : ℝ)
      = gammaJoint N n (fun i => (proba i : ℝ)) (fun i j => (A i j : ℝ))
          (fun i t => (b i t : ℝ)) t i := by
  simp only [gammaJoint]
  push_cast
  rw [alphaJoint_cast, betaJoint_cast, totalJoint_cast]

theorem xiJoint_cast (t i j : Nat) :
    ((xiJoint N n proba A b t i j : ℚ) : ℝ)
      = xiJoint N n (fun i => (proba i : ℝ)) (fun i j => (A i j : ℝ))
          (fun i t => (b i t : ℝ)) t i j := by
  simp only [xiJoint]
  push_cast
  rw [alphaJoint_cast, betaJoint_cast, totalJoint_cast]

theorem stochastic_cast {T : Nat} (hS : Stochastic N T proba A b) :
    Stochastic N T (fun i => (proba i : ℝ)) (fun i j => (A i j : ℝ))
      (fun i t => (b i t : ℝ)) where
  proba_nonneg := fun i hi => by exact_mod_cast hS.proba_nonneg i hi
  proba_sum := by exact_mod_cast hS.proba_sum
  A_nonneg := fun i j hi hj => by exact_mod_cast hS.A_nonneg i j hi hj
  A_sum := fun i hi => by exact_mod_cast hS.A_sum i hi
  b_nonneg := fun i t hi ht => by exact_mod_cast hS.b_nonneg i t hi ht

theorem reestimated_cast {proba1 : Nat → ℚ} {A1 : Nat → Nat → ℚ}
    (hR : Reestimated N n proba A b proba1 A1) :
    Reestimated N n (fun i => (proba i : ℝ)) (fun i j => (A i j : ℝ))
      (fun i t => (b i t : ℝ)) (fun i => (proba1 i : ℝ)) (fun i j => (A1 i j : ℝ)) where
  proba_eq := fun i hi => by
    show ((proba1 i : ℚ) : ℝ) = _
    rw [hR.proba_eq i hi, gammaJoint_cast]
  A_keep := fun i j hi hj h0 => by
    simp only [← gammaJoint_cast] at h0
    have h0' : ∑ t in range n, gammaJoint N n proba A b t i = 0 := by exact_mod_cast h0
    show ((A1 i j : ℚ) : ℝ) = ((A i j : ℚ) : ℝ)
    rw [hR.A_keep i j hi hj h0']
  A_eq := fun i j hi hj hne => by
    simp only [← gammaJoint_cast, ← xiJoint_cast] at hne ⊢
    have hne' : ∑ t in range n, gammaJoint N n proba A b t i ≠ 0 := by exact_mod_cast hne
    rw [hR.A_eq i j hi hj hne']
    push_cast
    rfl

/-- The likelihood does not decrease under Baum-Welch reestimation (rational
parameters). -/
theorem totalJoint_le_reestimated {proba1 : Nat → ℚ} {A1 : Nat → Nat → ℚ}
    (hS : Stochastic N (n + 1) proba A b) (hL : 0 < totalJoint N n proba A b)
    (hR : Reestimated N n proba A b proba1 A1) :
    totalJoint N n proba A b ≤ totalJoint N n proba1 A1 b := by
  have hreal := em_likelihood_le N n _ _ _ _ _ (stochastic_cast N proba A b hS)
    (by rw [← totalJoint_cast]; exact_mod_cast hL) (reestimated_cast N n proba A b hR)
  rw [← totalJoint_cast, ← totalJoint_cast] at hreal
  exact_mod_cast hreal

end Cast

/-! ## The log-likelihood over consecutive passes -/

namespace ScaleHMM

variable {R D : Type}

open Finset

theorem scalealpha_mul_prod (h : ScaleHMM R D) {t i : Nat} (ht : t < h.T) (hi : i < h.N)
    (hc : ∀ u, u < h.T → (forward h).scalefactoralpha u ≠ 0) :
    (forward h).scalealpha t i * ∏ u in range (t + 1), (forward h).scalefactoralpha u
      = alphaJoint h.N h.proba h.A (density h) t i := by
  rw [← fwd_mul_prod h t ht (fun u hu => hc u (by omega)) i, prod_range_succ,
    forward_scalealpha h ht hi]
  have := hc t ht
  field_simp
  ring

theorem scalebeta_mul_prod (h : ScaleHMM R D) {t i : Nat} (ht : t < h.T) (hi : i < h.N)
    (hc : ∀ u, u < h.T → (forward h).scalefactoralpha u ≠ 0) :
    (backward (forward h)).scalebeta t i * ∏ u in Ico t h.T, (forward h).scalefactoralpha u
      = betaJoint h.N h.A (density h) (h.T - 1 - t) (t + 1) i := by
  have hb := bwd_mul_prod h (h.T - 1 - t) (by omega) hc i
  have e1 : h.T - (h.T - 1 - t) = t + 1 := by omega
  rw [e1] at hb
  rw [← hb, backward_scalebeta _ (by simpa using ht) (by simpa using hi), forward_T,
    prod_eq_prod_Ico_succ_bot ht]
  have := hc t ht
  field_simp
  ring

/-- The product of all scale factors in unscaled terms. -/
theorem prod_scalefactoralpha_eq_totalJoint (h : ScaleHMM R D) (hT : 1 ≤ h.T)
    (hc : ∀ u, u < h.T → (forward h).scalefactoralpha u ≠ 0) :
    ∏ u in range h.T, (forward h).scalefactoralpha u
      = totalJoint h.N (h.T - 1) h.proba h.A (density h) := by
  have := prod_scalefactoralpha h (h.T - 1) (by omega) (fun u hu => hc u (by omega))
  rw [show h.T - 1 + 1 = h.T by omega] at this
  rw [this, totalJoint]

/-- The posteriors `calc_sumgamma()` writes, in unscaled terms. -/
theorem gamma_eq_gammaJoint (h : ScaleHMM R D) {t i : Nat} (ht : t < h.T) (hi : i < h.N)
    (hc : ∀ u, u < h.T → (forward h).scalefactoralpha u ≠ 0) :
    (calc_sumgamma (backward (forward h))).gamma i t
      = gammaJoint h.N (h.T - 1) h.proba h.A (density h) t i := by
  have hP := prod_scalefactoralpha_eq_totalJoint h (by omega) hc
  have hne : (∏ u in range h.T, (forward h).scalefactoralpha u) ≠ 0 :=
    prod_ne_zero_iff.mpr fun u hu => hc u (mem_range.mp hu)
  rw [gammaJoint, ← hP, eq_div_iff hne, gamma_mul_prod h ht hi hc]

/-- The expected transition counts `calc_sumxi()` writes, in unscaled terms. -/
theorem sumxi_eq_xiJoint (h : ScaleHMM R D) {i j : Nat} (hi : i < h.N) (hj : j < h.N)
    (hc : ∀ u, u < h.T → (forward h).scalefactoralpha u ≠ 0) :
    (calc_sumxi (backward (forward h))).sumxi i j
      = ∑ t in range (h.T - 1), xiJoint h.N (h.T - 1) h.proba h.A (density h) t i j := by
  rw [calc_sumxi_sumxi _ (by simpa using hi) (by simpa using hj)]
  simp only [backward_T, forward_T, backward_scalealpha, backward_A, forward_A,
    density_backward, density_forward]
  refine sum_congr rfl fun t ht => ?_
  have ht1 : t + 1 < h.T := by have := mem_range.mp ht; omega
  have hP := prod_scalefactoralpha_eq_totalJoint h (by omega) hc
  have hne : (∏ u in range h.T, (forward h).scalefactoralpha u) ≠ 0 :=
    prod_ne_zero_iff.mpr fun u hu => hc u (mem_range.mp hu)
  have ha := scalealpha_mul_prod h (t := t) (by omega) hi hc
  have hb := scalebeta_mul_prod h ht1 hj hc
  have e1 : h.T - 1 - (t + 1) = h.T - 1 - (t + 1) := rfl
  rw [xiJoint, ← hP, eq_div_iff hne, ← ha, ← hb,
    ← prod_range_mul_prod_Ico _ (show t + 1 ≤ h.T by omega)]
  ring

/-- The occupancy `calc_sumgamma()` writes, in unscaled terms. -/
theorem sumgamma_eq_gammaJoint (h : ScaleHMM R D) (hT : 1 ≤ h.T) {i : Nat} (hi : i < h.N)
    (hc : ∀ u, u < h.T → (forward h).scalefactoralpha u ≠ 0) :
    (calc_sumgamma (backward (forward h))).sumgamma i
      = ∑ t in range (h.T - 1), gammaJoint h.N (h.T - 1) h.proba h.A (density h) t i := by
  rw [calc_sumgamma_sumgamma _ (by simpa using hT) (by simpa using hi)]
  simp only [backward_T, forward_T]
  exact sum_congr rfl fun t ht =>
    gamma_eq_gammaJoint h (by have := mem_range.mp ht; omega) hi hc

section Passes

variable [LinearOrderedField R] (dens : Density D) (lg : ℚ → R) (elapsed : Nat → Int)
  (maxiter maxtime : Int) (eps : XDouble R)

/-- The parameters a pass leaves are the Baum-Welch reestimates of those it started
with. -/
theorem reestimated_of_next {h h1 : ScaleHMM R D} {l l1 : Locals R} (hT : 1 ≤ h.T)
    (hstep : iterate dens lg elapsed maxiter maxtime eps h l = Step.next h1 l1) :
    Reestimated h.N (h.T - 1) h.proba h.A (density (calc_densities dens h)) h1.proba h1.A := by
  obtain ⟨hg, -, -, hgam, hsg, hsx, hpr, hA, -, -⟩ :=
    iterate_next dens lg elapsed maxiter maxtime eps hstep
  have hc : ∀ u, u < (calc_densities dens h).T →
      (forward (calc_densities dens h)).scalefactoralpha u ≠ 0 := by simpa using hg
  have hsg' : ∀ i, i < h.N → h1.sumgamma i = ∑ t in range (h.T - 1),
      gammaJoint h.N (h.T - 1) h.proba h.A (density (calc_densities dens h)) t i := by
    intro i hi
    rw [hsg]
    exact sumgamma_eq_gammaJoint (calc_densities dens h) (by simpa using hT)
      (by simpa using hi) hc
  have hsx' : ∀ i j, i < h.N → j < h.N → h1.sumxi i j = ∑ t in range (h.T - 1),
      xiJoint h.N (h.T - 1) h.proba h.A (density (calc_densities dens h)) t i j := by
    intro i j hi hj
    rw [hsx]
    exact sumxi_eq_xiJoint (calc_densities dens h) (by simpa using hi) (by simpa using hj) hc
  refine ⟨fun i hi => ?_, fun i j hi hj h0 => ?_, fun i j hi hj hne => ?_⟩
  · rw [hpr]
    simp only [hi, if_true]
    rw [hgam]
    exact gamma_eq_gammaJoint (calc_densities dens h) (t := 0) (by simp; omega)
      (by simpa using hi) hc
  · rw [hA]
    simp only [hi, hj, and_self, if_true]
    rw [hsg' i hi, if_pos h0]
  · rw [hA]
    simp only [hi, hj, and_self, if_true]
    rw [hsg' i hi, if_neg hne, hsx' i j hi hj]

/-- The log-likelihood a pass computes, whether it ends at the convergence `break` or
at the end of the body. -/
theorem iterate_logP {h h1 : ScaleHMM R D} {l l1 : Locals R}
    (hstep : iterate dens lg elapsed maxiter maxtime eps h l = Step.next h1 l1 ∨
      iterate dens lg elapsed maxiter maxtime eps h l = Step.converged h1 l1) :
    h1.logP = logLoop lg (forward (calc_densities dens h)).scalefactoralpha h.T := by
  rcases hstep with hstep | hstep
  · exact (iterate_next_frame dens lg elapsed maxiter maxtime eps hstep).2.2.2.2.1
  · unfold iterate at hstep
    simp only [check_for_state_swap, ite_self] at hstep
    split_ifs at hstep with hg hn hcv
    injection hstep with e1 e2
    subst e1
    simp [calc_sumgamma, calc_loglikelihood]

/-- If the density objects return the same values in the next pass, the recursions of
the next pass read the same density table. -/
theorem density_next {h h1 : ScaleHMM R D} {l l1 : Locals R}
    (hstep : iterate dens lg elapsed maxiter maxtime eps h l = Step.next h1 l1)
    (hdens : ∀ i t, i < h.N → t < h.T →
      dens.calc_densities (h1.densityFunctions i) t
        = dens.calc_densities (h.densityFunctions i) t) :
    density (calc_densities dens h1) = density (calc_densities dens h) := by
  obtain ⟨-, hN, hT, -, -, -, -, -, -, -⟩ :=
    iterate_next dens lg elapsed maxiter maxtime eps hstep
  obtain ⟨hu, hd, htd, -, -, -, -, -, -⟩ :=
    iterate_next_frame dens lg elapsed maxiter maxtime eps hstep
  funext i t
  simp only [density, calc_densities, hu, hN, hT, hd, htd]
  by_cases hi : i < h.N
  · by_cases ht : t < h.T
    · cases h.use_tdens <;> simp [hi, ht, hdens i t hi ht]
    · cases h.use_tdens <;> simp [hi, ht]
  · cases h.use_tdens <;> simp [hi]

end Passes

end ScaleHMM

namespace ScaleHMM

open Finset

/-- C6 (amended): over two consecutive passes of `baumWelch` in which the density
objects return the same values and all scale factors are positive, the `logP` computed
in the second pass is not smaller than the `logP` computed in the first, provided the
parameters of the first pass satisfy the data-model invariants: `proba` and every row of
`A` are non-negative and sum to one, and the density values are non-negative. -/
theorem logP_nondecreasing {D : Type} (dens : Density D) (elapsed : Nat → Int)
    (maxiter maxtime : Int) (eps : XDouble ℝ) {h h1 h2 : ScaleHMM ℝ D} {l l1 l2 : Locals ℝ}
    (hT : 1 ≤ h.T)
    (hS : Stochastic h.N h.T h.proba h.A (density (calc_densities dens h)))
    (hstep1 : iterate dens (fun q => Real.log q) elapsed maxiter maxtime eps h l
      = Step.next h1 l1)
    (hdens : ∀ i t, i < h.N → t < h.T →
      dens.calc_densities (h1.densityFunctions i) t
        = dens.calc_densities (h.densityFunctions i) t)
    (hpos1 : ∀ t, t < h.T → 0 < (forward (calc_densities dens h)).scalefactoralpha t)
    (hpos2 : ∀ t, t < h.T → 0 < (forward (calc_densities dens h1)).scalefactoralpha t)
    (hstep2 : iterate dens (fun q => Real.log q) elapsed maxiter maxtime eps h1 l1
        = Step.next h2 l2 ∨
      iterate dens (fun q => Real.log q) elapsed maxiter maxtime eps h1 l1
        = Step.converged h2 l2) :
    ∃ x y, h1.logP = XDouble.fin x ∧ h2.logP = XDouble.fin y ∧ x ≤ y := by
  obtain ⟨-, hN1, hT1, -, -, -, -, -, -, -⟩ :=
    iterate_next dens _ elapsed maxiter maxtime eps hstep1
  have hR := reestimated_of_next dens _ elapsed maxiter maxtime eps hT hstep1
  have hd := density_next dens _ elapsed maxiter maxtime eps hstep1 hdens
  have hc1 : ∀ u, u < (calc_densities dens h).T →
      (forward (calc_densities dens h)).scalefactoralpha u ≠ 0 :=
    fun u hu => (hpos1 u (by simpa using hu)).ne'
  have hc2 : ∀ u, u < (calc_densities dens h1).T →
      (forward (calc_densities dens h1)).scalefactoralpha u ≠ 0 :=
    fun u hu => (hpos2 u (by simpa [hT1] using hu)).ne'
  have hP1 := prod_scalefactoralpha_eq_totalJoint (calc_densities dens h)
    (by simpa using hT) hc1
  have hP2 := prod_scalefactoralpha_eq_totalJoint (calc_densities dens h1)
    (by simpa [hT1] using hT) hc2
  simp only [calc_densities_T, calc_densities_N, calc_densities_proba, calc_densities_A,
    hd, hN1, hT1] at hP1 hP2
  have hL : 0 < totalJoint h.N (h.T - 1) h.proba h.A (density (calc_densities dens h)) := by
    rw [← hP1]
    exact prod_pos fun u hu => hpos1 u (mem_range.mp hu)
  have hS' : Stochastic h.N (h.T - 1 + 1) h.proba h.A (density (calc_densities dens h)) := by
    rw [show h.T - 1 + 1 = h.T by omega]
    exact hS
  have hle := totalJoint_le_reestimated h.N (h.T - 1) h.proba h.A _ hS' hL hR
  rw [← hP1, ← hP2] at hle
  have hlog1 := (iterate_next_frame dens _ elapsed maxiter maxtime eps hstep1).2.2.2.2.1
  have hlog2 := iterate_logP dens _ elapsed maxiter maxtime eps hstep2
  rw [logLoop_pos _ _ _ hpos1] at hlog1
  rw [hT1, logLoop_pos _ _ _ hpos2] at hlog2
  refine ⟨_, _, hlog1, hlog2, ?_⟩
  rw [← Real.log_prod _ _ fun u hu => by exact_mod_cast (hpos1 u (mem_range.mp hu)).ne',
    ← Real.log_prod _ _ fun u hu => by exact_mod_cast (hpos2 u (mem_range.mp hu)).ne']
  apply Real.log_le_log
  · exact prod_pos fun u hu => by exact_mod_cast hpos1 u (mem_range.mp hu)
  · exact_mod_cast hle

end ScaleHMM

namespace ScaleHMM

open Finset

/-- C6 (as stated, without the invariants): started on `proba = (2, 0, 0)` with densities
`(1, 2, 1)` in both passes, the first pass computes `logP = log 2` and reestimates
`proba = (1, 0, 0)`, and the second pass computes `logP = 0 < log 2`, all scale factors
being positive (2, then 1). -/
theorem logP_decreases_unnormalised :
    ∃ h1 l1 h2 l2,
      iterate flatDensity (fun q => Real.log q) (fun _ => 0) 10 (-1) (XDouble.fin 0)
        (loopStart (fun _ => 0) (fun _ _ => 0) (unnormalisedHMM ℝ)).1
        (loopStart (fun _ => 0) (fun _ _ => 0) (unnormalisedHMM ℝ)).2 = Step.next h1 l1 ∧
      iterate flatDensity (fun q => Real.log q) (fun _ => 0) 10 (-1) (XDouble.fin 0) h1 l1
        = Step.next h2 l2 ∧
      (∀ i t, i < 3 → t < 1 →
        flatDensity.calc_densities (h1.densityFunctions i) t
          = flatDensity.calc_densities
              ((loopStart (fun _ => 0) (fun _ _ => 0) (unnormalisedHMM ℝ)).1.densityFunctions i)
              t) ∧
      (forward (calc_densities flatDensity
        (loopStart (fun _ => 0) (fun _ _ => 0) (unnormalisedHMM ℝ)).1)).scalefactoralpha 0 = 2 ∧
      (forward (calc_densities flatDensity h1)).scalefactoralpha 0 = 1 ∧
      h1.logP = XDouble.fin (Real.log 2) ∧ h2.logP = XDouble.fin 0 ∧
      (0 : ℝ) < Real.log 2 := by
  obtain ⟨H0, hH0⟩ :
      ∃ H0, H0 = (loopStart (fun _ => 0) (fun _ _ => 0) (unnormalisedHMM ℝ)).1 := ⟨_, rfl⟩
  obtain ⟨L0, hL0⟩ : ∃ L0, L0 = (loopStart (R := ℝ) (D := Nat) (fun _ => 0) (fun _ _ => 0)
    (unnormalisedHMM ℝ)).2 := ⟨_, rfl⟩
  rw [← hH0, ← hL0]
  have hN0 : H0.N = 3 := by rw [hH0]; rfl
  have hT0 : H0.T = 1 := by rw [hH0]; rfl
  have hu0 : H0.use_tdens = false := by rw [hH0]; rfl
  have hd0 : ∀ i, i < H0.N → H0.densityFunctions i = i := by rw [hH0]; exact fun i _ => rfl
  have hpr0 : H0.proba = fun i => if i = 0 then 2 else 0 := by rw [hH0]; rfl
  have hold0 : L0.logPold = XDouble.negInf := by rw [hL0]; rfl
  -- first pass
  have hc0 : (forward (calc_densities flatDensity H0)).scalefactoralpha 0 = 2 := by
    rw [scalefactor_flat _ hu0 hN0 hT0 hd0, hpr0]
    norm_num
  have hpos0 : ∀ t, t < H0.T →
      0 < (forward (calc_densities flatDensity H0)).scalefactoralpha t := by
    intro t ht
    have : t = 0 := by omega
    subst this
    rw [hc0]; norm_num
  obtain ⟨h1, l1, e1⟩ :=
    iterate_first_pass flatDensity (fun q => Real.log q) (fun _ => 0) 10 (-1)
      (XDouble.fin 0) H0 L0 hpos0 hold0
  obtain ⟨hu1, hN1, hT1, hd1, -, hp10, hp11, hp12⟩ :=
    flat_pass_next _ _ _ _ _ hu0 hN0 hT0 hd0 e1
  obtain ⟨-, -, -, -, hlogP1, -, hold1, -, -⟩ := iterate_next_frame _ _ _ _ _ _ e1
  have hpr1 : h1.proba 0 = 1 ∧ h1.proba 1 = 0 ∧ h1.proba 2 = 0 := by
    rw [hp10, hp11, hp12, hpr0]
    norm_num
  have hlog1 : h1.logP = XDouble.fin (Real.log 2) := by
    rw [hlogP1, hT0, logLoop_pos _ _ _ (by simpa [hT0] using hpos0)]
    simp [hc0]
  -- second pass
  have hc1 : (forward (calc_densities flatDensity h1)).scalefactoralpha 0 = 1 := by
    rw [scalefactor_flat _ hu1 hN1 hT1 hd1, hpr1.1, hpr1.2.1, hpr1.2.2]
    norm_num
  have hpos1 : ∀ t, t < h1.T →
      0 < (forward (calc_densities flatDensity h1)).scalefactoralpha t := by
    intro t ht
    have : t = 0 := by omega
    subst this
    rw [hc1]; norm_num
  obtain ⟨h2, l2, e2⟩ :=
    iterate_pos_next flatDensity (fun q => Real.log q) (fun _ => 0) 10 (-1)
      (XDouble.fin 0) h1 l1 hpos1
      (by
        rw [hold1, hlog1, hT1]
        simp only [sum_range_one, hc1]
        simp only [XDouble.sub, XDouble.neg, XDouble.add, XDouble.fabs, XDouble.lt]
        simp)
  obtain ⟨-, -, -, -, hlogP2, -, -, -, -⟩ := iterate_next_frame _ _ _ _ _ _ e2
  have hlog2 : h2.logP = XDouble.fin 0 := by
    rw [hlogP2, hT1, logLoop_pos _ _ _ (by simpa [hT1] using hpos1)]
    simp [hc1]
  refine ⟨h1, l1, h2, l2, e1, e2, ?_, hc0, hc1, hlog1, hlog2, Real.log_pos (by norm_num)⟩
  intro i t hi _
  rw [hd1 i (by omega), hd0 i (by omega)]

theorem logP_nondecreasing_witness :
    ∃ h1 l1 h2 l2,
      iterate flatDensity (fun q => Real.log q) (fun _ => 0) 10 (-1) (XDouble.fin 1)
        (loopStart (fun _ => 0) (fun _ _ => 0) (singleHMM ℝ)).1
        (loopStart (fun _ => 0) (fun _ _ => 0) (singleHMM ℝ)).2 = Step.next h1 l1 ∧
      iterate flatDensity (fun q => Real.log q) (fun _ => 0) 10 (-1) (XDouble.fin 1) h1 l1
        = Step.converged h2 l2 ∧
      ∃ x y, h1.logP = XDouble.fin x ∧ h2.logP = XDouble.fin y ∧ x ≤ y := by
  obtain ⟨h1, l1, h2, l2, e1, e2, -, -, hc0, hc1, hd1, -, -⟩ := singleHMM_passes
  refine ⟨h1, l1, h2, l2, e1, e2, ?_⟩
  have hN0 : (loopStart (R := ℝ) (fun _ => 0) (fun _ _ => 0) (singleHMM ℝ)).1.N = 3 := rfl
  have hT0 : (loopStart (R := ℝ) (fun _ => 0) (fun _ _ => 0) (singleHMM ℝ)).1.T = 1 := rfl
  refine logP_nondecreasing flatDensity (fun _ => 0) 10 (-1) (XDouble.fin 1)
    (by rw [hT0]) ?_ e1 ?_ ?_ ?_ (Or.inr e2)
  · refine ⟨?_, ?_, ?_, ?_, ?_⟩
    · intro i _
      show (0 : ℚ) ≤ if i < 2 then 1 / 2 else 0
      split <;> norm_num
    · rw [hN0]
      show ∑ i in range 3, (if i < 2 then (1 / 2 : ℚ) else 0) = 1
      simp [sum_range_succ]
      norm_num
    · intro i j _ _
      show (0 : ℚ) ≤ 1 / 3
      norm_num
    · intro i _
      rw [hN0]
      show ∑ j in range 3, (1 / 3 : ℚ) = 1
      simp
    · intro i t hi ht
      rw [density_calc_densities_flat _ rfl (fun i _ => rfl) hi ht]
      split <;> norm_num
  · intro i t hi _
    rw [hd1 i (by rw [hN0] at hi; exact hi)]
    rfl
  · intro t ht
    have : t = 0 := by rw [hT0] at ht; omega
    subst this
    rw [hc0]; norm_num
  · intro t ht
    have : t = 0 := by rw [hT0] at ht; omega
    subst this
    rw [hc1]; norm_num

end ScaleHMM

/-! ## Initial probabilities, weights and the occupancy accumulator -/

namespace ScaleHMM

variable {R D : Type}

open Finset

/-- In exact arithmetic, after `calc_sumgamma()` the accumulator leaves the last time
step out: `sumgamma[i]` is the sum of `gamma[i][t]` over `t = 0 .. T-2`, and it is the
sum over all `t` minus `gamma[i][T-1]`, as the code computes it; with `T = 1` it is
zero.  (In binary64 arithmetic the subtraction can cancel:
`Binary64.ScaleHMM.calc_sumgamma_cancels`.) -/
theorem calc_sumgamma_excludes_last (h : ScaleHMM R D) (hT : 1 ≤ h.T) (i : Nat)
    (hi : i < h.N) :
    (calc_sumgamma h).sumgamma i = ∑ t in range (h.T - 1), (calc_sumgamma h).gamma i t ∧
    (calc_sumgamma h).sumgamma i
      = ∑ t in range h.T, (calc_sumgamma h).gamma i t - (calc_sumgamma h).gamma i (h.T - 1) ∧
    (∀ t, t < h.T → (calc_sumgamma h).gamma i t
      = h.scalealpha t i * h.scalebeta t i * h.scalefactoralpha t) ∧
    (h.T = 1 → (calc_sumgamma h).sumgamma i = 0) := by
  have key := calc_sumgamma_sumgamma h hT hi
  refine ⟨key, ?_, fun t ht => calc_sumgamma_gamma h hi ht, ?_⟩
  · simp only [calc_sumgamma, hi, if_true, loopSum_eq_sum]
  · intro h1
    rw [key, h1]
    simp

theorem calc_sumgamma_excludes_last_witness :
    (calc_sumgamma (backward (forward (exampleHMM ℚ)))).sumgamma 0
      = ∑ t in range ((backward (forward (exampleHMM ℚ))).T - 1),
          (calc_sumgamma (backward (forward (exampleHMM ℚ)))).gamma 0 t :=
  (calc_sumgamma_excludes_last (backward (forward (exampleHMM ℚ))) (by decide) 0
    (by decide)).1

/-- C16: `calc_weights` writes, for every state `i`, the sum of the whole row
`gamma[i][0 .. T-1]` divided by `T`; it leaves the rest of the buffer alone and does not
read `sumgamma`. -/
theorem calc_weights_mean (h : ScaleHMM R D) (weights : Nat → ℚ) (_hT : 1 ≤ h.T) (i : Nat)
    (hi : i < h.N) :
    calc_weights h weights i = (∑ t in range h.T, h.gamma i t) / (h.T : ℚ) ∧
    (∀ k, h.N ≤ k → calc_weights h weights k = weights k) ∧
    (∀ s : Nat → ℚ, calc_weights { h with sumgamma := s } weights i
      = calc_weights h weights i) := by
  refine ⟨?_, ?_, ?_⟩
  · simp [calc_weights, hi, loopSum_eq_sum]
  · intro k hk
    simp [calc_weights, Nat.not_lt.mpr hk]
  · intro s
    rfl

theorem calc_weights_mean_witness :
    calc_weights (calc_sumgamma (backward (forward (exampleHMM ℚ)))) (fun _ => 0) 0
      = (∑ t in range (calc_sumgamma (backward (forward (exampleHMM ℚ)))).T,
          (calc_sumgamma (backward (forward (exampleHMM ℚ)))).gamma 0 t)
        / ((calc_sumgamma (backward (forward (exampleHMM ℚ)))).T : ℚ) :=
  (calc_weights_mean (calc_sumgamma (backward (forward (exampleHMM ℚ)))) (fun _ => 0)
    (by decide) 0 (by decide)).1

/-- C17: with `use_initial_params = false`, `initialize_proba` sets `proba[i] = 1/N` and
writes the same value into the caller's buffer; with `use_initial_params = true` it
copies the caller's values and returns the buffer as it was. -/
theorem initialize_proba_spec (h : ScaleHMM R D) (initial_proba : Nat → ℚ) (i : Nat)
    (hi : i < h.N) :
    (h.initialize_proba initial_proba false).1.proba i = 1 / (h.N : ℚ) ∧
    (h.initialize_proba initial_proba false).2 i = 1 / (h.N : ℚ) ∧
    (h.initialize_proba initial_proba true).1.proba i = initial_proba i ∧
    (h.initialize_proba initial_proba true).2 = initial_proba := by
  simp [initialize_proba, hi]

theorem initialize_proba_spec_witness :
    ((exampleHMM ℚ).initialize_proba (fun _ => 0) false).1.proba 2
        = 1 / ((exampleHMM ℚ).N : ℚ) ∧
    ((exampleHMM ℚ).initialize_proba (fun _ => 0) false).2 2 = 1 / ((exampleHMM ℚ).N : ℚ) ∧
    ((exampleHMM ℚ).initialize_proba (fun _ => 0) true).1.proba 2 = (fun _ => (0 : ℚ)) 2 ∧
    ((exampleHMM ℚ).initialize_proba (fun _ => 0) true).2 = fun _ => 0 :=
  initialize_proba_spec (exampleHMM ℚ) (fun _ => 0) 2 (by decide)

/-- C18: the defaults `initialize_transition_probs(buf, false)` wrote into the buffer,
read back by `initialize_transition_probs(buf, true)` on a second model with the same
number of states, give the same matrix, and the second call returns the buffer as it
was. -/
theorem initialize_transition_probs_roundtrip (h1 h2 : ScaleHMM R D) (buf : Nat → ℚ)
    (hN : h2.N = h1.N) (i j : Nat) (hi : i < h1.N) (hj : j < h1.N) :
    get_A (h2.initialize_transition_probs (h1.initialize_transition_probs buf false).2 true).1
        i j
      = get_A (h1.initialize_transition_probs buf false).1 i j ∧
    (h2.initialize_transition_probs (h1.initialize_transition_probs buf false).2 true).2
      = (h1.initialize_transition_probs buf false).2 := by
  have hpos : 0 < h1.N := by omega
  have hdiv : (i * h1.N + j) / h1.N = i := by
    rw [Nat.add_comm, Nat.add_mul_div_right _ _ hpos, Nat.div_eq_of_lt hj, Nat.zero_add]
  have hmod : (i * h1.N + j) % h1.N = j := by
    rw [Nat.add_comm, Nat.add_mul_mod_self_right, Nat.mod_eq_of_lt hj]
  have hflat : i * h1.N + j < h1.N * h1.N := by
    calc i * h1.N + j < i * h1.N + h1.N := by omega
      _ = (i + 1) * h1.N := by ring
      _ ≤ h1.N * h1.N := Nat.mul_le_mul_right _ hi
  refine ⟨?_, ?_⟩
  · simp only [get_A, initialize_transition_probs, if_true, Bool.false_eq_true, if_false,
      hN, hi, hj, and_self, hflat, hdiv, hmod]
  · simp [initialize_transition_probs]

theorem initialize_transition_probs_roundtrip_witness :
    get_A ((singleHMM ℚ).initialize_transition_probs
        ((exampleHMM ℚ).initialize_transition_probs (fun _ => 0) false).2 true).1 1 2
      = get_A ((exampleHMM ℚ).initialize_transition_probs (fun _ => 0) false).1 1 2 ∧
    ((singleHMM ℚ).initialize_transition_probs
        ((exampleHMM ℚ).initialize_transition_probs (fun _ => 0) false).2 true).2
      = ((exampleHMM ℚ).initialize_transition_probs (fun _ => 0) false).2 :=
  initialize_transition_probs_roundtrip (exampleHMM ℚ) (singleHMM ℚ) (fun _ => 0) rfl 1 2
    (by decide) (by decide)

end ScaleHMM

namespace ScaleHMM

variable {R D : Type}

open Finset

section Reestimation

variable [LinearOrderedField R] (dens : Density D) (lg : ℚ → R) (elapsed : Nat → Int)
  (maxiter maxtime : Int) (eps : XDouble R)

end Reestimation

end ScaleHMM

/-! ## The two layouts of the density values -/

namespace ScaleHMM

variable {R D : Type}

open Finset

theorem loopSum_congr (n : Nat) (f g : Nat → ℚ) (hfg : ∀ k, k < n → f k = g k) :
    loopSum n f = loopSum n g := by
  rw [loopSum_eq_sum, loopSum_eq_sum]
  exact sum_congr rfl fun k hk => hfg k (mem_range.mp hk)

/-- The array `alpha` of `forward()` is the same on the two branches when the
time-major values mirror the state-major ones. -/
theorem forwardAlphaT_eq (h : ScaleHMM R D)
    (hmirror : ∀ i t, i < h.N → t < h.T → h.tdensities t i = h.densities i t)
    (t : Nat) (ht : t < h.T) (i : Nat) (hi : i < h.N) :
    forwardAlphaT { h with use_tdens := true } t i
      = forwardAlpha { h with use_tdens := false } t i := by
  induction t generalizing i with
  | zero => simp [forwardAlphaT, forwardAlpha, hmirror i 0 hi ht]
  | succ t ih =>
    have ih := ih (by omega)
    simp only [forwardAlphaT, forwardAlpha, hmirror i (t + 1) hi ht]
    congr 1
    have hs := loopSum_congr h.N _ _ ih
    refine loopSum_congr _ _ _ fun j hj => ?_
    rw [ih j hj, hs]

/-- The array `beta` of `backward()` is the same on the two branches when the
time-major values mirror the state-major ones. -/
theorem backwardBetaT_eq (h : ScaleHMM R D)
    (hmirror : ∀ i t, i < h.N → t < h.T → h.tdensities t i = h.densities i t)
    (k : Nat) (hk : k < h.T) (i : Nat) :
    backwardBetaT { h with use_tdens := true } k i
      = backwardBeta { h with use_tdens := false } k i := by
  induction k generalizing i with
  | zero => simp [backwardBetaT, backwardBeta]
  | succ k ih =>
    have ih := ih (by omega)
    simp only [backwardBetaT, backwardBeta]
    refine loopSum_congr _ _ _ fun j hj => ?_
    rw [ih j, hmirror j (h.T - 1 - k) hj (by omega)]

theorem forward_tdens_eq (h : ScaleHMM R D)
    (hmirror : ∀ i t, i < h.N → t < h.T → h.tdensities t i = h.densities i t) :
    (forward { h with use_tdens := true }).scalefactoralpha
        = (forward { h with use_tdens := false }).scalefactoralpha ∧
    (forward { h with use_tdens := true }).scalealpha
        = (forward { h with use_tdens := false }).scalealpha := by
  have hs : ∀ t, t < h.T →
      loopSum h.N (forwardAlphaT { h with use_tdens := true } t)
        = loopSum h.N (forwardAlpha { h with use_tdens := false } t) := fun t ht =>
    loopSum_congr _ _ _ fun i hi => forwardAlphaT_eq h hmirror t ht i hi
  constructor
  · funext t
    by_cases ht : t < h.T
    · simp [forward, ht, hs t ht]
    · simp [forward, ht]
  · funext t i
    by_cases hti : t < h.T ∧ i < h.N
    · simp [forward, hti, hs t hti.1, forwardAlphaT_eq h hmirror t hti.1 i hti.2]
    · simp [forward, hti]

theorem backward_tdens_eq (h : ScaleHMM R D)
    (hmirror : ∀ i t, i < h.N → t < h.T → h.tdensities t i = h.densities i t) :
    (backward { h with use_tdens := true }).scalebeta
        = (backward { h with use_tdens := false }).scalebeta := by
  funext t i
  by_cases hti : t < h.T ∧ i < h.N
  · simp [backward, hti, backwardBetaT_eq h hmirror (h.T - 1 - t) (by omega) i]
  · simp [backward, hti]

theorem calc_sumxi_tdens_eq (h : ScaleHMM R D)
    (hmirror : ∀ i t, i < h.N → t < h.T → h.tdensities t i = h.densities i t) :
    (calc_sumxi { h with use_tdens := true }).sumxi
        = (calc_sumxi { h with use_tdens := false }).sumxi := by
  funext i j
  by_cases hij : i < h.N ∧ j < h.N
  · simp only [calc_sumxi, Bool.not_true, Bool.not_false, Bool.false_eq_true, if_false,
      if_true, hij, and_self]
    refine loopSum_congr _ _ _ fun t ht => ?_
    rw [hmirror j (t + 1) hij.2 (by omega)]
  · simp [calc_sumxi, hij]

end ScaleHMM

namespace ScaleHMM

variable {R D : Type}

open Finset

/-- With mirrored density values, `forward()` on the time-major branch leaves the model
that the state-major branch leaves, up to the flag. -/
theorem forward_flag (h : ScaleHMM R D)
    (hmirror : ∀ i t, i < h.N → t < h.T → h.tdensities t i = h.densities i t) :
    forward { h with use_tdens := true }
      = { forward { h with use_tdens := false } with use_tdens := true } := by
  obtain ⟨e1, e2⟩ := forward_tdens_eq h hmirror
  have e : forward { h with use_tdens := true }
      = { h with use_tdens := true,
                 scalefactoralpha := (forward { h with use_tdens := true }).scalefactoralpha,
                 scalealpha := (forward { h with use_tdens := true }).scalealpha } := rfl
  rw [e, e1, e2]
  rfl

theorem backward_flag (h : ScaleHMM R D)
    (hmirror : ∀ i t, i < h.N → t < h.T → h.tdensities t i = h.densities i t) :
    backward { h with use_tdens := true }
      = { backward { h with use_tdens := false } with use_tdens := true } := by
  have e1 := backward_tdens_eq h hmirror
  have e : backward { h with use_tdens := true }
      = { h with use_tdens := true,
                 scalebeta := (backward { h with use_tdens := true }).scalebeta } := rfl
  rw [e, e1]
  rfl

/-- C15: when `tdensities[t][i] = densities[i][t]` for all `i < N`, `t < T`, the branch
`use_tdens` of `forward()`, `backward()` and `calc_sumxi()` writes the same
`scalefactoralpha`, `scalealpha`, `scalebeta` and `sumxi` as the branch `not use_tdens`,
each function on its own and the three run in sequence; and `calc_densities()` with
`use_tdens` leaves the two layouts mirrored. -/
theorem tdens_equivalent (dens : Density D) (h : ScaleHMM R D)
    (hmirror : ∀ i t, i < h.N → t < h.T → h.tdensities t i = h.densities i t) :
    ((forward { h with use_tdens := true }).scalefactoralpha
        = (forward { h with use_tdens := false }).scalefactoralpha ∧
     (forward { h with use_tdens := true }).scalealpha
        = (forward { h with use_tdens := false }).scalealpha ∧
     (backward { h with use_tdens := true }).scalebeta
        = (backward { h with use_tdens := false }).scalebeta ∧
     (calc_sumxi { h with use_tdens := true }).sumxi
        = (calc_sumxi { h with use_tdens := false }).sumxi) ∧
    ((backward (forward { h with use_tdens := true })).scalebeta
        = (backward (forward { h with use_tdens := false })).scalebeta ∧
     (calc_sumxi (backward (forward { h with use_tdens := true }))).sumxi
        = (calc_sumxi (backward (forward { h with use_tdens := false }))).sumxi) ∧
    (∀ i t, i < h.N → t < h.T →
      (calc_densities dens { h with use_tdens := true }).tdensities t i
        = (calc_densities dens { h with use_tdens := true }).densities i t) := by
  refine ⟨⟨(forward_tdens_eq h hmirror).1, (forward_tdens_eq h hmirror).2,
    backward_tdens_eq h hmirror, calc_sumxi_tdens_eq h hmirror⟩, ⟨?_, ?_⟩, ?_⟩
  · rw [forward_flag h hmirror]
    exact backward_tdens_eq (forward { h with use_tdens := false }) hmirror
  · rw [forward_flag h hmirror]
    have hm : ∀ i t, i < (forward { h with use_tdens := false }).N →
        t < (forward { h with use_tdens := false }).T →
        (forward { h with use_tdens := false }).tdensities t i
          = (forward { h with use_tdens := false }).densities i t := hmirror
    rw [backward_flag _ hm]
    exact calc_sumxi_tdens_eq (backward (forward { h with use_tdens := false })) hmirror
  · intro i t hi ht
    simp [calc_densities, hi, ht]

end ScaleHMM

namespace ScaleHMM

theorem tdens_equivalent_witness :
    (∀ i t, i < (mirroredHMM ℚ).N → t < (mirroredHMM ℚ).T →
      (mirroredHMM ℚ).tdensities t i = (mirroredHMM ℚ).densities i t) ∧
    (forward { mirroredHMM ℚ with use_tdens := true }).scalefactoralpha
      = (forward { mirroredHMM ℚ with use_tdens := false }).scalefactoralpha ∧
    (calc_sumxi (backward (forward { mirroredHMM ℚ with use_tdens := true }))).sumxi
      = (calc_sumxi (backward (forward { mirroredHMM ℚ with use_tdens := false }))).sumxi :=
  have hm : ∀ i t, i < (mirroredHMM ℚ).N → t < (mirroredHMM ℚ).T →
      (mirroredHMM ℚ).tdensities t i = (mirroredHMM ℚ).densities i t := by
    intro i t hi ht
    have hi3 : i < 3 := hi
    have ht2 : t < 2 := ht
    simp [mirroredHMM, calc_densities, exampleHMM, construct, hi3, ht2]
  ⟨hm, (tdens_equivalent exampleDensity (mirroredHMM ℚ) hm).1.1,
    (tdens_equivalent exampleDensity (mirroredHMM ℚ) hm).2.1.2⟩

end ScaleHMM

/-! ## Positivity of the scale factors -/

namespace ScaleHMM

variable {R D : Type}

open Finset

theorem sum_pos_of_sum_weights (N : Nat) (w b : Nat → ℚ)
    (hw : ∀ i, i < N → 0 ≤ w i) (hsum : 0 < ∑ i in range N, w i)
    (hb : ∀ i, i < N → 0 < b i) : 0 < ∑ i in range N, w i * b i := by
  obtain ⟨i, hi, hpos⟩ : ∃ i ∈ range N, 0 < w i := by
    by_contra hne
    push_neg at hne
    exact absurd hsum (not_lt.mpr (sum_nonpos hne))
  exact sum_pos' (fun j hj => mul_nonneg (hw j (mem_range.mp hj)) (hb j (mem_range.mp hj)).le)
    ⟨i, hi, mul_pos hpos (hb i (mem_range.mp hi))⟩

/-- With non-negative `proba` and `A` summing to one and positive density values, the
array `alpha` of `forward()` is non-negative and its sum, the scale factor, positive. -/
theorem fwd_pos (h : ScaleHMM R D)
    (hp : ∀ i, i < h.N → 0 ≤ h.proba i) (hps : ∑ i in range h.N, h.proba i = 1)
    (hA : ∀ i j, i < h.N → j < h.N → 0 ≤ h.A i j)
    (hAs : ∀ i, i < h.N → ∑ j in range h.N, h.A i j = 1)
    (hb : ∀ i t, i < h.N → t < h.T → 0 < density h i t) (t : Nat) (ht : t < h.T) :
    (∀ i, i < h.N → 0 ≤ fwd h t i) ∧ 0 < ∑ i in range h.N, fwd h t i := by
  induction t with
  | zero =>
    constructor
    · intro i hi
      rw [fwd_zero]
      exact mul_nonneg (hp i hi) (hb i 0 hi ht).le
    · simp only [fwd_zero]
      exact sum_pos_of_sum_weights h.N _ _ hp (by rw [hps]; norm_num) fun i hi => hb i 0 hi ht
  | succ t ih =>
    obtain ⟨hnn, hc⟩ := ih (by omega)
    have hw : ∀ i, i < h.N →
        0 ≤ ∑ j in range h.N, fwd h t j / (∑ k in range h.N, fwd h t k) * h.A j i := by
      intro i hi
      exact sum_nonneg fun j hj =>
        mul_nonneg (div_nonneg (hnn j (mem_range.mp hj)) hc.le) (hA j i (mem_range.mp hj) hi)
    have hone : ∑ i in range h.N,
        ∑ j in range h.N, fwd h t j / (∑ k in range h.N, fwd h t k) * h.A j i = 1 := by
      rw [sum_comm]
      have e : ∀ j ∈ range h.N,
          ∑ i in range h.N, fwd h t j / (∑ k in range h.N, fwd h t k) * h.A j i
            = fwd h t j / (∑ k in range h.N, fwd h t k) := by
        intro j hj
        rw [← mul_sum, hAs j (mem_range.mp hj), mul_one]
      rw [sum_congr rfl e, ← sum_div]
      exact div_self hc.ne'
    constructor
    · intro i hi
      rw [fwd_succ]
      exact mul_nonneg (hw i hi) (hb i (t + 1) hi ht).le
    · simp only [fwd_succ]
      exact sum_pos_of_sum_weights h.N _ _ hw (by rw [hone]; norm_num)
        fun i hi => hb i (t + 1) hi ht

/-- With non-negative `A`, non-negative density values and positive scale factors the
array `beta` of `backward()` is non-negative. -/
theorem bwd_nonneg (h : ScaleHMM R D)
    (hA : ∀ i j, i < h.N → j < h.N → 0 ≤ h.A i j)
    (hb : ∀ i t, i < h.N → t < h.T → 0 ≤ density h i t)
    (hc : ∀ t, t < h.T → 0 < h.scalefactoralpha t) (k : Nat) (hk : k < h.T) (i : Nat)
    (hi : i < h.N) : 0 ≤ bwd h k i := by
  induction k generalizing i with
  | zero => rw [bwd_zero]; norm_num
  | succ k ih =>
    rw [bwd_succ]
    refine sum_nonneg fun j hj => ?_
    have hj := mem_range.mp hj
    exact mul_nonneg (mul_nonneg (hA i j hi hj) (hb j _ hj (by omega)))
      (div_nonneg (ih (by omega) j hj) (hc _ (by omega)).le)

end ScaleHMM

namespace ScaleHMM

variable {R D : Type}

open Finset

/-- C20 (amended): in exact arithmetic, where no product underflows to zero, when
`proba` and the rows of `A` are non-negative and sum to one and every density value is
positive, every scale factor `forward()` computes is positive (no
division in `forward()` or `backward()` has a zero divisor), `scalealpha`, `scalebeta`
and `gamma` are non-negative, the log-likelihood is a finite number, and a pass of the
main loop of `baumWelch` started on these values ends at the end of the body or at
"Convergence reached!", never at the `isnan` test or with a non-finite value. -/
theorem scale_factors_positive [LinearOrderedField R] (lg : ℚ → R) (h : ScaleHMM R D)
    (hp : ∀ i, i < h.N → 0 ≤ h.proba i) (hps : ∑ i in range h.N, h.proba i = 1)
    (hA : ∀ i j, i < h.N → j < h.N → 0 ≤ h.A i j)
    (hAs : ∀ i, i < h.N → ∑ j in range h.N, h.A i j = 1)
    (hb : ∀ i t, i < h.N → t < h.T → 0 < density h i t) :
    (∀ t, t < h.T → 0 < (forward h).scalefactoralpha t) ∧
    (∀ t i, t < h.T → i < h.N → 0 ≤ (forward h).scalealpha t i) ∧
    (∀ t i, t < h.T → i < h.N → 0 ≤ (backward (forward h)).scalebeta t i) ∧
    (∀ i t, i < h.N → t < h.T → 0 ≤ (calc_sumgamma (backward (forward h))).gamma i t) ∧
    (∃ x, (calc_loglikelihood lg (backward (forward h))).logP = XDouble.fin x) ∧
    (∀ (dens : Density D) (elapsed : Nat → Int) (maxiter maxtime : Int) (eps : XDouble R)
        (h0 : ScaleHMM R D) (l : Locals R), calc_densities dens h0 = h →
      ∃ h1 l1, iterate dens lg elapsed maxiter maxtime eps h0 l = Step.next h1 l1 ∨
        iterate dens lg elapsed maxiter maxtime eps h0 l = Step.converged h1 l1) := by
  have hc : ∀ t, t < h.T → 0 < (forward h).scalefactoralpha t := by
    intro t ht
    rw [forward_scalefactoralpha h ht]
    exact (fwd_pos h hp hps hA hAs hb t ht).2
  have ha : ∀ t i, t < h.T → i < h.N → 0 ≤ (forward h).scalealpha t i := by
    intro t i ht hi
    rw [forward_scalealpha h ht hi]
    exact div_nonneg ((fwd_pos h hp hps hA hAs hb t ht).1 i hi) (hc t ht).le
  have hbeta : ∀ t i, t < h.T → i < h.N → 0 ≤ (backward (forward h)).scalebeta t i := by
    intro t i ht hi
    rw [backward_scalebeta (forward h) (by simpa using ht) (by simpa using hi)]
    refine div_nonneg (bwd_nonneg (forward h) (by simpa using hA) ?_ (by simpa using hc) _
      (by simp only [forward_T]; omega) i (by simpa using hi)) (hc t ht).le
    intro j u hj hu
    rw [density_forward]
    exact (hb j u (by simpa using hj) (by simpa using hu)).le
  refine ⟨hc, ha, hbeta, ?_, ?_, ?_⟩
  · intro i t hi ht
    rw [calc_sumgamma_gamma _ (by simpa using hi) (by simpa using ht)]
    simp only [backward_scalealpha, backward_scalefactoralpha]
    exact mul_nonneg (mul_nonneg (ha t i ht hi) (hbeta t i ht hi)) (hc t ht).le
  · refine ⟨∑ t in range h.T, lg ((forward h).scalefactoralpha t), ?_⟩
    simp only [calc_loglikelihood, backward_scalefactoralpha, backward_T, forward_T]
    exact logLoop_pos lg _ _ hc
  · intro dens elapsed maxiter maxtime eps h0 l e
    have hT : h.T = h0.T := by rw [← e]; simp
    have hpos : ∀ t, t < h0.T → 0 < (forward (calc_densities dens h0)).scalefactoralpha t := by
      intro t ht
      rw [e]
      exact hc t (by omega)
    cases hcv : XDouble.lt (XDouble.fabs (XDouble.sub
        (XDouble.fin (∑ t in range h0.T,
          lg ((forward (calc_densities dens h0)).scalefactoralpha t))) l.logPold)) eps with
    | false =>
      obtain ⟨h1, l1, e1⟩ := iterate_pos_next dens lg elapsed maxiter maxtime eps h0 l hpos hcv
      exact ⟨h1, l1, Or.inl e1⟩
    | true =>
      obtain ⟨h1, l1, e1⟩ :=
        iterate_pos_converged dens lg elapsed maxiter maxtime eps h0 l hpos hcv
      exact ⟨h1, l1, Or.inr e1⟩

end ScaleHMM

namespace ScaleHMM

open Finset

theorem scale_factors_positive_witness :
    (∑ i in range (exampleHMM ℝ).N, (exampleHMM ℝ).proba i = 1 ∧
      ∀ i, i < (exampleHMM ℝ).N → ∑ j in range (exampleHMM ℝ).N, (exampleHMM ℝ).A i j = 1) ∧
    (∀ t, t < (exampleHMM ℝ).T → 0 < (forward (exampleHMM ℝ)).scalefactoralpha t) ∧
    (∀ i t, i < (exampleHMM ℝ).N → t < (exampleHMM ℝ).T →
      0 ≤ (calc_sumgamma (backward (forward (exampleHMM ℝ)))).gamma i t) ∧
    ∃ x, (calc_loglikelihood (fun q => Real.log q)
      (backward (forward (exampleHMM ℝ)))).logP = XDouble.fin x :=
  have hps : ∑ i in range (exampleHMM ℝ).N, (exampleHMM ℝ).proba i = 1 := by
    show ∑ i in range 3, (if i = 0 then (1 / 2 : ℚ) else 1 / 4) = 1
    simp [sum_range_succ]
    norm_num
  have hAs : ∀ i, i < (exampleHMM ℝ).N →
      ∑ j in range (exampleHMM ℝ).N, (exampleHMM ℝ).A i j = 1 := by
    intro i hi
    have hi3 : i < 3 := hi
    show ∑ j in range 3, (if i = j then (1 / 2 : ℚ) else 1 / 4) = 1
    interval_cases i <;> simp [sum_range_succ] <;> norm_num
  have key := scale_factors_positive (fun q => Real.log q) (exampleHMM ℝ)
    (by
      intro i _
      show (0 : ℚ) ≤ if i = 0 then 1 / 2 else 1 / 4
      split <;> norm_num)
    hps
    (by
      intro i j _ _
      show (0 : ℚ) ≤ if i = j then 1 / 2 else 1 / 4
      split <;> norm_num)
    hAs
    (by
      intro i t _ _
      show (0 : ℚ) < if i = t then 2 else 1
      split <;> norm_num)
  ⟨⟨hps, hAs⟩, key.1, key.2.2.2.1, key.2.2.2.2.1⟩

end ScaleHMM

/-! ## Termination and the values handed back -/

namespace ScaleHMM

variable {R D : Type}

open Finset

section Termination

variable [LinearOrderedField R] (dens : Density D) (lg : ℚ → R) (elapsed : Nat → Int)
  (maxiter maxtime : Int) (eps : XDouble R)

/-- What else a pass that ends at "Convergence reached!" leaves. -/
theorem iterate_converged_frame {h h1 : ScaleHMM R D} {l l1 : Locals R}
    (hstep : iterate dens lg elapsed maxiter maxtime eps h l = Step.converged h1 l1) :
    h1.logP = logLoop lg (forward (calc_densities dens h)).scalefactoralpha h.T ∧
    h1.dlogP = XDouble.sub h1.logP l.logPold ∧ l1.logPold = l.logPold ∧
    h1.logP.isnan = false := by
  unfold iterate at hstep
  simp only [check_for_state_swap, ite_self] at hstep
  split_ifs at hstep with hg hn hcv
  injection hstep with e1 e2
  subst e1 e2
  refine ⟨?_, ?_, ?_, ?_⟩
  · simp [calc_sumgamma, calc_loglikelihood]
  · simp [calc_sumgamma, calc_loglikelihood]
  · simp
  · simpa [calc_sumgamma, calc_loglikelihood] using hn

/-- What else a pass that ends at the `isnan(logPnew)` test leaves: `dlogP` is not
assigned in that pass. -/
theorem iterate_diverged_frame {h h1 : ScaleHMM R D} {l l1 : Locals R}
    (hstep : iterate dens lg elapsed maxiter maxtime eps h l = Step.diverged h1 l1) :
    h1.logP = logLoop lg (forward (calc_densities dens h)).scalefactoralpha h.T ∧
    h1.dlogP = h.dlogP ∧ l1.logPold = l.logPold := by
  unfold iterate at hstep
  simp only [check_for_state_swap, ite_self] at hstep
  split_ifs at hstep with hg hn hcv
  injection hstep with e1 e2
  subst e1 e2
  refine ⟨?_, ?_, ?_⟩
  · simp [calc_loglikelihood]
  · simp [calc_loglikelihood]
  · simp

/-- With a non-negative iteration limit the main loop is left within as many passes as
the limit leaves. -/
theorem baumWelchLoop_fuel (hM : 0 ≤ maxiter) (fuel : Nat) (h : ScaleHMM R D) (l : Locals R)
    (hfuel : maxiter ≤ l.iteration + fuel) :
    baumWelchLoop dens lg elapsed maxiter maxtime eps fuel h l ≠ LoopEnd.outOfFuel := by
  induction fuel generalizing h l with
  | zero =>
    rw [baumWelchLoop_unfold]
    split_ifs with hc
    · exfalso
      rcases hc.2 with h1 | h1
      · simp at hfuel; omega
      · omega
    · simp
  | succ fuel ih =>
    rw [baumWelchLoop_unfold]
    split_ifs with hc
    · simp only []
      cases hi : iterate dens lg elapsed maxiter maxtime eps h l with
      | next h1 l1 =>
        simp only []
        apply ih
        have := (iterate_next dens lg elapsed maxiter maxtime eps hi).2.2.2.2.2.2.2.2.1
        rw [this]
        push_cast at hfuel ⊢
        omega
      | converged h1 l1 => simp
      | diverged h1 l1 => simp
      | nonfinite => simp
    · simp

/-- The iteration counter only grows, and with a non-negative limit it does not pass the
limit. -/
theorem baumWelchLoop_iteration_le (hM : 0 ≤ maxiter) (fuel : Nat) (h hf : ScaleHMM R D)
    (l lf : Locals R) (stop : Stop) (hl : l.iteration ≤ maxiter)
    (hrun : baumWelchLoop dens lg elapsed maxiter maxtime eps fuel h l
      = LoopEnd.left stop hf lf) :
    l.iteration ≤ lf.iteration ∧ lf.iteration ≤ maxiter := by
  induction fuel generalizing h l with
  | zero =>
    rw [baumWelchLoop_unfold] at hrun
    split_ifs at hrun with hc
    simp only [LoopEnd.left.injEq] at hrun
    obtain ⟨-, -, rfl⟩ := hrun
    exact ⟨le_refl _, hl⟩
  | succ fuel ih =>
    rw [baumWelchLoop_unfold] at hrun
    split_ifs at hrun with hc
    · have hlt : l.iteration < maxiter := by
        rcases hc.2 with h1 | h1
        · exact h1
        · omega
      simp only [] at hrun
      cases hi : iterate dens lg elapsed maxiter maxtime eps h l with
      | next h1 l1 =>
        rw [hi] at hrun
        simp only [] at hrun
        have e := (iterate_next dens lg elapsed maxiter maxtime eps hi).2.2.2.2.2.2.2.2.1
        obtain ⟨a, b⟩ := ih h1 l1 (by rw [e]; omega) hrun
        exact ⟨by rw [e] at a; omega, b⟩
      | converged h1 l1 =>
        rw [hi] at hrun
        simp only [LoopEnd.left.injEq] at hrun
        obtain ⟨-, -, rfl⟩ := hrun
        have e := (iterate_converged dens lg elapsed maxiter maxtime eps hi).2.2.2.2.2.2.2.1
        rw [e]
        constructor <;> omega
      | diverged h1 l1 =>
        rw [hi] at hrun
        simp only [LoopEnd.left.injEq] at hrun
        obtain ⟨-, -, rfl⟩ := hrun
        have e := (iterate_diverged dens lg elapsed maxiter maxtime eps hi).2.2.2.2.1
        rw [e]
        constructor <;> omega
      | nonfinite => rw [hi] at hrun; simp at hrun
    · injection hrun with e1 e2 e3
      subst e3
      exact ⟨le_refl _, hl⟩

/-- After `n` whole passes: the previous log-likelihood the loop holds is `-inf` before
the first pass and the log-likelihood of the last pass afterwards. -/
theorem passes_logPold (n : Nat) (h h1 : ScaleHMM R D) (l l1 : Locals R)
    (hp : passes dens lg elapsed maxiter maxtime eps n h l = some (h1, l1)) :
    l1.logPold = (if n = 0 then l.logPold else h1.logP) ∧ (n = 0 → h1 = h) := by
  cases n with
  | zero =>
    simp only [passes, Option.some.injEq, Prod.mk.injEq] at hp
    obtain ⟨rfl, rfl⟩ := hp
    simp
  | succ m =>
    obtain ⟨h0, l0, -, hs⟩ := passes_last dens lg elapsed maxiter maxtime eps m _ _ _ _ hp
    have := (iterate_next_frame dens lg elapsed maxiter maxtime eps hs).2.2.2.2.2.2.1
    simp [this]

end Termination

end ScaleHMM

namespace ScaleHMM

variable {R D : Type}

open Finset

section Termination2

variable [LinearOrderedField R] (dens : Density D) (lg : ℚ → R) (elapsed : Nat → Int)
  (maxtime : Int) (eps : XDouble R)

/-- C12: with `*maxiter = M ≥ 0` the main loop of `baumWelch` is left within `M` passes
(fuel `M` lets the model follow it to its end).  On return `*maxiter` is the number of
passes started, between 0 and `M`: the `n` whole passes, and one more when the loop was
left at a `break`.  `*eps` is the member `dlogP`: the log-likelihood of the last pass
that got past the `isnan` test minus the log-likelihood of the pass before it (`-inf`
before the first pass); when no pass got that far it is the value `dlogP` had at the
call. -/
theorem baumWelch_terminates (alloc : Nat → Nat → ℚ) (h : ScaleHMM R D) (M fuel : Nat)
    (hfuel : M ≤ fuel) :
    baumWelch dens lg elapsed alloc fuel h M maxtime eps ≠ Outcome.outOfFuel ∧
    ∀ r, baumWelch dens lg elapsed alloc fuel h M maxtime eps = Outcome.returned r →
      0 ≤ r.maxiter ∧ r.maxiter ≤ M ∧ r.eps = r.model.dlogP ∧
      ∃ n h0 l0,
        passes dens lg elapsed M maxtime eps n (loopStart elapsed alloc h).1
          (loopStart elapsed alloc h).2 = some (h0, l0) ∧
        l0.logPold = (if n = 0 then XDouble.negInf else h0.logP) ∧
        (n = 0 → h0.dlogP = h.dlogP) ∧
        (∀ m, n = m + 1 →
          ∃ hp lp, passes dens lg elapsed M maxtime eps m (loopStart elapsed alloc h).1
              (loopStart elapsed alloc h).2 = some (hp, lp) ∧
            h0.dlogP = XDouble.sub h0.logP lp.logPold ∧
            lp.logPold = (if m = 0 then XDouble.negInf else hp.logP)) ∧
        (r.stop = Stop.limit →
          r.maxiter = n ∧ r.model.logP = h0.logP ∧ r.eps = h0.dlogP) ∧
        (r.stop = Stop.converged →
          r.maxiter = n + 1 ∧ r.eps = XDouble.sub r.model.logP l0.logPold) ∧
        (r.stop = Stop.diverged →
          r.maxiter = n + 1 ∧ r.model.logP.isnan = true ∧ r.eps = h0.dlogP) := by
  have hM : (0 : Int) ≤ (M : Int) := Int.natCast_nonneg M
  rw [baumWelch_eq_loop]
  constructor
  · have hne := baumWelchLoop_fuel dens lg elapsed M maxtime eps hM fuel
      (loopStart elapsed alloc h).1 (loopStart elapsed alloc h).2
      (by simp only [loopStart]; omega)
    cases hrun : baumWelchLoop dens lg elapsed M maxtime eps fuel
        (loopStart elapsed alloc h).1 (loopStart elapsed alloc h).2 with
    | left stop hf lf => simp
    | nonfinite => simp
    | outOfFuel => exact absurd hrun hne
  · intro r hret
    cases hrun : baumWelchLoop dens lg elapsed M maxtime eps fuel
        (loopStart elapsed alloc h).1 (loopStart elapsed alloc h).2 with
    | nonfinite => rw [hrun] at hret; cases hret
    | outOfFuel => rw [hrun] at hret; cases hret
    | left stop hf lf =>
      rw [hrun] at hret
      simp only [Outcome.returned.injEq] at hret
      subst hret
      obtain ⟨hlo, hhi⟩ := baumWelchLoop_iteration_le dens lg elapsed M maxtime eps hM fuel
        _ hf _ lf stop (by simp only [loopStart]; exact hM) hrun
      obtain ⟨n, h0, l0, hp, hcase⟩ :=
        baumWelchLoop_left dens lg elapsed M maxtime eps fuel _ hf _ lf stop hrun
      have hpI := (passes_iteration dens lg elapsed M maxtime eps n _ _ _ _ hp).1
      have hold := passes_logPold dens lg elapsed M maxtime eps n _ _ _ _ hp
      simp only [loopStart] at hlo hpI hold
      refine ⟨hlo, hhi, rfl, n, h0, l0, hp, hold.1, ?_, ?_, ?_, ?_, ?_⟩
      · intro hn
        rw [hold.2 hn]
      · intro m hm
        subst hm
        obtain ⟨hp0, lp0, hpp, hs⟩ :=
          passes_last dens lg elapsed M maxtime eps m _ _ _ _ hp
        have hfr := iterate_next_frame dens lg elapsed M maxtime eps hs
        have holdp := passes_logPold dens lg elapsed M maxtime eps m _ _ _ _ hpp
        simp only [loopStart] at holdp
        exact ⟨hp0, lp0, hpp, hfr.2.2.2.2.2.1, holdp.1⟩
      · intro hstop
        simp only at hstop
        rcases hcase with ⟨-, rfl, rfl⟩ | ⟨hs, -⟩ | ⟨hs, -⟩
        · exact ⟨by simp [hpI], rfl, rfl⟩
        · rw [hs] at hstop; cases hstop
        · rw [hs] at hstop; cases hstop
      · intro hstop
        simp only at hstop
        rcases hcase with ⟨hs, -, -⟩ | ⟨-, hstep⟩ | ⟨hs, -⟩
        · rw [hs] at hstop; cases hstop
        · have hit := (iterate_converged dens lg elapsed M maxtime eps hstep).2.2.2.2.2.2.2.1
          have hfr := iterate_converged_frame dens lg elapsed M maxtime eps hstep
          exact ⟨by simp [hit, hpI], hfr.2.1⟩
        · rw [hs] at hstop; cases hstop
      · intro hstop
        simp only at hstop
        rcases hcase with ⟨hs, -, -⟩ | ⟨hs, -⟩ | ⟨-, hstep⟩
        · rw [hs] at hstop; cases hstop
        · rw [hs] at hstop; cases hstop
        · have hd := iterate_diverged dens lg elapsed M maxtime eps hstep
          have hfr := iterate_diverged_frame dens lg elapsed M maxtime eps hstep
          exact ⟨by simp [hd.2.2.2.2.1, hpI], hd.2.2.2.2.2, hfr.2.1⟩

end Termination2

end ScaleHMM

namespace ScaleHMM

theorem baumWelch_terminates_witness :
    (1 : Nat) ≤ 1 ∧
    baumWelch exampleDensity (fun q => Real.log q) (fun _ => 0) (fun _ _ => 0) 1
        (exampleHMM ℝ) 1 (-1) (XDouble.fin 1) ≠ Outcome.outOfFuel ∧
    ∃ r, baumWelch exampleDensity (fun q => Real.log q) (fun _ => 0) (fun _ _ => 0) 1
        (exampleHMM ℝ) 1 (-1) (XDouble.fin 1) = Outcome.returned r ∧
      r.stop = Stop.limit ∧ r.maxiter = 1 ∧
      0 ≤ r.maxiter ∧ r.maxiter ≤ 1 ∧ r.eps = r.model.dlogP := by
  have key := baumWelch_terminates exampleDensity (fun q => Real.log q) (fun _ => 0) (-1)
    (XDouble.fin 1) (fun _ _ => 0) (exampleHMM ℝ) 1 1 (le_refl 1)
  simp only [Nat.cast_one] at key
  obtain ⟨r, hr, hs, hm⟩ := exampleHMM_one_pass
  obtain ⟨h0, h1, he, -⟩ := key.2 r hr
  exact ⟨le_refl 1, key.1, r, hr, hs, hm, h0, h1, he⟩

end ScaleHMM

/-! ## A log-likelihood that is not a number -/

namespace ScaleHMM

variable {R D : Type}

open Finset

section Divergence

variable [LinearOrderedField R] (dens : Density D) (lg : ℚ → R) (elapsed : Nat → Int)
  (maxiter maxtime : Int) (eps : XDouble R)

/-- The passes of the model go where the two tests of the loop body send them. -/
theorem iterate_loopBranch (h : ScaleHMM R D) (l : Locals R)
    (hc : ∀ t, t < h.T → (forward (calc_densities dens h)).scalefactoralpha t ≠ 0) :
    match loopBranch (calc_loglikelihood lg
        (backward (forward (calc_densities dens h)))).logP l.logPold eps with
    | Branch.nanBreak =>
        ∃ h1 l1, iterate dens lg elapsed maxiter maxtime eps h l = Step.diverged h1 l1
    | Branch.convergedBreak =>
        ∃ h1 l1, iterate dens lg elapsed maxiter maxtime eps h l = Step.converged h1 l1
    | Branch.reestimation =>
        ∃ h1 l1, iterate dens lg elapsed maxiter maxtime eps h l = Step.next h1 l1 := by
  have hc1 : ∀ t, t < (forward (calc_densities dens h)).T →
      (forward (calc_densities dens h)).scalefactoralpha t ≠ 0 := by
    intro t ht
    exact hc t (by simpa using ht)
  by_cases hn : (calc_loglikelihood lg
      (backward (forward (calc_densities dens h)))).logP.isnan = true
  · have hb : loopBranch (calc_loglikelihood lg
        (backward (forward (calc_densities dens h)))).logP l.logPold eps
        = Branch.nanBreak := by
      simp [loopBranch, hn]
    rw [hb]
    simp only []
    unfold iterate
    simp only [check_for_state_swap, ite_self]
    rw [if_pos hc1, if_pos hn]
    exact ⟨_, _, rfl⟩
  · by_cases hcv : XDouble.lt (XDouble.fabs (XDouble.sub (calc_loglikelihood lg
        (backward (forward (calc_densities dens h)))).logP l.logPold)) eps = true
    · have hb : loopBranch (calc_loglikelihood lg
          (backward (forward (calc_densities dens h)))).logP l.logPold eps
          = Branch.convergedBreak := by
        simp [loopBranch, hn, hcv]
      rw [hb]
      simp only []
      unfold iterate
      simp only [check_for_state_swap, ite_self]
      rw [if_pos hc1, if_neg hn, if_pos]
      · exact ⟨_, _, rfl⟩
      · simpa [calc_sumgamma, calc_loglikelihood] using hcv
    · have hb : loopBranch (calc_loglikelihood lg
          (backward (forward (calc_densities dens h)))).logP l.logPold eps
          = Branch.reestimation := by
        simp [loopBranch, hn, hcv]
      rw [hb]
      simp only []
      unfold iterate
      simp only [check_for_state_swap, ite_self]
      rw [if_pos hc1, if_neg hn, if_neg]
      · exact ⟨_, _, rfl⟩
      · simpa [calc_sumgamma, calc_loglikelihood] using hcv

/-- Whole passes are passes of the main loop. -/
theorem baumWelchLoop_of_passes (n k : Nat) (h h0 : ScaleHMM R D) (l l0 : Locals R)
    (hp : passes dens lg elapsed maxiter maxtime eps n h l = some (h0, l0)) :
    baumWelchLoop dens lg elapsed maxiter maxtime eps (n + k) h l
      = baumWelchLoop dens lg elapsed maxiter maxtime eps k h0 l0 := by
  induction n generalizing h l with
  | zero =>
    simp only [passes, Option.some.injEq, Prod.mk.injEq] at hp
    obtain ⟨rfl, rfl⟩ := hp
    simp
  | succ n ih =>
    rw [passes] at hp
    split_ifs at hp with hc
    cases hi : iterate dens lg elapsed maxiter maxtime eps h l with
    | next h2 l2 =>
      rw [hi] at hp
      have e : n + 1 + k = (n + k) + 1 := by omega
      rw [e, baumWelchLoop_unfold, if_pos hc]
      simp only [hi]
      exact ih h2 l2 hp
    | converged h2 l2 => rw [hi] at hp; simp at hp
    | diverged h2 l2 => rw [hi] at hp; simp at hp
    | nonfinite => rw [hi] at hp; simp at hp

end Divergence

end ScaleHMM

namespace ScaleHMM

variable {R D : Type}

open Finset

section Divergence2

variable [LinearOrderedField R] (dens : Density D) (lg : ℚ → R) (elapsed : Nat → Int)
  (maxiter maxtime : Int) (eps : XDouble R)

/-- C11 (amended): if the log-likelihood computed in pass `n + 1` of the main loop of
`baumWelch` is NaN, the loop is left in that pass at the `break` under
`isnan(logPnew)`, before `dlogP` is assigned and before any reestimation: `baumWelch`
returns with `*maxiter = n + 1`, and `A`, `proba` and `dlogP` are those the pass
started with. -/
theorem baumWelch_nan_stops (alloc : Nat → Nat → ℚ) (h h0 : ScaleHMM R D) (l0 : Locals R)
    (n fuel : Nat)
    (hp : passes dens lg elapsed maxiter maxtime eps n (loopStart elapsed alloc h).1
      (loopStart elapsed alloc h).2 = some (h0, l0))
    (hcond : (h0.baumWelchTime_real < maxtime ∨ maxtime < 0)
      ∧ (l0.iteration < maxiter ∨ maxiter < 0))
    (hc : ∀ t, t < h0.T → (forward (calc_densities dens h0)).scalefactoralpha t ≠ 0)
    (hnan : (calc_loglikelihood lg
      (backward (forward (calc_densities dens h0)))).logP.isnan = true)
    (hfuel : n + 1 ≤ fuel) :
    ∃ r, baumWelch dens lg elapsed alloc fuel h maxiter maxtime eps = Outcome.returned r ∧
      r.stop = Stop.diverged ∧ r.maxiter = n + 1 ∧ r.model.logP.isnan = true ∧
      r.model.A = h0.A ∧ r.model.proba = h0.proba ∧ r.model.dlogP = h0.dlogP := by
  have hb := iterate_loopBranch dens lg elapsed maxiter maxtime eps h0 l0 hc
  have hbr : loopBranch (calc_loglikelihood lg
      (backward (forward (calc_densities dens h0)))).logP l0.logPold eps
      = Branch.nanBreak := by
    simp [loopBranch, hnan]
  rw [hbr] at hb
  obtain ⟨h1, l1, hstep⟩ := hb
  obtain ⟨hA, hpr, -, -, hit, hnan1⟩ :=
    iterate_diverged dens lg elapsed maxiter maxtime eps hstep
  have hd := (iterate_diverged_frame dens lg elapsed maxiter maxtime eps hstep).2.1
  have hpI := (passes_iteration dens lg elapsed maxiter maxtime eps n _ _ _ _ hp).1
  simp only [loopStart] at hpI
  obtain ⟨k, rfl⟩ : ∃ k, fuel = n + (k + 1) := ⟨fuel - (n + 1), by omega⟩
  rw [baumWelch_eq_loop, baumWelchLoop_of_passes dens lg elapsed maxiter maxtime eps n (k + 1)
    _ _ _ _ hp, baumWelchLoop_unfold, if_pos hcond]
  simp only [hstep]
  exact ⟨_, rfl, rfl, by simp [hit, hpI], hnan1, hA, hpr, hd⟩

end Divergence2

/-- The first pass over `negativeHMM` computes the scale factor `-1`, whose logarithm is
NaN. -/
theorem negativeHMM_scalefactor (R : Type) :
    (forward (calc_densities flatDensity (negativeHMM R))).scalefactoralpha 0 = -1 := by
  rw [scalefactor_flat (negativeHMM R) rfl rfl rfl (fun _ _ => rfl)]
  simp [negativeHMM]

theorem baumWelch_nan_stops_witness :
    ∃ r, baumWelch flatDensity (fun q => Real.log q) (fun _ => 0) (fun _ _ => 0) 1
        (negativeHMM ℝ) 10 (-1) (XDouble.fin 1) = Outcome.returned r ∧
      r.stop = Stop.diverged ∧ r.maxiter = ((0 : Nat) : Int) + 1 ∧
      r.model.logP.isnan = true ∧
      r.model.A = (negativeHMM ℝ).A ∧ r.model.proba = (negativeHMM ℝ).proba ∧
      r.model.dlogP = (negativeHMM ℝ).dlogP :=
  baumWelch_nan_stops flatDensity (fun q => Real.log q) (fun _ => 0) 10 (-1) (XDouble.fin 1)
    (fun _ _ => 0) (negativeHMM ℝ) (loopStart (fun _ => 0) (fun _ _ => 0) (negativeHMM ℝ)).1
    (loopStart (fun _ => 0) (fun _ _ => 0) (negativeHMM ℝ)).2 0 1 rfl
    (by simp [loopStart])
    (by
      intro t ht
      have : t = 0 := by
        have : t < 1 := ht
        omega
      subst this
      show (forward (calc_densities flatDensity (negativeHMM ℝ))).scalefactoralpha 0 ≠ 0
      rw [negativeHMM_scalefactor]
      norm_num)
    (by
      show (logLoop (fun q => Real.log q)
        (forward (calc_densities flatDensity (negativeHMM ℝ))).scalefactoralpha 1).isnan = true
      have hlog : XDouble.log (fun q => Real.log q) (-1 : ℚ) = XDouble.nan := by
        unfold XDouble.log
        norm_num
      simp [logLoop, negativeHMM_scalefactor, hlog, XDouble.add, XDouble.isnan])
    (le_refl 1)

/-- The first pass over `zeroHMM` computes the scale factor 0. -/
theorem zeroHMM_scalefactor (R : Type) :
    (forward (calc_densities flatDensity (zeroHMM R))).scalefactoralpha 0 = 0 := by
  rw [scalefactor_flat (zeroHMM R) rfl rfl rfl (fun _ _ => rfl)]
  simp [zeroHMM]

/-- C11 (as stated, for a log-likelihood of `-inf`): on a model with one observation
and all initial weights zero, `forward()` leaves the scale factor 0 and
`calc_loglikelihood()` the log-likelihood `-inf`.  The test `isnan(logPnew)` fails on
it, `dlogP = -inf - (-inf)` is NaN, which is not below `*eps`, and the pass goes on to
the reestimation block instead of leaving the loop. -/
theorem logP_negInf_not_stopped :
    (calc_loglikelihood (fun q => Real.log q)
      (backward (forward (calc_densities flatDensity (zeroHMM ℝ))))).logP = XDouble.negInf ∧
    (loopStart (fun _ => 0) (fun _ _ => 0) (zeroHMM ℝ)).2.logPold = XDouble.negInf ∧
    loopBranch (calc_loglikelihood (fun q => Real.log q)
        (backward (forward (calc_densities flatDensity (zeroHMM ℝ))))).logP
      (loopStart (fun _ => 0) (fun _ _ => 0) (zeroHMM ℝ)).2.logPold (XDouble.fin 1)
      = Branch.reestimation ∧
    loopBranch (XDouble.posInf : XDouble ℝ) XDouble.negInf (XDouble.fin 1)
      = Branch.reestimation := by
  have hlog : (calc_loglikelihood (fun q => Real.log q)
      (backward (forward (calc_densities flatDensity (zeroHMM ℝ))))).logP = XDouble.negInf := by
    show logLoop (fun q => Real.log q)
      (forward (calc_densities flatDensity (zeroHMM ℝ))).scalefactoralpha 1 = XDouble.negInf
    simp [logLoop, zeroHMM_scalefactor, XDouble.log, XDouble.add]
  refine ⟨hlog, rfl, ?_, ?_⟩
  · rw [hlog]
    simp [loopBranch, loopStart, XDouble.isnan, XDouble.sub, XDouble.neg, XDouble.add,
      XDouble.fabs, XDouble.lt]
  · simp [loopBranch, XDouble.isnan, XDouble.sub, XDouble.neg, XDouble.add,
      XDouble.fabs, XDouble.lt]

end ScaleHMM

/-! ## The state-assignment diagnostic -/

namespace ScaleHMM

variable {R D : Type}

open Finset

/-- The flip count is the number of times `t < n` at which `gamma[2][t] > 0.5` and
`gammaold[2][t] > 0.5` differ. -/
theorem stateFlips_eq_card (gamma gammaold : Nat → Nat → ℚ) (n : Nat) :
    stateFlips gamma gammaold n
      = ((range n).filter fun t => ¬(gamma 2 t > 0.5 ↔ gammaold 2 t > 0.5)).card := by
  induction n with
  | zero => simp [stateFlips]
  | succ n ih =>
    rw [stateFlips, ih, range_succ, filter_insert]
    by_cases h1 : gamma 2 n > 0.5 <;> by_cases h2 : gammaold 2 n > 0.5 <;>
      simp [h1, h2]

/-- `calc_sumgamma()` writes the rows `0 .. N-1` of `gamma` only. -/
theorem calc_sumgamma_gamma_outside (h : ScaleHMM R D) (i t : Nat) (hi : h.N ≤ i) :
    (calc_sumgamma h).gamma i t = h.gamma i t := by
  simp [calc_sumgamma, Nat.not_lt.mpr hi]

section Flips

variable [LinearOrderedField R] (dens : Density D) (lg : ℚ → R) (elapsed : Nat → Int)
  (maxiter maxtime : Int) (eps : XDouble R)

/-- The flip count a whole pass leaves: row 2 of the posteriors of this pass against
row 2 of the previous ones, over all `t < T`. -/
theorem iterate_next_flips {h h1 : ScaleHMM R D} {l l1 : Locals R}
    (hstep : iterate dens lg elapsed maxiter maxtime eps h l = Step.next h1 l1) :
    h1.sumdiff_state1 = stateFlips h1.gamma l.gammaold h.T := by
  unfold iterate at hstep
  simp only [check_for_state_swap, ite_self] at hstep
  split_ifs at hstep with hg hn hcv
  injection hstep with e1 e2
  subst e1 e2
  simp [updateDensities, reestimate, calc_sumgamma, calc_loglikelihood]

end Flips

/-- On the two-state model the flip count of the first pass is taken from
`gamma[2][t]`, which is not a row of the posterior matrix: it is the flip count of the
memory past the matrix. -/
theorem twoStateHMM_flips (alloc : Nat → Nat → ℚ) :
    ∃ h1 l1,
      iterate exampleDensity (fun q => Real.log q) (fun _ => 0) 10 (-1) (XDouble.fin 1)
        (twoStateHMM ℝ alloc) (exampleLocals ℝ) = Step.next h1 l1 ∧
      h1.sumdiff_state1 = stateFlips alloc (fun _ _ => 0) 4 := by
  have hpos : ∀ t, t < (twoStateHMM ℝ alloc).T →
      0 < (forward (calc_densities exampleDensity (twoStateHMM ℝ alloc))).scalefactoralpha t := by
    intro t ht
    rw [forward_scalefactoralpha _ (by simpa using ht)]
    refine (fwd_pos (calc_densities exampleDensity (twoStateHMM ℝ alloc)) ?_ ?_ ?_ ?_ ?_ t
      (by simpa using ht)).2
    · intro i _
      show (0 : ℚ) ≤ 1 / 2
      norm_num
    · show ∑ i in range 2, (1 / 2 : ℚ) = 1
      simp
    · intro i j _ _
      show (0 : ℚ) ≤ if i = j then 9 / 10 else 1 / 10
      split <;> norm_num
    · intro i hi
      have hi2 : i < 2 := hi
      show ∑ j in range 2, (if i = j then (9 / 10 : ℚ) else 1 / 10) = 1
      interval_cases i <;> simp [sum_range_succ] <;> norm_num
    · intro i u hi hu
      have hi2 : i < 2 := hi
      have hu4 : u < 4 := hu
      simp only [density, calc_densities, twoStateHMM, construct, hi2, hu4, and_self, if_true,
        Bool.false_eq_true, if_false, exampleDensity]
      split <;> norm_num
  obtain ⟨h1, l1, e⟩ :=
    iterate_first_pass exampleDensity (fun q => Real.log q) (fun _ => 0) 10 (-1)
      (XDouble.fin 1) (twoStateHMM ℝ alloc) (exampleLocals ℝ) hpos rfl
  refine ⟨h1, l1, e, ?_⟩
  rw [iterate_next_flips _ _ _ _ _ _ e]
  have hg := (iterate_next _ _ _ _ _ _ e).2.2.2.1
  have hrow : ∀ t, h1.gamma 2 t = alloc 2 t := by
    intro t
    rw [hg, calc_sumgamma_gamma_outside _ _ _ (by simp [twoStateHMM, construct])]
    simp [twoStateHMM, construct]
  rw [stateFlips_eq_card, stateFlips_eq_card]
  simp only [hrow]
  rfl

/-- C19 (at `N = 2`, `T = 4`): the flip count of a pass reads `gamma[2][t]`, and state 2
is not a state of a model with two states.  On the two-state model the count the first
pass leaves is decided by what the memory past the rows of the matrix holds: 0 when it
holds zeros, 4 when it holds ones. -/
theorem stateFlips_reads_row_two :
    (twoStateHMM ℝ (fun _ _ => 0)).N = 2 ∧ (twoStateHMM ℝ (fun _ _ => 0)).T = 4 ∧
    (∃ h1 l1,
      iterate exampleDensity (fun q => Real.log q) (fun _ => 0) 10 (-1) (XDouble.fin 1)
        (twoStateHMM ℝ (fun _ _ => 0)) (exampleLocals ℝ) = Step.next h1 l1 ∧
      h1.sumdiff_state1 = 0) ∧
    (∃ h1 l1,
      iterate exampleDensity (fun q => Real.log q) (fun _ => 0) 10 (-1) (XDouble.fin 1)
        (twoStateHMM ℝ (fun i _ => if i = 2 then 1 else 0)) (exampleLocals ℝ)
        = Step.next h1 l1 ∧
      h1.sumdiff_state1 = 4) := by
  refine ⟨rfl, rfl, ?_, ?_⟩
  · obtain ⟨h1, l1, e, hf⟩ := twoStateHMM_flips (fun _ _ => 0)
    refine ⟨h1, l1, e, ?_⟩
    rw [hf, stateFlips_eq_card]
    simp
  · obtain ⟨h1, l1, e, hf⟩ := twoStateHMM_flips (fun i _ => if i = 2 then 1 else 0)
    refine ⟨h1, l1, e, ?_⟩
    rw [hf, stateFlips_eq_card]
    norm_num

end ScaleHMM

/-! ## The mixture weights -/

namespace ScaleHMM

variable {R D : Type}

open Finset

/-- The posteriors `calc_sumgamma()` leaves after `forward()` and `backward()` sum to one
over the states at every time, when no scale factor is zero. -/
theorem gamma_column_sum (h : ScaleHMM R D)
    (hc : ∀ t, t < h.T → (forward h).scalefactoralpha t ≠ 0) (t : Nat) (ht : t < h.T) :
    ∑ i in range (calc_sumgamma (backward (forward h))).N,
      (calc_sumgamma (backward (forward h))).gamma i t = 1 := by
  have key := alpha_beta_sum_one h hc (h.T - 1 - t) (by omega)
  have e : h.T - 1 - (h.T - 1 - t) = t := by omega
  rw [e] at key
  have hN : (calc_sumgamma (backward (forward h))).N = h.N := by simp [calc_sumgamma]
  rw [hN, ← key]
  refine sum_congr rfl fun i hi => ?_
  rw [calc_sumgamma_gamma _ (by simpa using mem_range.mp hi) (by simpa using ht)]
  simp

/-- C21: when the posteriors of every time step sum to one over the states and
`T ≥ 1`, the weights `calc_weights` writes for the `N` states sum to one. -/
theorem calc_weights_sum_one (h : ScaleHMM R D) (weights : Nat → ℚ) (hT : 1 ≤ h.T)
    (hg : ∀ t, t < h.T → ∑ i in range h.N, h.gamma i t = 1) :
    ∑ i in range h.N, calc_weights h weights i = 1 := by
  have hT0 : (h.T : ℚ) ≠ 0 := by
    have : 0 < h.T := hT
    exact_mod_cast this.ne'
  have e : ∀ i ∈ range h.N,
      calc_weights h weights i = (∑ t in range h.T, h.gamma i t) / (h.T : ℚ) := by
    intro i hi
    simp [calc_weights, mem_range.mp hi, loopSum_eq_sum]
  rw [sum_congr rfl e, ← sum_div, sum_comm,
    sum_congr rfl fun t ht => hg t (mem_range.mp ht)]
  simp [hT0]

theorem calc_weights_sum_one_witness :
    (∀ t, t < (calc_sumgamma (backward (forward (exampleHMM ℚ)))).T →
      ∑ i in range (calc_sumgamma (backward (forward (exampleHMM ℚ)))).N,
        (calc_sumgamma (backward (forward (exampleHMM ℚ)))).gamma i t = 1) ∧
    ∑ i in range (calc_sumgamma (backward (forward (exampleHMM ℚ)))).N,
      calc_weights (calc_sumgamma (backward (forward (exampleHMM ℚ)))) (fun _ => 0) i = 1 :=
  have hg : ∀ t, t < (calc_sumgamma (backward (forward (exampleHMM ℚ)))).T →
      ∑ i in range (calc_sumgamma (backward (forward (exampleHMM ℚ)))).N,
        (calc_sumgamma (backward (forward (exampleHMM ℚ)))).gamma i t = 1 := fun t ht =>
    gamma_column_sum (exampleHMM ℚ)
      (fun u hu => (exampleHMM_scalefactors_pos ℚ u hu).ne') t ht
  ⟨hg, calc_weights_sum_one (calc_sumgamma (backward (forward (exampleHMM ℚ))))
    (fun _ => 0) (by decide) hg⟩

end ScaleHMM

/-! ## The first pass -/

namespace ScaleHMM

variable {R D : Type}

open Finset

section FirstPass

variable [LinearOrderedField R] (dens : Density D) (lg : ℚ → R) (elapsed : Nat → Int)
  (maxiter maxtime : Int) (eps : XDouble R)

end FirstPass

end ScaleHMM

namespace ScaleHMM

variable {R D : Type}

open Finset

section FirstPass2

variable [LinearOrderedField R] (dens : Density D) (lg : ℚ → R) (elapsed : Nat → Int)
  (maxiter maxtime : Int) (eps : XDouble R)

end FirstPass2

end ScaleHMM

/-! ## Where the rounding of `double` decides -/

namespace Binary64

namespace ScaleHMM

open XDouble

/-- C14 (at `N = 2`, `T = 2`, `proba = (1/2, 1/2)`, every entry of `A` 1/2, density
values 1 but `b[1][0] = 2^-54`, all of them binary64 numbers): `forward()` and
`backward()` return, with the scale factors 1/2 and 1, and `calc_sumgamma()` leaves
`gamma[1][0] = 2^-54` and `gamma[1][1] = 1/2`, but `sumgamma[1] = 0`: the accumulated
`2^-54 + 1/2` is rounded to `1/2`, and the subtraction of `gamma[1][1]` leaves nothing of
the sum over `t = 0 .. T-2`, which is `2^-54`. -/
theorem calc_sumgamma_cancels :
    round (1 / 2 ^ 54) = fin (1 / 2 ^ 54) ∧
    ((forward (tinyHMM (1 / 2 ^ 54))).bind backward).map
        (fun h => (h.scalefactoralpha 0, h.scalefactoralpha 1))
      = some (fin (1 / 2), fin 1) ∧
    ((forward (tinyHMM (1 / 2 ^ 54))).bind backward).map
        (fun h => ((calc_sumgamma h).gamma 1 0, (calc_sumgamma h).gamma 1 1))
      = some (fin (1 / 2 ^ 54), fin (1 / 2)) ∧
    ((forward (tinyHMM (1 / 2 ^ 54))).bind backward).map
        (fun h => loopSum ((calc_sumgamma h).T - 1) ((calc_sumgamma h).gamma 1))
      = some (fin (1 / 2 ^ 54)) ∧
    ((forward (tinyHMM (1 / 2 ^ 54))).bind backward).map
        (fun h => (calc_sumgamma h).sumgamma 1)
      = some (fin 0) := by
  decide!

/-- On the same model with every density value 1 nothing is rounded, and the
reestimated rows of `A` sum to one. -/
theorem pass_exact_input :
    (pass (tinyHMM 1)).map (fun h => (h.A 1 0, h.A 1 1, loopSum h.N (h.A 1)))
      = some (fin (1 / 2), fin (1 / 2), fin 1) := by
  decide!

/-- With `b[1][0]` the binary64 number nearest to `10^-16`: `sumgamma[1]` is `2^-53`
where `gamma[1][0]` is `b[1][0]` itself, and row 1 of the reestimated `A` sums to
a number below 0.901. -/
theorem pass_decimal_density :
    round (1 / 10 ^ 16) = fin (2028240960365167 / 2 ^ 104) ∧
    ((forward (tinyHMM (2028240960365167 / 2 ^ 104))).bind backward).map
        (fun h => ((calc_sumgamma (calc_sumxi h)).gamma 1 0,
          (calc_sumgamma (calc_sumxi h)).sumgamma 1))
      = some (fin (2028240960365167 / 2 ^ 104), fin (1 / 2 ^ 53)) ∧
    (pass (tinyHMM (2028240960365167 / 2 ^ 104))).map
        (fun h => (h.A 1 0, h.A 1 1, loopSum h.N (h.A 1)))
      = some (fin (2028240960365167 / 2 ^ 52), fin (2028240960365167 / 2 ^ 52),
          fin (2028240960365167 / 2 ^ 51)) ∧
    (2028240960365167 / 2 ^ 51 : ℚ) < 901 / 1000 := by
  decide!

/-- C20 (as stated, at `N = 2`, `T = 2`, `proba = (1/2, 1/2)`, every entry of `A` 1/2
and every density value `2^-1074`): `proba` and the rows of `A` are non-negative and sum
to one and every density value is positive, but each product
`proba[i] * densities[i][0]` is rounded to zero, the scale factor of `t = 0` is zero,
`scalealpha[0][i]` is `0/0`, and `forward()` ends in `exit(1)` at `t = 1`. -/
theorem forward_underflow :
    (loopSum underflowHMM.N underflowHMM.proba = fin 1 ∧
      ∀ i, i < underflowHMM.N → loopSum underflowHMM.N (underflowHMM.A i) = fin 1) ∧
    (∀ i, i < underflowHMM.N → ∀ t, t < underflowHMM.T →
      density underflowHMM i t = fin (1 / 2 ^ 1074)) ∧
    round (1 / 2 ^ 1074) = fin (1 / 2 ^ 1074) ∧ (0 : ℚ) < 1 / 2 ^ 1074 ∧
    forwardAlpha underflowHMM 0 0 = fin 0 ∧ forwardAlpha underflowHMM 0 1 = fin 0 ∧
    forwardScalefactor underflowHMM 0 = fin 0 ∧
    forwardScalealpha underflowHMM 0 0 = nan ∧
    forwardScalealpha underflowHMM 1 0 = nan ∧
    (forward underflowHMM).isNone = true := by
  decide!

end ScaleHMM

end Binary64

namespace Binary64

open XDouble

/-- The rounding at some values: a third and a tenth, two ties (to the even neighbour
below and above), the subnormal ties `1.5 * 2^-1074` and `2.5 * 2^-1074`, the largest
value that is not yet rounded to infinity, and infinity from there on. -/
theorem round_values :
    round (1 / 3) = fin (6004799503160661 / 2 ^ 54) ∧
    round (1 / 10) = fin (3602879701896397 / 2 ^ 55) ∧
    round (-1 / 10) = fin (-3602879701896397 / 2 ^ 55) ∧
    round (1 + 1 / 2 ^ 53) = fin 1 ∧
    round (1 + 3 / 2 ^ 53) = fin (1 + 1 / 2 ^ 51) ∧
    round (3 / 2 ^ 1075) = fin (1 / 2 ^ 1073) ∧
    round (5 / 2 ^ 1075) = fin (1 / 2 ^ 1073) ∧
    round (1 / 2 ^ 1075) = fin 0 ∧
    round (2 ^ 1024 - 2 ^ 970 - 1) = fin (2 ^ 1024 - 2 ^ 971) ∧
    round (2 ^ 1024 - 2 ^ 970) = posInf ∧
    round (-(2 ^ 1024)) = negInf := by
  decide!

end Binary64
